import Mathlib

/-!
# Huffman file compressor (`main2.cpp`): shallow embedding

The C++ program keeps a member table `huffmanCodes`, builds a Huffman tree with a
`std::priority_queue`, writes a container (table header, bit length, packed payload)
and reads it back.  The embedding below follows the source function by function.

* `char` / bytes are `Fin 256`; a `std::string` is a `List Byte`
  (the code strings hold the characters `'0'` = 48 and `'1'` = 49).
* `int` is `Int` with an explicit 32-bit two's complement wrap (`wrap32`), as the
  usual targets compute it; the bytes of an `int` in a file are little-endian.
* `std::unordered_map` is an association list kept in first-insertion order; the
  order in which the map is *iterated* is a parameter (`StdLib.order`).
* `std::priority_queue` is a parameter as well (`PriorityQueue`): the C++ standard
  fixes only that `top()` is an element that no other element beats under `Compare`.
  The general theorems hold for every library that keeps these promises
  (`StdLib.Lawful`); `refStd` is one such library, used for concrete runs.
* Undefined behaviour (`top()` of an empty queue) is the result `none`.
* Files are their byte contents (`List Byte`); opening a file never fails, and the
  output of `decompress` is written as is (no newline translation).
* The mutable member `huffmanCodes` is passed in and returned (`compress` maps the old
  table to the new one).
-/

namespace Huffman

/-- One `char` of the program: a byte. -/
abbrev Byte := Fin 256

/-- The cast `static_cast<char>(n)` of an unsigned size: the low eight bits. -/
def toByte (n : Nat) : Byte := ⟨n % 256, Nat.mod_lt n (by decide)⟩

/-- Conversion to a 32-bit `int`: two's complement wrap-around. -/
def wrap32 (x : Int) : Int := (x + 2147483648) % 4294967296 - 2147483648

/-- The `struct Node` of the source.  Every node the program allocates has either
no child (`leaf`, lines 41) or two children (`inner`, line 46); both carry the
fields `ch` and `freq`. -/
inductive Node where
  | leaf (ch : Byte) (freq : Int) : Node
  | inner (ch : Byte) (freq : Int) (left right : Node) : Node
  deriving DecidableEq

/-- Field `ch` of a node. -/
def Node.ch : Node → Byte
  | .leaf c _ => c
  | .inner c _ _ _ => c

/-- Field `freq` of a node. -/
def Node.freq : Node → Int
  | .leaf _ f => f
  | .inner _ f _ _ => f

/-- The comparator `Compare::operator()`: `l->freq > r->freq`. -/
def Compare (l r : Node) : Bool := decide (l.freq > r.freq)

/-! ## `std::unordered_map` as an association list in first-insertion order -/

/-- The `find` of a map: the value stored under `k`, if any. -/
def UMap.find {κ β : Type} [DecidableEq κ] : List (κ × β) → κ → Option β
  | [], _ => none
  | (k1, v) :: m, k => if k1 = k then some v else UMap.find m k

/-- The assignment `m[k] = v`: overwrite the value of an existing key in place, or
insert the new key (it becomes the last one inserted). -/
def UMap.set {κ β : Type} [DecidableEq κ] : List (κ × β) → κ → β → List (κ × β)
  | [], k, v => [(k, v)]
  | (k1, v1) :: m, k, v => if k1 = k then (k1, v) :: m else (k1, v1) :: UMap.set m k v

/-- The read access `m[k]`: the stored value; a missing key is first inserted with the
value-initialised `dflt`. -/
def UMap.at {κ β : Type} [DecidableEq κ] (m : List (κ × β)) (k : κ) (dflt : β) :
    List (κ × β) × β :=
  match UMap.find m k with
  | some v => (m, v)
  | none => (m ++ [(k, dflt)], dflt)

/-- Range-for over an `unordered_map<char, T>`: the entries, in the order that
`order` gives to the keys (listed in first-insertion order). -/
def UMap.iterate {β : Type} (order : List Byte → List Byte) (m : List (Byte × β)) :
    List (Byte × β) :=
  (order (m.map Prod.fst)).filterMap (fun k => (UMap.find m k).map (fun v => (k, v)))

/-! ## The standard library parts the program is built on -/

/-- A `std::priority_queue<Node*, std::vector<Node*>, Compare>`: the queue type with its
operations; `elems` is the underlying container. `top` of an empty queue is undefined
behaviour (`none`). -/
structure PriorityQueue where
  Q : Type
  empty : Q
  elems : Q → List Node
  push : Q → Node → Q
  top : Q → Option Node
  pop : Q → Q

/-- The `size()` of a priority queue. -/
def PriorityQueue.size (pq : PriorityQueue) (q : pq.Q) : Nat := (pq.elems q).length

/-- What the C++ standard promises of a priority queue: `push` adds one element, `top`
is an element of the queue that `Compare` puts below no other (so one of least `freq`),
`pop` removes exactly that element. Ties are left to the implementation. -/
structure PriorityQueue.Lawful (pq : PriorityQueue) : Prop where
  elems_empty : pq.elems pq.empty = []
  elems_push : ∀ q x, (pq.elems (pq.push q x)).Perm (x :: pq.elems q)
  top_some : ∀ q, pq.elems q ≠ [] → ∃ x, pq.top q = some x
  top_mem : ∀ q x, pq.top q = some x → x ∈ pq.elems q
  top_least : ∀ q x, pq.top q = some x → ∀ y ∈ pq.elems q, Compare x y = false
  elems_pop : ∀ q x, pq.top q = some x → (x :: pq.elems (pq.pop q)).Perm (pq.elems q)

/-- The implementation-defined behaviour the program depends on: the priority queue and
the iteration order of `std::unordered_map<char, T>`. -/
structure StdLib where
  pq : PriorityQueue
  order : List Byte → List Byte

/-- A standard library that keeps its promises: a lawful priority queue, and a map
iteration that visits every key exactly once. -/
structure StdLib.Lawful (std : StdLib) : Prop where
  pq_lawful : std.pq.Lawful
  order_perm : ∀ ks : List Byte, ks.Nodup → (std.order ks).Perm ks

/-! ## `HuffmanCoding` -/

/-- The member `huffmanCodes` (line 25). -/
abbrev Codes := List (Byte × List Byte)

/-- The member table of a freshly constructed `HuffmanCoding` object. -/
def fresh : Codes := []

/-- `generateCodes` (lines 27-33): a node whose `ch` is not `'\0'` gets the current
string as its code; the children are visited with `"0"` and `"1"` appended. -/
def generateCodes : Node → List Byte → Codes → Codes
  | .leaf ch _, str, codes => if ch ≠ 0 then UMap.set codes ch str else codes
  | .inner ch _ left right, str, codes =>
    let codes1 := if ch ≠ 0 then UMap.set codes ch str else codes
    generateCodes right (str ++ [49]) (generateCodes left (str ++ [48]) codes1)

/-- The loop `for (char c : text) freq[c]++;` (lines 36-37). -/
def countFreq (text : List Byte) : List (Byte × Int) :=
  text.foldl (fun freq c => UMap.set freq c (wrap32 ((UMap.find freq c).getD 0 + 1))) []

/-- The loop of lines 40-41: one leaf per entry of `freq`, pushed in iteration order. -/
def pushLeaves (std : StdLib) (freq : List (Byte × Int)) : std.pq.Q :=
  (UMap.iterate std.order freq).foldl (fun q p => std.pq.push q (.leaf p.1 p.2)) std.pq.empty

/-- The `while (minHeap.size() > 1)` loop (lines 43-47), run for at most `fuel`
iterations; `none` when the fuel is used up or `top()` is taken of an empty queue. -/
def mergeLoop (pq : PriorityQueue) : Nat → pq.Q → Option pq.Q
  | 0, q => if pq.size q > 1 then none else some q
  | fuel + 1, q =>
    if pq.size q > 1 then
      match pq.top q with
      | none => none
      | some left =>
        let q1 := pq.pop q
        match pq.top q1 with
        | none => none
        | some right =>
          let q2 := pq.pop q1
          mergeLoop pq fuel (pq.push q2 (.inner 0 (wrap32 (left.freq + right.freq)) left right))
    else some q

/-- `buildHuffmanTree` (lines 35-50). Each iteration of the loop takes one element off
the queue, so `size` iterations are enough. -/
def buildHuffmanTree (std : StdLib) (text : List Byte) : Option Node :=
  let minHeap := pushLeaves std (countFreq text)
  match mergeLoop std.pq (std.pq.size minHeap) minHeap with
  | none => none
  | some q => std.pq.top q

/-- The table part of the container (lines 76-84): the count byte, then for every entry
the symbol, the length byte and the code characters. -/
def writeTable (std : StdLib) (codes : Codes) : List Byte :=
  toByte codes.length ::
    (UMap.iterate std.order codes).flatMap (fun p => p.1 :: toByte p.2.length :: p.2)

/-- The encoding loop (lines 87-89): `encodedText += huffmanCodes[c]` for every byte;
`operator[]` inserts a missing byte with the empty code. -/
def encodeText (codes : Codes) (text : List Byte) : Codes × List Byte :=
  text.foldl (fun s c => ((UMap.at s.1 c []).1, s.2 ++ (UMap.at s.1 c []).2)) (codes, [])

/-- The four bytes of an `int` in memory (little-endian), as `output.write` copies
them (lines 92-93); `n` is the `size_t` length being converted to `int`. -/
def writeInt32 (n : Nat) : List Byte :=
  [toByte n, toByte (n / 256), toByte (n / 65536), toByte (n / 16777216)]

/-- The inner loop of lines 97-101: up to eight characters of the encoded text become
one byte, most significant bit first; a bit is set where the character is `'1'`. -/
def packByte (chunk : List Byte) : Byte :=
  toByte (((List.range 8).map
    (fun j => if chunk.get? j = some 49 then 2 ^ (7 - j) else 0)).sum)

/-- The payload loop (lines 96-102): `i = 0, 8, 16, ...` while `i < length`. -/
def packBits (encodedText : List Byte) : List Byte :=
  (List.range ((encodedText.length + 7) / 8)).map
    (fun k => packByte ((encodedText.drop (8 * k)).take 8))

/-- `compress` (lines 53-106) on the bytes of the input file: the new value of the
member table and the bytes written to the output file. -/
def compress (std : StdLib) (huffmanCodes : Codes) (text : List Byte) :
    Option (Codes × List Byte) :=
  match buildHuffmanTree std text with
  | none => none
  | some root =>
    let codes := generateCodes root [] huffmanCodes
    let enc := encodeText codes text
    some (enc.1, writeTable std codes ++ writeInt32 enc.2.length ++ packBits enc.2)

/-! ## `decompress` -/

/-- The call `input.get()` converted to a byte: the next byte and the rest of the
stream; at end of file the result `EOF` = -1 converts to 255. -/
def streamGet : List Byte → Byte × List Byte
  | [] => (255, [])
  | b :: rest => (b, rest)

/-- `std::string code(n, '0'); input.read(&code[0], n)`: the next `n` bytes; where the
stream ends early the remaining characters stay `'0'`. -/
def streamRead (n : Nat) (input : List Byte) : List Byte × List Byte :=
  (input.take n ++ List.replicate (n - (input.take n).length) 48, input.drop n)

/-- The table loop of lines 126-134, `n` entries: `reverseHuffmanCodes[code] = ch`. -/
def readTable : Nat → List Byte → List (List Byte × Byte) → List (List Byte × Byte) × List Byte
  | 0, input, rev => (rev, input)
  | n + 1, input, rev =>
    let r1 := streamGet input
    let r2 := streamGet r1.2
    let r3 := streamRead r2.1.val r2.2
    readTable n r3.2 (UMap.set rev r3.1 r1.1)

/-- Lines 137-138: four bytes read into the `int encodedLength`. When the stream has
fewer than four bytes left the `read` fails (`none`): the variable is not set and the
stream stays in its failed state. -/
def readInt32 : List Byte → Option (Int × List Byte)
  | b0 :: b1 :: b2 :: b3 :: rest =>
    some (wrap32 (b0.val + 256 * b1.val + 65536 * b2.val + 16777216 * b3.val), rest)
  | _ => none

/-- The variables of the decoding loop: `currentCode`, `bitsRead` and the bytes written
to the output so far. -/
structure DecodeState where
  currentCode : List Byte
  bitsRead : Int
  output : List Byte
  deriving DecidableEq

/-- One iteration of the inner `for` loop (lines 148-156) for bit `i` of `byte`, guarded
by its condition `bitsRead < encodedLength`. -/
def decodeBit (rev : List (List Byte × Byte)) (encodedLength : Int) (byte : Byte)
    (s : DecodeState) (i : Nat) : DecodeState :=
  if s.bitsRead < encodedLength then
    let cur := s.currentCode ++ [if byte.val.testBit i then 49 else 48]
    match UMap.find rev cur with
    | some ch => ⟨[], s.bitsRead + 1, s.output ++ [ch]⟩
    | none => ⟨cur, s.bitsRead + 1, s.output⟩
  else s

/-- The inner `for (int i = 7; i >= 0 && bitsRead < encodedLength; --i, ++bitsRead)`. -/
def decodeByte (rev : List (List Byte × Byte)) (encodedLength : Int) (s : DecodeState)
    (byte : Byte) : DecodeState :=
  [7, 6, 5, 4, 3, 2, 1, 0].foldl (decodeBit rev encodedLength byte) s

/-- The outer `while (input.get(byte) && bitsRead < encodedLength)` (lines 146-157). -/
def decodeLoop (rev : List (List Byte × Byte)) (encodedLength : Int) :
    List Byte → DecodeState → DecodeState
  | [], s => s
  | byte :: rest, s =>
    if s.bitsRead < encodedLength then
      decodeLoop rev encodedLength rest (decodeByte rev encodedLength s byte)
    else s

/-- `decompress` (lines 108-163) on the bytes of the container file: the bytes written
to the output file. The function has no error path. Where the `read` of the length field
fails, `input.get(byte)` fails too, so the loop condition of line 146 never looks at
`encodedLength` and nothing is written. -/
def decompress (input : List Byte) : Option (List Byte) :=
  let r1 := streamGet input
  let tbl := readTable r1.1.val r1.2 []
  match readInt32 tbl.2 with
  | none => some []
  | some (encodedLength, payload) =>
    some (decodeLoop tbl.1 encodedLength payload ⟨[], 0, []⟩).output

/-! ## A reference standard library -/

/-- The first element of least `freq` in a list. -/
def leastNode : List Node → Option Node
  | [] => none
  | x :: xs =>
    match leastNode xs with
    | none => some x
    | some y => if y.freq < x.freq then some y else some x

/-- A priority queue kept as a plain list: `top` is the first element of least `freq`
(ties go to the element pushed first). -/
def listPQ : PriorityQueue where
  Q := List Node
  empty := []
  elems := fun q => q
  push := fun q x => q ++ [x]
  top := leastNode
  pop := fun q => match leastNode q with
    | none => q
    | some x => q.erase x

/-- A standard library whose maps iterate in insertion order and whose queue is
`listPQ`. -/
def refStd : StdLib := ⟨listPQ, fun ks => ks⟩

/-! ## Notions used in the statements and proofs -/

/-- The leaves of a tree from left to right, each with its `ch` and `freq`. -/
def Node.leaves : Node → List (Byte × Int)
  | .leaf c f => [(c, f)]
  | .inner _ _ l r => l.leaves ++ r.leaves

/-- The runs of the merge loop on a forest: while more than one tree is left, two trees
`l` and `r` of least `freq` (first `l`, then `r` among the rest) are replaced by the node
`Node('\0', l->freq + r->freq, l, r)`; the last tree left is the result. -/
inductive Merges : List Node → Node → Prop
  | done (t : Node) : Merges [t] t
  | step (F F1 : List Node) (l r t : Node) :
      F.Perm (l :: r :: F1) →
      (∀ y ∈ r :: F1, l.freq ≤ y.freq) →
      (∀ y ∈ F1, r.freq ≤ y.freq) →
      Merges (.inner 0 (wrap32 (l.freq + r.freq)) l r :: F1) t →
      Merges F t

/-- The forest the merge loop starts from: one leaf per entry of the frequency table. -/
def leafForest (text : List Byte) : List Node :=
  (countFreq text).map (fun p => Node.leaf p.1 p.2)

/-- Every inner node carries the marker `'\0'` as its `ch` (line 46). -/
def Node.Marked : Node → Prop
  | .leaf _ _ => True
  | .inner c _ l r => c = 0 ∧ l.Marked ∧ r.Marked

/-- The leaves of a tree from left to right, each with the path that `generateCodes`
has accumulated when it reaches it (`str` at the root). -/
def Node.leafCodes : Node → List Byte → List (Byte × List Byte)
  | .leaf c _, str => [(c, str)]
  | .inner _ _ l r, str => l.leafCodes (str ++ [48]) ++ r.leafCodes (str ++ [49])

/-- The assignments `huffmanCodes[ch] = str`, one per listed pair, from left to right. -/
def setAll (codes : Codes) (l : List (Byte × List Byte)) : Codes :=
  l.foldl (fun m p => UMap.set m p.1 p.2) codes

/-- Neither of two codes is an initial segment of the other. -/
def Unrelated (a b : List Byte) : Prop := ¬ a <+: b ∧ ¬ b <+: a

/-- The multisets of leaf depths of strict binary trees: a single leaf at depth 0, and
any leaf may be split into two leaves one level deeper. -/
inductive TreeDepths : Multiset Nat → Prop
  | single : TreeDepths {0}
  | split (d : Nat) (D : Multiset Nat) :
      TreeDepths (d ::ₘ D) → TreeDepths ((d + 1) ::ₘ (d + 1) ::ₘ D)

/-- The sum of weight times depth over a multiset of (weight, depth) pairs. -/
def dot (P : Multiset (Nat × Nat)) : Nat := (P.map (fun p => p.1 * p.2)).sum

/-- The leaves of a tree from left to right with their depths, the root at depth `k`. -/
def Node.leafDepths : Node → Nat → List (Byte × Nat)
  | .leaf c _, k => [(c, k)]
  | .inner _ _ l r, k => l.leafDepths (k + 1) ++ r.leafDepths (k + 1)

/-- The weighted path length of a tree for an input: the sum over the leaves of the
number of occurrences of the leaf's byte in the input times the depth of the leaf. -/
def weightedPathLength (text : List Byte) (t : Node) : Nat :=
  ((t.leafDepths 0).map (fun p => text.count p.1 * p.2)).sum

/-- The number of input bytes that a tree accounts for: the occurrences of its leaves. -/
def weight (text : List Byte) (t : Node) : Nat :=
  (t.leaves.map (fun p => text.count p.1)).sum

/-- The (occurrences, depth) pairs of the leaves of a tree. -/
def pairsOf (text : List Byte) (t : Node) : Multiset (Nat × Nat) :=
  ((t.leafDepths 0).map (fun p => (text.count p.1, p.2)) : List (Nat × Nat))

/-- The code that the encoding loop appends for a byte: the stored code, or the empty
string that `operator[]` inserts for a missing byte. -/
def codeOf (codes : Codes) (c : Byte) : List Byte := (UMap.find codes c).getD []

/-- The inverse table after the listed entries have been stored, in order. -/
def storeAll (rev : List (List Byte × Byte)) (entries : List (Byte × List Byte)) :
    List (List Byte × Byte) :=
  entries.foldl (fun r p => UMap.set r p.2 p.1) rev

/-- One step of the decoder for the character `ch` (`'0'` or `'1'`): append it to
`currentCode`, look the code up, emit the symbol on a hit. -/
def bitStep (rev : List (List Byte × Byte)) (s : DecodeState) (ch : Byte) : DecodeState :=
  match UMap.find rev (s.currentCode ++ [ch]) with
  | some c => ⟨[], s.bitsRead + 1, s.output ++ [c]⟩
  | none => ⟨s.currentCode ++ [ch], s.bitsRead + 1, s.output⟩

/-- The decoder step under the loop condition `bitsRead < encodedLength`. -/
def guardedStep (rev : List (List Byte × Byte)) (encodedLength : Int) (s : DecodeState)
    (ch : Byte) : DecodeState :=
  if s.bitsRead < encodedLength then bitStep rev s ch else s

/-- The eight bits of a byte as characters, most significant first. -/
def bitsOf (byte : Byte) : List Byte :=
  [7, 6, 5, 4, 3, 2, 1, 0].map (fun i => if byte.val.testBit i then 49 else 48)

/-- A string of the characters `'0'` and `'1'`. -/
def IsBits (l : List Byte) : Prop := ∀ x ∈ l, x = 48 ∨ x = 49

/-- The table of a fresh coder for a tree: the leaves with a non-zero byte and their
paths. -/
def tableOf (t : Node) : Codes := (t.leafCodes []).filter (fun p => p.1 ≠ 0)

/-- The number of bits that `compress` on a fresh coder encodes a text to (the length of
`encodedText`); 0 where no tree is built. -/
def encodedBitCount (std : StdLib) (text : List Byte) : Nat :=
  match buildHuffmanTree std text with
  | none => 0
  | some root => (encodeText (generateCodes root [] fresh) text).2.length

/-- The inverse table `reverseHuffmanCodes` that `decompress` has rebuilt when it leaves
the table loop (lines 121-134). -/
def reverseTable (input : List Byte) : List (List Byte × Byte) :=
  (readTable (streamGet input).1.val (streamGet input).2 []).1

/-- The states of the member table that a coder can be in: that of a fresh object, and
those left by a `compress` call. -/
inductive Reachable (std : StdLib) : Codes → Prop
  | fresh : Reachable std fresh
  | step (codes codes1 : Codes) (text container : List Byte) :
      Reachable std codes → compress std codes text = some (codes1, container) →
      Reachable std codes1

/-- The payload bytes of the container that `compress` writes (lines 96-102); empty where
no tree is built. -/
def payloadOf (std : StdLib) (codes : Codes) (text : List Byte) : List Byte :=
  match buildHuffmanTree std text with
  | none => []
  | some root => packBits (encodeText (generateCodes root [] codes) text).2

/-- A member table with one entry per key and codes shorter than 256 characters. -/
def TableOK (codes : Codes) : Prop :=
  (codes.map Prod.fst).Nodup ∧ ∀ p ∈ codes, p.2.length < 256

/-- The `freq` of every inner node is the sum of the `freq` of its two children. -/
def Node.WeightsAdd : Node → Prop
  | .leaf _ _ => True
  | .inner _ f l r => f = l.freq + r.freq ∧ l.WeightsAdd ∧ r.WeightsAdd

/-! ## The binary heap of `std::priority_queue` (libstdc++, `bits/stl_heap.h`) -/

/-- The loop of `std::__push_heap` with `topIndex` 0: while the hole has a parent that
`Compare` puts before `value`, the parent moves down into the hole; then `value` is
stored in the hole. The hole moves up in every iteration, so `holeIndex` iterations are
enough. -/
def pushHeapLoop : Nat → List Node → Nat → Node → List Node
  | 0, first, holeIndex, value => first.set holeIndex value
  | fuel + 1, first, holeIndex, value =>
    if holeIndex > 0 ∧ Compare (first.getD ((holeIndex - 1) / 2) value) value = true then
      pushHeapLoop fuel (first.set holeIndex (first.getD ((holeIndex - 1) / 2) value))
        ((holeIndex - 1) / 2) value
    else first.set holeIndex value

/-- The while loop of `std::__adjust_heap` from a hole at the root: the child that
`Compare` does not put before its sibling (on a tie the right child) moves up into the
hole. Returns the vector and the hole. -/
def adjustHeapLoop : Nat → List Node → Nat → Nat → Node → List Node × Nat
  | 0, first, holeIndex, _, _ => (first, holeIndex)
  | fuel + 1, first, holeIndex, len, value =>
    if holeIndex < (len - 1) / 2 then
      let right := 2 * (holeIndex + 1)
      let secondChild :=
        if Compare (first.getD right value) (first.getD (right - 1) value) = true
        then right - 1 else right
      adjustHeapLoop fuel (first.set holeIndex (first.getD secondChild value)) secondChild
        len value
    else (first, holeIndex)

/-- `std::__adjust_heap(first, 0, len, value, comp)`: the hole walks down from the root,
a last node with a single child is handled apart, and `value` is pushed up from the
hole. -/
def adjustHeap (first : List Node) (len : Nat) (value : Node) : List Node :=
  let r := adjustHeapLoop len first 0 len value
  if len % 2 = 0 ∧ 2 ≤ len ∧ r.2 = (len - 2) / 2 then
    pushHeapLoop len (r.1.set r.2 (r.1.getD (2 * (r.2 + 1) - 1) value))
      (2 * (r.2 + 1) - 1) value
  else pushHeapLoop len r.1 r.2 value

/-- The priority queue as libstdc++ implements it on a `std::vector`: `push` is
`push_back` and `std::push_heap`, `top` is `front()`, `pop` is `std::pop_heap` (the last
element is the value that `__adjust_heap` re-inserts) and `pop_back`. -/
def heapPQ : PriorityQueue where
  Q := List Node
  empty := []
  elems := fun c => c
  push := fun c x => pushHeapLoop c.length (c ++ [x]) c.length x
  top := fun c => c.head?
  pop := fun c =>
    match c.getLast? with
    | none => []
    | some value => if c.length > 1 then adjustHeap c.dropLast (c.length - 1) value else []

/-- A standard library whose maps iterate in insertion order and whose queue is the
binary heap `heapPQ`. -/
def heapStd : StdLib := ⟨heapPQ, fun ks => ks⟩

/-! ## Which node is taken off the priority queue -/

/-- The node `x` taken off the queue is the earliest arrival among the nodes of its weight
that are in the queue (`arrivals` lists the nodes in the queue in the order of their
`push`). -/
def popIsFifo (arrivals : List Node) (x : Node) : Bool :=
  arrivals.find? (fun y => decide (y.freq = x.freq)) == some x

/-- The node `x` taken off the queue has the least weight of the nodes in the queue. -/
def popIsLeast (arrivals : List Node) (x : Node) : Bool :=
  arrivals.all (fun y => decide (x.freq ≤ y.freq))

/-- The merge loop (lines 43-47) once more, with the nodes in the queue listed in arrival
order: does `check` hold of every node taken off the queue, given the nodes that are in
the queue at that moment? -/
def monitorLoop (check : List Node → Node → Bool) (pq : PriorityQueue) :
    Nat → pq.Q → List Node → Bool
  | 0, _, _ => true
  | fuel + 1, q, arrivals =>
    if pq.size q > 1 then
      match pq.top q with
      | none => true
      | some left =>
        let q1 := pq.pop q
        let arrivals1 := arrivals.erase left
        match pq.top q1 with
        | none => check arrivals left
        | some right =>
          let q2 := pq.pop q1
          let arrivals2 := arrivals1.erase right
          let node := Node.inner 0 (wrap32 (left.freq + right.freq)) left right
          check arrivals left && check arrivals1 right &&
            monitorLoop check pq fuel (pq.push q2 node) (arrivals2 ++ [node])
    else true

/-- The run of `buildHuffmanTree` on a text under the monitor: `check` holds of every node
that the merge loop takes off the queue. The leaves arrive in the order in which the loop
of lines 40-41 pushes them. -/
def extractionsSatisfy (check : List Node → Node → Bool) (std : StdLib) (text : List Byte) :
    Bool :=
  let minHeap := pushLeaves std (countFreq text)
  monitorLoop check std.pq (std.pq.size minHeap) minHeap
    ((UMap.iterate std.order (countFreq text)).map (fun p => Node.leaf p.1 p.2))

/-! # Theorems -/

/-! ## Basic facts: integers, the reference library -/

theorem wrap32_id (x : Int) (h0 : -2147483648 ≤ x) (h1 : x < 2147483648) : wrap32 x = x := by
  unfold wrap32
  rw [Int.emod_eq_of_lt (by omega) (by omega)]
  omega

theorem wrap32_add_wrap32 (x y : Int) : wrap32 (wrap32 x + y) = wrap32 (x + y) := by
  unfold wrap32
  congr 1
  rw [show (x + 2147483648) % 4294967296 - 2147483648 + y + 2147483648 = (x + 2147483648) % 4294967296 + y by ring]
  rw [show x + y + 2147483648 = (x + 2147483648) + y by ring]
  rw [Int.emod_add_cancel_right, Int.emod_emod_of_dvd]
  exact dvd_refl _

theorem leastNode_mem : ∀ (l : List Node) (x : Node), leastNode l = some x → x ∈ l := by
  intro l
  induction l with
  | nil => intro x h; simp [leastNode] at h
  | cons a l ih =>
    intro x h
    simp only [leastNode] at h
    cases hl : leastNode l with
    | none => rw [hl] at h; simp at h; simp [h]
    | some y =>
      rw [hl] at h
      simp only at h
      split at h
      · simp at h; subst h; exact List.mem_cons_of_mem _ (ih y hl)
      · simp at h; simp [h]

theorem leastNode_least : ∀ (l : List Node) (x : Node), leastNode l = some x →
    ∀ y ∈ l, x.freq ≤ y.freq := by
  intro l
  induction l with
  | nil => intro x h; simp [leastNode] at h
  | cons a l ih =>
    intro x h y hy
    simp only [leastNode] at h
    cases hl : leastNode l with
    | none =>
      rw [hl] at h; simp at h; subst h
      cases l with
      | nil => simp at hy; subst hy; exact le_refl _
      | cons b l =>
        simp only [leastNode] at hl
        split at hl
        · simp at hl
        · split at hl <;> simp at hl
    | some z =>
      rw [hl] at h
      simp only at h
      have hz := ih z hl
      rcases List.mem_cons.1 hy with rfl | hy
      · split at h
        · simp at h; subst h; omega
        · simp at h; subst h; exact le_refl _
      · split at h
        · simp at h; subst h; exact hz y hy
        · simp at h; subst h; have := hz y hy; omega

theorem leastNode_some : ∀ (l : List Node), l ≠ [] → ∃ x, leastNode l = some x := by
  intro l h
  cases l with
  | nil => exact absurd rfl h
  | cons a l =>
    simp only [leastNode]
    cases leastNode l with
    | none => exact ⟨a, rfl⟩
    | some y =>
      simp only
      split
      · exact ⟨y, rfl⟩
      · exact ⟨a, rfl⟩

theorem listPQ_lawful : listPQ.Lawful where
  elems_empty := rfl
  elems_push := by
    intro (q : List Node) x
    show (q ++ [x]).Perm (x :: q)
    exact List.perm_append_singleton x q
  top_some := fun q h => leastNode_some q h
  top_mem := fun q x h => leastNode_mem q x h
  top_least := by
    intro q x h y hy
    have := leastNode_least q x h y hy
    simp only [Compare, decide_eq_false_iff_not]
    omega
  elems_pop := by
    intro (q : List Node) x h
    show (x :: (match leastNode q with | none => q | some x => q.erase x)).Perm q
    have h' : leastNode q = some x := h
    rw [h']
    exact (List.perm_cons_erase (leastNode_mem q x h)).symm

theorem refStd_lawful : refStd.Lawful where
  pq_lawful := listPQ_lawful
  order_perm := fun ks _ => List.Perm.refl ks

/-! ## Facts about the association-list maps -/

section UMapFacts

variable {κ β : Type} [DecidableEq κ]

theorem UMap.find_set_self (m : List (κ × β)) (k : κ) (v : β) :
    UMap.find (UMap.set m k v) k = some v := by
  induction m with
  | nil => simp [UMap.set, UMap.find]
  | cons p m ih =>
    obtain ⟨k1, v1⟩ := p
    by_cases h : k1 = k
    · simp [UMap.set, UMap.find, h]
    · simp [UMap.set, UMap.find, h, ih]

theorem UMap.find_set_ne (m : List (κ × β)) (k k2 : κ) (v : β) (hne : k ≠ k2) :
    UMap.find (UMap.set m k v) k2 = UMap.find m k2 := by
  induction m with
  | nil => simp [UMap.set, UMap.find, hne]
  | cons p m ih =>
    obtain ⟨k1, v1⟩ := p
    by_cases h : k1 = k
    · subst h; simp [UMap.set, UMap.find, hne]
    · by_cases h2 : k1 = k2
      · subst h2; simp [UMap.set, UMap.find, h]
      · simp [UMap.set, UMap.find, h, h2, ih]

theorem UMap.find_eq_none_iff (m : List (κ × β)) (k : κ) :
    UMap.find m k = none ↔ k ∉ m.map Prod.fst := by
  induction m with
  | nil => simp [UMap.find]
  | cons p m ih =>
    obtain ⟨k1, v1⟩ := p
    by_cases h : k1 = k
    · simp [UMap.find, h]
    · simp only [UMap.find, h, if_false, ih, List.map_cons, List.mem_cons]
      constructor
      · intro hm hor
        rcases hor with h1 | h1
        · exact h h1.symm
        · exact hm h1
      · intro hm h1
        exact hm (Or.inr h1)

theorem UMap.find_some_mem (m : List (κ × β)) (k : κ) (v : β) (h : UMap.find m k = some v) :
    (k, v) ∈ m := by
  induction m with
  | nil => simp [UMap.find] at h
  | cons p m ih =>
    obtain ⟨k1, v1⟩ := p
    by_cases h1 : k1 = k
    · simp [UMap.find, h1] at h; simp [h1, h]
    · simp only [UMap.find, h1, if_false] at h
      exact List.mem_cons_of_mem _ (ih h)

theorem UMap.mem_find_of_nodup (m : List (κ × β)) (k : κ) (v : β)
    (hnd : (m.map Prod.fst).Nodup) (h : (k, v) ∈ m) : UMap.find m k = some v := by
  induction m with
  | nil => simp at h
  | cons p m ih =>
    obtain ⟨k1, v1⟩ := p
    simp only [List.map_cons, List.nodup_cons] at hnd
    rcases List.mem_cons.1 h with heq | hmem
    · simp only [Prod.mk.injEq] at heq
      simp [UMap.find, heq.1, heq.2]
    · have hk : k1 ≠ k := by
        intro hk
        apply hnd.1
        rw [hk]
        exact List.mem_map_of_mem Prod.fst hmem
      simp only [UMap.find, hk, if_false]
      exact ih hnd.2 hmem

theorem UMap.keys_set (m : List (κ × β)) (k : κ) (v : β) :
    (UMap.set m k v).map Prod.fst =
      if k ∈ m.map Prod.fst then m.map Prod.fst else m.map Prod.fst ++ [k] := by
  induction m with
  | nil => simp [UMap.set]
  | cons p m ih =>
    obtain ⟨k1, v1⟩ := p
    by_cases h : k1 = k
    · simp [UMap.set, h]
    · have h' : ¬ k = k1 := fun e => h e.symm
      simp only [UMap.set, h, if_false, List.map_cons, ih, List.mem_cons, h', false_or]
      split <;> simp

theorem UMap.nodup_set (m : List (κ × β)) (k : κ) (v : β) (hnd : (m.map Prod.fst).Nodup) :
    ((UMap.set m k v).map Prod.fst).Nodup := by
  rw [UMap.keys_set]
  split
  · exact hnd
  · rename_i hk
    rw [List.nodup_append]
    refine ⟨hnd, List.nodup_singleton k, ?_⟩
    intro a ha hb
    simp at hb
    subst hb
    exact hk ha

theorem UMap.set_of_not_mem (m : List (κ × β)) (k : κ) (v : β) (hk : k ∉ m.map Prod.fst) :
    UMap.set m k v = m ++ [(k, v)] := by
  induction m with
  | nil => simp [UMap.set]
  | cons p m ih =>
    obtain ⟨k1, v1⟩ := p
    simp only [List.map_cons, List.mem_cons, not_or] at hk
    have h : ¬ k1 = k := fun e => hk.1 e.symm
    simp [UMap.set, h, ih hk.2]

theorem UMap.set_of_find (m : List (κ × β)) (k : κ) (v : β) (hk : UMap.find m k = some v) :
    UMap.set m k v = m := by
  induction m with
  | nil => simp [UMap.find] at hk
  | cons p m ih =>
    obtain ⟨k1, v1⟩ := p
    by_cases h : k1 = k
    · simp only [UMap.find, h, if_true, Option.some.injEq] at hk
      simp [UMap.set, h, hk]
    · simp only [UMap.find, h, if_false] at hk
      simp [UMap.set, h, ih hk]

end UMapFacts

theorem UMap.filterMap_keys {β : Type} (m : List (Byte × β)) (hnd : (m.map Prod.fst).Nodup) :
    (m.map Prod.fst).filterMap (fun k => (UMap.find m k).map (fun v => (k, v))) = m := by
  have key : ∀ (l : List (Byte × β)), (∀ p ∈ l, UMap.find m p.1 = some p.2) →
      (l.map Prod.fst).filterMap (fun k => (UMap.find m k).map (fun v => (k, v))) = l := by
    intro l
    induction l with
    | nil => intro _; rfl
    | cons p l ih =>
      intro h
      have hp := h p (List.mem_cons_self _ _)
      simp only [List.map_cons, List.filterMap_cons, hp, Option.map_some']
      rw [ih (fun q hq => h q (List.mem_cons_of_mem _ hq))]
  exact key m (fun p hp => UMap.mem_find_of_nodup m p.1 p.2 hnd hp)

theorem UMap.iterate_perm {β : Type} (order : List Byte → List Byte)
    (hord : ∀ ks : List Byte, ks.Nodup → (order ks).Perm ks)
    (m : List (Byte × β)) (hnd : (m.map Prod.fst).Nodup) :
    (UMap.iterate order m).Perm m := by
  unfold UMap.iterate
  have h1 := (hord _ hnd).filterMap (fun k => (UMap.find m k).map (fun v => (k, v)))
  rw [UMap.filterMap_keys m hnd] at h1
  exact h1

/-! ## The frequency table -/

/-- One step of the counting loop: `freq[c]++`. -/
theorem countFreq_step_nodup (m : List (Byte × Int)) (text : List Byte)
    (hnd : (m.map Prod.fst).Nodup) :
    ((text.foldl (fun freq c => UMap.set freq c (wrap32 ((UMap.find freq c).getD 0 + 1)))
      m).map Prod.fst).Nodup := by
  induction text generalizing m with
  | nil => exact hnd
  | cons c text ih => exact ih _ (UMap.nodup_set m c _ hnd)

theorem countFreq_fold_find (text : List Byte) (m : List (Byte × Int)) (k : Byte) :
    UMap.find (text.foldl
        (fun freq c => UMap.set freq c (wrap32 ((UMap.find freq c).getD 0 + 1))) m) k =
      if k ∈ text then some (wrap32 ((UMap.find m k).getD 0 + (text.count k : Int)))
      else UMap.find m k := by
  induction text generalizing m with
  | nil => simp
  | cons c text ih =>
    rw [List.foldl_cons, ih]
    by_cases hck : c = k
    · subst hck
      simp only [UMap.find_set_self, Option.getD_some, List.mem_cons, true_or, if_true,
        List.count_cons_self]
      by_cases hmem : c ∈ text
      · simp only [hmem, if_true]
        rw [wrap32_add_wrap32]
        congr 2
        push_cast
        ring
      · simp only [hmem, if_false, List.count_eq_zero_of_not_mem hmem]
        simp
    · have hkc : ¬ k = c := fun e => hck e.symm
      simp only [UMap.find_set_ne _ _ _ _ hck, List.mem_cons, hkc, false_or]
      rw [List.count_cons_of_ne hkc]

theorem countFreq_nodup (text : List Byte) : ((countFreq text).map Prod.fst).Nodup :=
  countFreq_step_nodup [] text (by simp)

theorem countFreq_find (text : List Byte) (k : Byte) :
    UMap.find (countFreq text) k =
      if k ∈ text then some (wrap32 (text.count k : Int)) else none := by
  unfold countFreq
  rw [countFreq_fold_find]
  simp [UMap.find]

theorem countFreq_mem_keys (text : List Byte) (k : Byte) :
    k ∈ (countFreq text).map Prod.fst ↔ k ∈ text := by
  have h := UMap.find_eq_none_iff (countFreq text) k
  rw [countFreq_find] at h
  by_cases hk : k ∈ text
  · simp only [hk, if_true] at h
    simp only [hk, iff_true]
    by_contra hn
    exact absurd (h.2 hn) (by simp)
  · simp only [hk, if_false, true_iff] at h
    simp only [hk, iff_false]
    exact h

theorem countFreq_keys_perm (text : List Byte) :
    ((countFreq text).map Prod.fst).Perm text.dedup := by
  rw [List.perm_ext_iff_of_nodup (countFreq_nodup text) (List.nodup_dedup text)]
  intro k
  rw [countFreq_mem_keys, List.mem_dedup]

theorem countFreq_mem (text : List Byte) (k : Byte) (f : Int) (h : (k, f) ∈ countFreq text) :
    k ∈ text ∧ f = wrap32 (text.count k : Int) := by
  have h1 := UMap.mem_find_of_nodup _ k f (countFreq_nodup text) h
  rw [countFreq_find] at h1
  by_cases hk : k ∈ text
  · simp only [hk, if_true, Option.some.injEq] at h1
    exact ⟨hk, h1.symm⟩
  · simp [hk] at h1

theorem countFreq_ne_nil (text : List Byte) (h : text ≠ []) : countFreq text ≠ [] := by
  cases text with
  | nil => exact absurd rfl h
  | cons c text =>
    intro hnil
    have h1 := (countFreq_mem_keys (c :: text) c).2 (List.mem_cons_self _ _)
    rw [hnil] at h1
    simp at h1

/-! ## The merge loop, independent of the queue implementation -/

theorem Merges.perm {F G : List Node} {t : Node} (h : Merges F t) (hp : F.Perm G) :
    Merges G t := by
  cases h with
  | done =>
    have : G = [t] := List.perm_singleton.1 hp.symm
    rw [this]
    exact Merges.done t
  | step _ F1 l r _ hperm hl hr hrest =>
    exact Merges.step G F1 l r t (hp.symm.trans hperm) hl hr hrest

theorem Merges.ne_nil {F : List Node} {t : Node} (h : Merges F t) : F ≠ [] := by
  cases h with
  | done => simp
  | step _ F1 l r _ hperm _ _ _ =>
    intro hnil
    rw [hnil] at hperm
    simpa using hperm.length_eq

theorem Compare_false_iff (x y : Node) : Compare x y = false ↔ x.freq ≤ y.freq := by
  simp [Compare]

theorem mergeLoop_spec (pq : PriorityQueue) (hpq : pq.Lawful) :
    ∀ (n : Nat) (q : pq.Q), pq.size q = n + 1 → ∀ fuel, n ≤ fuel →
      ∃ q1 t, mergeLoop pq fuel q = some q1 ∧ pq.top q1 = some t ∧ Merges (pq.elems q) t := by
  intro n
  induction n with
  | zero =>
    intro q hsize fuel _
    have hne : pq.elems q ≠ [] := by
      intro h
      simp [PriorityQueue.size, h] at hsize
    obtain ⟨t, ht⟩ := hpq.top_some q hne
    have hmem := hpq.top_mem q t ht
    have hq : pq.elems q = [t] := by
      unfold PriorityQueue.size at hsize
      match hel : pq.elems q, hsize, hmem with
      | [a], _, hm =>
        rw [hel] at hmem
        simp at hmem
        rw [hmem]
    refine ⟨q, t, ?_, ht, ?_⟩
    · cases fuel with
      | zero => simp [mergeLoop, hsize]
      | succ f => simp [mergeLoop, hsize]
    · rw [hq]; exact Merges.done t
  | succ n ih =>
    intro q hsize fuel hfuel
    obtain ⟨f, rfl⟩ : ∃ f, fuel = f + 1 := ⟨fuel - 1, by omega⟩
    have hne : pq.elems q ≠ [] := by
      intro h
      simp [PriorityQueue.size, h] at hsize
    obtain ⟨l, hl⟩ := hpq.top_some q hne
    have hpop := hpq.elems_pop q l hl
    have hsize1 : pq.size (pq.pop q) = n + 1 := by
      have := hpop.length_eq
      simp only [List.length_cons] at this
      unfold PriorityQueue.size at hsize ⊢
      omega
    have hne1 : pq.elems (pq.pop q) ≠ [] := by
      intro h
      simp [PriorityQueue.size, h] at hsize1
    obtain ⟨r, hr⟩ := hpq.top_some (pq.pop q) hne1
    have hpop1 := hpq.elems_pop (pq.pop q) r hr
    have hpush := hpq.elems_push (pq.pop (pq.pop q))
      (.inner 0 (wrap32 (l.freq + r.freq)) l r)
    have hsize3 : pq.size (pq.push (pq.pop (pq.pop q))
        (.inner 0 (wrap32 (l.freq + r.freq)) l r)) = n + 1 := by
      have h1 := hpop1.length_eq
      have h2 := hpush.length_eq
      simp only [List.length_cons] at h1 h2
      unfold PriorityQueue.size at hsize1 ⊢
      omega
    obtain ⟨q1, t, hrun, htop, hm⟩ := ih _ hsize3 f (by omega)
    refine ⟨q1, t, ?_, htop, ?_⟩
    · have hgt : pq.size q > 1 := by omega
      simp only [mergeLoop, hgt, if_true, hl, hr]
      exact hrun
    · have hperm : (pq.elems q).Perm (l :: r :: pq.elems (pq.pop (pq.pop q))) :=
        hpop.symm.trans (List.Perm.cons l hpop1.symm)
      refine Merges.step _ (pq.elems (pq.pop (pq.pop q))) l r t hperm ?_ ?_ (hm.perm hpush)
      · intro y hy
        have hy1 : y ∈ pq.elems q := hperm.symm.subset (List.mem_cons_of_mem _ hy)
        exact (Compare_false_iff l y).1 (hpq.top_least q l hl y hy1)
      · intro y hy
        have hy1 : y ∈ pq.elems (pq.pop q) := hpop1.subset (List.mem_cons_of_mem _ hy)
        exact (Compare_false_iff r y).1 (hpq.top_least (pq.pop q) r hr y hy1)

theorem foldl_push_perm (pq : PriorityQueue) (hpq : pq.Lawful) (l : List (Byte × Int)) :
    ∀ q : pq.Q, (pq.elems (l.foldl (fun q p => pq.push q (.leaf p.1 p.2)) q)).Perm
      (l.map (fun p => Node.leaf p.1 p.2) ++ pq.elems q) := by
  induction l with
  | nil => intro q; simp
  | cons p l ih =>
    intro q
    rw [List.foldl_cons]
    refine (ih _).trans ?_
    rw [List.map_cons, List.cons_append]
    exact (List.Perm.append_left _ (hpq.elems_push q _)).trans List.perm_middle

theorem pushLeaves_perm (std : StdLib) (hstd : std.Lawful) (freq : List (Byte × Int))
    (hnd : (freq.map Prod.fst).Nodup) :
    (std.pq.elems (pushLeaves std freq)).Perm (freq.map (fun p => Node.leaf p.1 p.2)) := by
  unfold pushLeaves
  refine (foldl_push_perm std.pq hstd.pq_lawful _ _).trans ?_
  rw [hstd.pq_lawful.elems_empty, List.append_nil]
  exact (UMap.iterate_perm std.order hstd.order_perm freq hnd).map _

theorem buildHuffmanTree_spec (std : StdLib) (hstd : std.Lawful) (text : List Byte)
    (hne : text ≠ []) :
    ∃ t, buildHuffmanTree std text = some t ∧ Merges (leafForest text) t := by
  have hperm := pushLeaves_perm std hstd (countFreq text) (countFreq_nodup text)
  have hlen : std.pq.size (pushLeaves std (countFreq text)) = ((countFreq text).length - 1) + 1 := by
    unfold PriorityQueue.size
    rw [hperm.length_eq, List.length_map]
    have := List.length_pos.2 (countFreq_ne_nil text hne)
    omega
  obtain ⟨q1, t, hrun, htop, hm⟩ :=
    mergeLoop_spec std.pq hstd.pq_lawful _ _ hlen (std.pq.size (pushLeaves std (countFreq text)))
      (by omega)
  refine ⟨t, ?_, hm.perm hperm⟩
  simp only [buildHuffmanTree, hrun, htop]

theorem buildHuffmanTree_nil (std : StdLib) (hstd : std.Lawful) :
    buildHuffmanTree std [] = none := by
  have hempty : std.pq.elems (pushLeaves std (countFreq [])) = [] := by
    have h := pushLeaves_perm std hstd (countFreq []) (countFreq_nodup [])
    simpa [countFreq] using h
  have htop : std.pq.top (pushLeaves std (countFreq [])) = none := by
    cases h : std.pq.top (pushLeaves std (countFreq [])) with
    | none => rfl
    | some x =>
      have := hstd.pq_lawful.top_mem _ x h
      rw [hempty] at this
      simp at this
  have hsize : std.pq.size (pushLeaves std (countFreq [])) = 0 := by
    simp [PriorityQueue.size, hempty]
  simp only [buildHuffmanTree, hsize, mergeLoop]
  simp [htop]

/-! ## Shape of the tree that is built -/

theorem Merges.marked {F : List Node} {t : Node} (h : Merges F t)
    (hF : ∀ x ∈ F, x.Marked) : t.Marked := by
  induction h with
  | done t => exact hF t (List.mem_singleton_self t)
  | step F F1 l r t hperm _ _ _ ih =>
    apply ih
    intro x hx
    have hl : l.Marked := hF l (hperm.symm.subset (List.mem_cons_self _ _))
    have hr : r.Marked :=
      hF r (hperm.symm.subset (List.mem_cons_of_mem _ (List.mem_cons_self _ _)))
    rcases List.mem_cons.1 hx with rfl | hx
    · exact ⟨rfl, hl, hr⟩
    · exact hF x (hperm.symm.subset (List.mem_cons_of_mem _ (List.mem_cons_of_mem _ hx)))

theorem Merges.leaves_perm {F : List Node} {t : Node} (h : Merges F t) :
    t.leaves.Perm (F.flatMap Node.leaves) := by
  induction h with
  | done t => simp
  | step F F1 l r t hperm _ _ _ ih =>
    refine ih.trans ?_
    have h1 := (hperm.flatMap_right Node.leaves).symm
    refine List.Perm.trans ?_ h1
    simp [List.flatMap_cons, Node.leaves, List.append_assoc]

theorem leafForest_leaves (text : List Byte) :
    (leafForest text).flatMap Node.leaves = countFreq text := by
  unfold leafForest
  induction countFreq text with
  | nil => rfl
  | cons p l ih => simp [List.flatMap_cons, Node.leaves, ih]

theorem leafForest_marked (text : List Byte) : ∀ x ∈ leafForest text, x.Marked := by
  intro x hx
  unfold leafForest at hx
  obtain ⟨p, _, rfl⟩ := List.mem_map.1 hx
  trivial

/-- The tree of a non-empty text: it exists, its inner nodes are marked with `'\0'`, and
its leaves are the entries of the frequency table, each once. -/
theorem buildHuffmanTree_shape (std : StdLib) (hstd : std.Lawful) (text : List Byte)
    (hne : text ≠ []) :
    ∃ t, buildHuffmanTree std text = some t ∧ t.Marked ∧ t.leaves.Perm (countFreq text) := by
  obtain ⟨t, ht, hm⟩ := buildHuffmanTree_spec std hstd text hne
  refine ⟨t, ht, hm.marked (leafForest_marked text), ?_⟩
  have := hm.leaves_perm
  rwa [leafForest_leaves] at this

theorem leaves_keys_nodup (text : List Byte) (t : Node) (h : t.leaves.Perm (countFreq text)) :
    (t.leaves.map Prod.fst).Nodup :=
  ((h.map Prod.fst).nodup_iff).2 (countFreq_nodup text)

/-! ## The code table -/

theorem setAll_append (codes : Codes) (l1 l2 : List (Byte × List Byte)) :
    setAll codes (l1 ++ l2) = setAll (setAll codes l1) l2 := by
  simp [setAll, List.foldl_append]

theorem generateCodes_eq (t : Node) (ht : t.Marked) : ∀ (str : List Byte) (codes : Codes),
    generateCodes t str codes = setAll codes ((t.leafCodes str).filter (fun p => p.1 ≠ 0)) := by
  induction t with
  | leaf c f =>
    intro str codes
    by_cases hc : c = 0
    · simp [generateCodes, Node.leafCodes, hc, setAll]
    · simp [generateCodes, Node.leafCodes, hc, setAll]
  | inner c f l r ihl ihr =>
    intro str codes
    obtain ⟨hc, hl, hr⟩ := ht
    simp only [generateCodes, hc, ne_eq, not_true_eq_false, if_false, Node.leafCodes,
      List.filter_append, setAll_append]
    rw [ihl hl, ihr hr]

theorem leafCodes_keys (t : Node) : ∀ str, (t.leafCodes str).map Prod.fst = t.leaves.map Prod.fst := by
  induction t with
  | leaf c f => intro str; rfl
  | inner c f l r ihl ihr => intro str; simp [Node.leafCodes, Node.leaves, ihl, ihr]

theorem setAll_fresh_nodup (l : List (Byte × List Byte)) (hnd : (l.map Prod.fst).Nodup) :
    ∀ codes : Codes, (∀ k ∈ l.map Prod.fst, k ∉ codes.map Prod.fst) →
      setAll codes l = codes ++ l := by
  induction l with
  | nil => intro codes _; simp [setAll]
  | cons p l ih =>
    intro codes hdisj
    simp only [List.map_cons, List.nodup_cons] at hnd
    have hp : p.1 ∉ codes.map Prod.fst := hdisj p.1 (by simp)
    have hstep : setAll codes (p :: l) = setAll (codes ++ [p]) l := by
      simp only [setAll, List.foldl_cons]
      rw [UMap.set_of_not_mem codes p.1 p.2 hp]
    rw [hstep, ih hnd.2]
    · simp
    · intro k hk
      simp only [List.map_append, List.map_cons, List.map_nil, List.mem_append,
        List.mem_singleton, not_or]
      refine ⟨hdisj k (List.mem_cons_of_mem _ hk), ?_⟩
      intro hkp
      rw [hkp] at hk
      exact hnd.1 hk

/-- The table that `generateCodes` leaves in a fresh object: the leaves whose byte is not
zero, each with its path, in traversal order. -/
theorem generateCodes_fresh (t : Node) (ht : t.Marked) (hnd : (t.leaves.map Prod.fst).Nodup) :
    generateCodes t [] fresh = (t.leafCodes []).filter (fun p => p.1 ≠ 0) := by
  rw [generateCodes_eq t ht]
  have hsub : (((t.leafCodes []).filter (fun p => p.1 ≠ 0)).map Prod.fst).Nodup := by
    have h1 : ((t.leafCodes []).map Prod.fst).Nodup := by rw [leafCodes_keys]; exact hnd
    exact (List.Nodup.sublist ((List.filter_sublist _).map Prod.fst) h1)
  rw [setAll_fresh_nodup _ hsub fresh (by simp [fresh])]
  simp [fresh]

/-! ## Codes are paths to leaves: no code starts another -/

theorem Unrelated.symm {a b : List Byte} (h : Unrelated a b) : Unrelated b a := ⟨h.2, h.1⟩

theorem leafCodes_extends (t : Node) : ∀ (str : List Byte) (p : Byte × List Byte),
    p ∈ t.leafCodes str → str <+: p.2 := by
  induction t with
  | leaf c f =>
    intro str p hp
    simp only [Node.leafCodes, List.mem_singleton] at hp
    rw [hp]
  | inner c f l r ihl ihr =>
    intro str p hp
    simp only [Node.leafCodes, List.mem_append] at hp
    rcases hp with hp | hp
    · exact (List.prefix_append str [48]).trans (ihl _ p hp)
    · exact (List.prefix_append str [49]).trans (ihr _ p hp)

theorem unrelated_of_branches (str a b : List Byte) (ha : (str ++ [48]) <+: a)
    (hb : (str ++ [49]) <+: b) : Unrelated a b := by
  obtain ⟨u, rfl⟩ := ha
  obtain ⟨v, rfl⟩ := hb
  constructor
  · rintro ⟨w, hw⟩
    simp only [List.append_assoc, List.singleton_append, List.append_cancel_left_eq,
      List.cons_append] at hw
    have := (List.cons.inj hw).1
    exact absurd this (by decide)
  · rintro ⟨w, hw⟩
    simp only [List.append_assoc, List.singleton_append, List.append_cancel_left_eq,
      List.cons_append] at hw
    have := (List.cons.inj hw).1
    exact absurd this (by decide)

theorem leafCodes_pairwise (t : Node) : ∀ str : List Byte,
    (t.leafCodes str).Pairwise (fun p q => Unrelated p.2 q.2) := by
  induction t with
  | leaf c f => intro str; simp [Node.leafCodes]
  | inner c f l r ihl ihr =>
    intro str
    simp only [Node.leafCodes]
    rw [List.pairwise_append]
    refine ⟨ihl _, ihr _, ?_⟩
    intro p hp q hq
    exact unrelated_of_branches str p.2 q.2 (leafCodes_extends l _ p hp)
      (leafCodes_extends r _ q hq)

/-- The forward table of a fresh coder after `buildHuffmanTree` and `generateCodes`, as
a list of entries: a sublist of the leaves with their paths. -/
theorem table_pairwise (t : Node) :
    ((t.leafCodes []).filter (fun p => p.1 ≠ 0)).Pairwise (fun p q => Unrelated p.2 q.2) :=
  (leafCodes_pairwise t []).sublist (List.filter_sublist _)

theorem table_unrelated (t : Node) (ht : t.Marked) (hnd : (t.leaves.map Prod.fst).Nodup)
    (s1 s2 : Byte) (c1 c2 : List Byte) (hs : s1 ≠ s2)
    (h1 : UMap.find (generateCodes t [] fresh) s1 = some c1)
    (h2 : UMap.find (generateCodes t [] fresh) s2 = some c2) : Unrelated c1 c2 := by
  rw [generateCodes_fresh t ht hnd] at h1 h2
  have m1 := UMap.find_some_mem _ _ _ h1
  have m2 := UMap.find_some_mem _ _ _ h2
  have hsym : Symmetric (fun p q : Byte × List Byte => Unrelated p.2 q.2) :=
    fun _ _ h => h.symm
  have hne : (s1, c1) ≠ (s2, c2) := fun e => hs (Prod.mk.inj e).1
  exact (table_pairwise t).forall hsym m1 m2 hne

/-- C2. Prefix-free: for every non-empty input buffer the tree is built, and in the
table that `generateCodes` then leaves in a fresh coder, the codes of two distinct
symbols are never an initial segment one of the other. -/
theorem prefix_free_table (std : StdLib) (hstd : std.Lawful) (text : List Byte)
    (hne : text ≠ []) :
    ∃ root, buildHuffmanTree std text = some root ∧
      ∀ (s1 s2 : Byte) (c1 c2 : List Byte), s1 ≠ s2 →
        UMap.find (generateCodes root [] fresh) s1 = some c1 →
        UMap.find (generateCodes root [] fresh) s2 = some c2 →
        ¬ c1 <+: c2 ∧ ¬ c2 <+: c1 := by
  obtain ⟨t, ht, hmark, hperm⟩ := buildHuffmanTree_shape std hstd text hne
  exact ⟨t, ht, fun s1 s2 c1 c2 hs h1 h2 =>
    table_unrelated t hmark (leaves_keys_nodup text t hperm) s1 s2 c1 c2 hs h1 h2⟩

/-- C2 at the input `abracadabra` on the reference library. -/
theorem prefix_free_table_witness :
    ∃ root, buildHuffmanTree refStd [97, 98, 114, 97, 99, 97, 100, 97, 98, 114, 97] = some root ∧
      ∀ (s1 s2 : Byte) (c1 c2 : List Byte), s1 ≠ s2 →
        UMap.find (generateCodes root [] fresh) s1 = some c1 →
        UMap.find (generateCodes root [] fresh) s2 = some c2 →
        ¬ c1 <+: c2 ∧ ¬ c2 <+: c1 :=
  prefix_free_table refStd refStd_lawful [97, 98, 114, 97, 99, 97, 100, 97, 98, 114, 97]
    (by decide)

/-! ## Weighted path length: the exchange argument on (weight, depth) multisets -/

/-- A tree with at least two leaves has two leaves of greatest depth that can be merged
into one leaf a level higher. -/
theorem TreeDepths.deepest {D : Multiset Nat} (h : TreeDepths D) :
    2 ≤ Multiset.card D →
    ∃ (k : Nat) (D1 : Multiset Nat), D = (k + 1) ::ₘ (k + 1) ::ₘ D1 ∧
      (∀ d ∈ D, d ≤ k + 1) ∧ TreeDepths (k ::ₘ D1) := by
  induction h with
  | single => intro hc; simp at hc
  | split d D0 hD ih =>
    intro _
    by_cases hcard : 2 ≤ Multiset.card (d ::ₘ D0)
    · obtain ⟨k, D1, heq, hmax, htree⟩ := ih hcard
      have hd : d ≤ k + 1 := hmax d (Multiset.mem_cons_self d D0)
      by_cases hdk : d = k + 1
      · refine ⟨d, D0, rfl, ?_, hD⟩
        intro x hx
        simp only [Multiset.mem_cons] at hx
        rcases hx with rfl | rfl | hx
        · exact le_refl _
        · exact le_refl _
        · have := hmax x (Multiset.mem_cons_of_mem hx)
          omega
      · have hdmem : d ∈ D1 := by
          have : d ∈ (k + 1) ::ₘ (k + 1) ::ₘ D1 := heq ▸ Multiset.mem_cons_self d D0
          simp only [Multiset.mem_cons] at this
          rcases this with h1 | h1 | h1
          · exact absurd h1 hdk
          · exact absurd h1 hdk
          · exact h1
        obtain ⟨D2, rfl⟩ := Multiset.exists_cons_of_mem hdmem
        have hD0 : D0 = (k + 1) ::ₘ (k + 1) ::ₘ D2 := by
          have h1 : d ::ₘ D0 = d ::ₘ ((k + 1) ::ₘ (k + 1) ::ₘ D2) := by
            rw [heq]
            ext x
            simp only [Multiset.count_cons]
            omega
          exact (Multiset.cons_inj_right d).1 h1
        refine ⟨k, (d + 1) ::ₘ (d + 1) ::ₘ D2, ?_, ?_, ?_⟩
        · rw [hD0]
          ext x
          simp only [Multiset.count_cons]
          omega
        · intro x hx
          simp only [Multiset.mem_cons] at hx
          rcases hx with rfl | rfl | hx
          · omega
          · omega
          · exact hmax x (Multiset.mem_cons_of_mem hx)
        · have h2 : TreeDepths (d ::ₘ k ::ₘ D2) := by
            rw [Multiset.cons_swap]; exact htree
          have h3 := TreeDepths.split d (k ::ₘ D2) h2
          have e : k ::ₘ (d + 1) ::ₘ (d + 1) ::ₘ D2 = (d + 1) ::ₘ (d + 1) ::ₘ k ::ₘ D2 := by
            ext x
            simp only [Multiset.count_cons]
            omega
          rw [e]; exact h3
    · have hD0 : D0 = 0 := by
        simp only [Multiset.card_cons] at hcard
        exact Multiset.card_eq_zero.1 (by omega)
      subst hD0
      refine ⟨d, 0, rfl, ?_, hD⟩
      intro x hx
      simp only [Multiset.mem_cons, Multiset.not_mem_zero, or_false] at hx
      rcases hx with rfl | rfl <;> exact le_refl _

/-- Hanging a tree below a leaf of depth `d` of another tree gives a tree again. -/
theorem TreeDepths.graft {E : Multiset Nat} (hE : TreeDepths E) (d : Nat) (D : Multiset Nat)
    (hD : TreeDepths (d ::ₘ D)) : TreeDepths (E.map (fun e => e + d) + D) := by
  induction hE with
  | single => simpa using hD
  | split e E0 _ ih =>
    have h1 : TreeDepths ((e + d) ::ₘ (E0.map (fun e => e + d) + D)) := by
      simpa using ih
    have h2 := TreeDepths.split _ _ h1
    have e2 : Multiset.map (fun e => e + d) ((e + 1) ::ₘ (e + 1) ::ₘ E0) + D =
        (e + d + 1) ::ₘ (e + d + 1) ::ₘ (Multiset.map (fun e => e + d) E0 + D) := by
      simp only [Multiset.map_cons, Multiset.cons_add]
      rw [show e + 1 + d = e + d + 1 by omega]
    rw [e2]; exact h2

theorem dot_cons (p : Nat × Nat) (P : Multiset (Nat × Nat)) : dot (p ::ₘ P) = p.1 * p.2 + dot P := by
  simp [dot]

/-- Rearrangement: a least weight can be moved to a greatest depth without raising the
sum of weight times depth. -/
theorem exchange_least (P : Multiset (Nat × Nat)) (a m : Nat)
    (ha : a ∈ P.map Prod.fst) (hm : m ∈ P.map Prod.snd)
    (hleast : ∀ w ∈ P.map Prod.fst, a ≤ w) (hdeep : ∀ d ∈ P.map Prod.snd, d ≤ m) :
    ∃ Q : Multiset (Nat × Nat), P.map Prod.fst = a ::ₘ Q.map Prod.fst ∧
      P.map Prod.snd = m ::ₘ Q.map Prod.snd ∧ a * m + dot Q ≤ dot P := by
  obtain ⟨⟨a1, d⟩, hp, ha1⟩ := Multiset.mem_map.1 ha
  simp only at ha1
  subst ha1
  obtain ⟨P1, rfl⟩ := Multiset.exists_cons_of_mem hp
  by_cases hmd : m = d
  · subst hmd
    exact ⟨P1, by simp, by simp, by rw [dot_cons]⟩
  · have hm1 : m ∈ P1.map Prod.snd := by
      simp only [Multiset.map_cons, Multiset.mem_cons] at hm
      rcases hm with h | h
      · exact absurd h hmd
      · exact h
    obtain ⟨⟨w, m1⟩, hq, hm2⟩ := Multiset.mem_map.1 hm1
    simp only at hm2
    subst hm2
    obtain ⟨P2, rfl⟩ := Multiset.exists_cons_of_mem hq
    have haw : a1 ≤ w := hleast w (by simp)
    have hdm : d ≤ m1 := hdeep d (by simp)
    refine ⟨(w, d) ::ₘ P2, by simp, ?_, ?_⟩
    · simp only [Multiset.map_cons]
      exact Multiset.cons_swap _ _ _
    · simp only [dot_cons]
      obtain ⟨x, rfl⟩ := Nat.exists_eq_add_of_le haw
      obtain ⟨y, rfl⟩ := Nat.exists_eq_add_of_le hdm
      nlinarith [Nat.zero_le (x * y)]

/-- The step of the optimality proof: in any tree over the weights `a, b, W` with `a` and
`b` least, two leaves can be merged so that a tree over `a + b, W` results whose weighted
path length is lower by at least `a + b`. -/
theorem merge_two_least (P : Multiset (Nat × Nat)) (a b : Nat) (W : Multiset Nat)
    (htree : TreeDepths (P.map Prod.snd)) (hw : P.map Prod.fst = a ::ₘ b ::ₘ W)
    (ha : ∀ w ∈ b ::ₘ W, a ≤ w) (hb : ∀ w ∈ W, b ≤ w) :
    ∃ Q : Multiset (Nat × Nat), TreeDepths (Q.map Prod.snd) ∧
      Q.map Prod.fst = (a + b) ::ₘ W ∧ dot Q + a + b ≤ dot P := by
  have hcard : 2 ≤ Multiset.card (P.map Prod.snd) := by
    have : Multiset.card (P.map Prod.fst) = Multiset.card W + 2 := by rw [hw]; simp
    simp only [Multiset.card_map] at this ⊢
    omega
  obtain ⟨k, D1, hD, hmax, hk⟩ := htree.deepest hcard
  obtain ⟨Q1, hQ1w, hQ1d, hle1⟩ := exchange_least P a (k + 1)
    (by rw [hw]; exact Multiset.mem_cons_self _ _)
    (by rw [hD]; exact Multiset.mem_cons_self _ _)
    (by
      intro w hwm
      rw [hw] at hwm
      rcases Multiset.mem_cons.1 hwm with rfl | h
      · exact le_refl _
      · exact ha w h)
    hmax
  have hQ1w2 : Q1.map Prod.fst = b ::ₘ W := by
    rw [hw] at hQ1w
    exact ((Multiset.cons_inj_right a).1 hQ1w).symm
  have hQ1d2 : Q1.map Prod.snd = (k + 1) ::ₘ D1 := by
    rw [hD] at hQ1d
    exact ((Multiset.cons_inj_right (k + 1)).1 hQ1d).symm
  obtain ⟨Q2, hQ2w, hQ2d, hle2⟩ := exchange_least Q1 b (k + 1)
    (by rw [hQ1w2]; exact Multiset.mem_cons_self _ _)
    (by rw [hQ1d2]; exact Multiset.mem_cons_self _ _)
    (by
      intro w hwm
      rw [hQ1w2] at hwm
      rcases Multiset.mem_cons.1 hwm with rfl | h
      · exact le_refl _
      · exact hb w h)
    (by
      intro d hd
      apply hmax
      rw [hQ1d]
      exact Multiset.mem_cons_of_mem hd)
  have hQ2w2 : Q2.map Prod.fst = W := by
    rw [hQ1w2] at hQ2w
    exact ((Multiset.cons_inj_right b).1 hQ2w).symm
  have hQ2d2 : Q2.map Prod.snd = D1 := by
    rw [hQ1d2] at hQ2d
    exact ((Multiset.cons_inj_right (k + 1)).1 hQ2d).symm
  refine ⟨(a + b, k) ::ₘ Q2, ?_, ?_, ?_⟩
  · simp only [Multiset.map_cons, hQ2d2]; exact hk
  · simp only [Multiset.map_cons, hQ2w2]
  · rw [dot_cons]
    simp only
    nlinarith

/-! ## Weighted path length of the tree that is built -/

theorem leafDepths_keys (t : Node) : ∀ k, (t.leafDepths k).map Prod.fst = t.leaves.map Prod.fst := by
  induction t with
  | leaf c f => intro k; rfl
  | inner c f l r ihl ihr => intro k; simp [Node.leafDepths, Node.leaves, ihl, ihr]

theorem leafDepths_shift (t : Node) : ∀ k,
    t.leafDepths k = (t.leafDepths 0).map (fun p => (p.1, p.2 + k)) := by
  induction t with
  | leaf c f => intro k; simp [Node.leafDepths]
  | inner c f l r ihl ihr =>
    intro k
    simp only [Node.leafDepths, List.map_append]
    rw [ihl (k + 1), ihr (k + 1), ihl (0 + 1), ihr (0 + 1)]
    simp only [List.map_map]
    congr 1 <;> (apply List.map_congr_left; intro p _; simp; omega)

theorem wpl_from (text : List Byte) (t : Node) (k : Nat) :
    ((t.leafDepths k).map (fun p => text.count p.1 * p.2)).sum =
      weightedPathLength text t + k * weight text t := by
  have hw : t.leaves.map (fun p => text.count p.1) =
      (t.leafDepths 0).map (fun p => text.count p.1) := by
    have := congrArg (List.map (fun c => text.count c)) (leafDepths_keys t 0)
    simp only [List.map_map] at this
    exact this.symm
  unfold weightedPathLength weight
  rw [leafDepths_shift t k, hw]
  induction t.leafDepths 0 with
  | nil => simp
  | cons p l ih =>
    simp only [List.map_cons, List.sum_cons, List.map_map] at ih ⊢
    rw [ih]
    ring

theorem weight_inner (text : List Byte) (c : Byte) (f : Int) (l r : Node) :
    weight text (.inner c f l r) = weight text l + weight text r := by
  simp [weight, Node.leaves]

theorem wpl_leaf (text : List Byte) (c : Byte) (f : Int) :
    weightedPathLength text (.leaf c f) = 0 := by
  simp [weightedPathLength, Node.leafDepths]

theorem wpl_inner (text : List Byte) (c : Byte) (f : Int) (l r : Node) :
    weightedPathLength text (.inner c f l r) =
      weightedPathLength text l + weightedPathLength text r + weight text l + weight text r := by
  have h : weightedPathLength text (.inner c f l r) =
      ((l.leafDepths 1).map (fun p => text.count p.1 * p.2)).sum +
      ((r.leafDepths 1).map (fun p => text.count p.1 * p.2)).sum := by
    simp [weightedPathLength, Node.leafDepths]
  rw [h, wpl_from, wpl_from]
  ring

theorem dot_pairsOf (text : List Byte) (t : Node) :
    dot (pairsOf text t) = weightedPathLength text t := by
  simp only [dot, pairsOf, weightedPathLength, Multiset.map_coe, Multiset.sum_coe, List.map_map]
  rfl

theorem pairsOf_weights (text : List Byte) (t : Node) :
    (pairsOf text t).map Prod.fst =
      ((t.leaves.map Prod.fst).map (fun c => text.count c) : List Nat) := by
  simp only [pairsOf, Multiset.map_coe, List.map_map, ← leafDepths_keys t 0]
  rfl

theorem treeDepths_of_node (t : Node) :
    TreeDepths (((t.leafDepths 0).map Prod.snd : List Nat) : Multiset Nat) := by
  induction t with
  | leaf c f => exact TreeDepths.single
  | inner c f l r ihl ihr =>
    have h11 : TreeDepths (1 ::ₘ 1 ::ₘ 0) := TreeDepths.split 0 0 TreeDepths.single
    have hl := ihl.graft 1 (1 ::ₘ 0) h11
    have hl2 : TreeDepths (1 ::ₘ (((l.leafDepths 0).map Prod.snd : List Nat) :
        Multiset Nat).map (fun e => e + 1)) := by
      have e : (((l.leafDepths 0).map Prod.snd : List Nat) : Multiset Nat).map
          (fun e => e + 1) + 1 ::ₘ 0 =
          1 ::ₘ (((l.leafDepths 0).map Prod.snd : List Nat) : Multiset Nat).map
            (fun e => e + 1) := by
        rw [Multiset.add_cons, add_zero]
      rw [← e]; exact hl
    have hr := ihr.graft 1 _ hl2
    have e3 : ((((Node.inner c f l r).leafDepths 0).map Prod.snd : List Nat) : Multiset Nat) =
        (((r.leafDepths 0).map Prod.snd : List Nat) : Multiset Nat).map (fun e => e + 1) +
        (((l.leafDepths 0).map Prod.snd : List Nat) : Multiset Nat).map (fun e => e + 1) := by
      simp only [Node.leafDepths, List.map_append, Multiset.map_coe, Multiset.coe_add]
      rw [leafDepths_shift l (0 + 1), leafDepths_shift r (0 + 1)]
      simp only [List.map_map]
      rw [Multiset.coe_eq_coe]
      exact List.perm_append_comm
    rw [e3]; exact hr

theorem treeDepths_pairsOf (text : List Byte) (t : Node) :
    TreeDepths ((pairsOf text t).map Prod.snd) := by
  have h := treeDepths_of_node t
  have e : (pairsOf text t).map Prod.snd =
      (((t.leafDepths 0).map Prod.snd : List Nat) : Multiset Nat) := by
    simp only [pairsOf, Multiset.map_coe, List.map_map]
    rfl
  rw [e]; exact h

/-- The occurrences of pairwise distinct bytes add up to at most the length of the text. -/
theorem sum_count_le (L : List Byte) (hnd : L.Nodup) : ∀ text : List Byte,
    (L.map (fun c => text.count c)).sum ≤ text.length := by
  induction L with
  | nil => intro text; simp
  | cons c L ih =>
    intro text
    simp only [List.nodup_cons] at hnd
    have h1 := ih hnd.2 (text.filter (fun x => x ≠ c))
    have h2 : L.map (fun x => (text.filter (fun x => x ≠ c)).count x) =
        L.map (fun x => text.count x) := by
      apply List.map_congr_left
      intro x hx
      have hxc : x ≠ c := fun e => hnd.1 (e ▸ hx)
      rw [List.count_filter]
      simp [hxc]
    rw [h2] at h1
    have h3 : (text.filter (fun x => x ≠ c)).length + text.count c = text.length := by
      have := List.length_eq_countP_add_countP (fun x => decide (x ≠ c)) text
      rw [List.countP_eq_length_filter] at this
      have h4 : List.countP (fun a => ¬ decide (a ≠ c) = true) text = text.count c := by
        unfold List.count
        apply List.countP_congr
        intro x _
        simp
      rw [this]
      simp only [ne_eq, decide_not] at h4 ⊢
      rw [← h4]
    simp only [List.map_cons, List.sum_cons]
    omega

theorem weight_le_length (text : List Byte) (t : Node) (hnd : (t.leaves.map Prod.fst).Nodup) :
    weight text t ≤ text.length := by
  have h := sum_count_le _ hnd text
  simpa [weight, List.map_map, Function.comp] using h

/-- The loop invariant of the optimality proof: from any state of the merge loop on, the
result adds to the path lengths already built no more than any tree over the current
weights would. -/
theorem Merges.cost_le (text : List Byte) (hlen : text.length < 2147483648)
    {F : List Node} {t : Node} (h : Merges F t) :
    (∀ x ∈ F, x.freq = (weight text x : Int)) →
    ((F.flatMap Node.leaves).map Prod.fst).Nodup →
    ∀ P : Multiset (Nat × Nat), TreeDepths (P.map Prod.snd) →
      P.map Prod.fst = ((F.map (weight text) : List Nat) : Multiset Nat) →
      weightedPathLength text t ≤ (F.map (weightedPathLength text)).sum + dot P := by
  induction h with
  | done t => intro _ _ P _ _; simp
  | step F F1 l r t hperm hl hr _ ih =>
    intro hfreq hnd P hP hw
    have hlF : l ∈ F := hperm.symm.subset (List.mem_cons_self _ _)
    have hrF : r ∈ F := hperm.symm.subset (List.mem_cons_of_mem _ (List.mem_cons_self _ _))
    have hF1 : ∀ y ∈ F1, y ∈ F := fun y hy =>
      hperm.symm.subset (List.mem_cons_of_mem _ (List.mem_cons_of_mem _ hy))
    have hnd2 : (((l :: r :: F1).flatMap Node.leaves).map Prod.fst).Nodup :=
      (((hperm.flatMap_right Node.leaves).map Prod.fst).nodup_iff).1 hnd
    have hnd3 : (((Node.inner 0 (wrap32 (l.freq + r.freq)) l r :: F1).flatMap
        Node.leaves).map Prod.fst).Nodup := by
      simpa [List.flatMap_cons, Node.leaves, List.append_assoc] using hnd2
    have hndnew : (((Node.inner 0 (wrap32 (l.freq + r.freq)) l r).leaves).map Prod.fst).Nodup := by
      simp only [List.flatMap_cons, List.map_append] at hnd3
      exact (List.nodup_append.1 hnd3).1
    have hbound := weight_le_length text _ hndnew
    rw [weight_inner] at hbound
    have hnewfreq : (Node.inner 0 (wrap32 (l.freq + r.freq)) l r).freq =
        (weight text (Node.inner 0 (wrap32 (l.freq + r.freq)) l r) : Int) := by
      rw [weight_inner]
      show wrap32 (l.freq + r.freq) = _
      rw [hfreq l hlF, hfreq r hrF, wrap32_id _ (by omega) (by omega)]
      push_cast
      rfl
    have hfreq2 : ∀ x ∈ Node.inner 0 (wrap32 (l.freq + r.freq)) l r :: F1,
        x.freq = (weight text x : Int) := by
      intro x hx
      rcases List.mem_cons.1 hx with rfl | hx
      · exact hnewfreq
      · exact hfreq x (hF1 x hx)
    have hw2 : P.map Prod.fst =
        weight text l ::ₘ weight text r ::ₘ ((F1.map (weight text) : List Nat) : Multiset Nat) := by
      rw [hw, Multiset.cons_coe, Multiset.cons_coe, Multiset.coe_eq_coe]
      exact hperm.map _
    have ha : ∀ w ∈ weight text r ::ₘ ((F1.map (weight text) : List Nat) : Multiset Nat),
        weight text l ≤ w := by
      intro w hwm
      rw [Multiset.cons_coe, Multiset.mem_coe, ← List.map_cons] at hwm
      obtain ⟨y, hy, rfl⟩ := List.mem_map.1 hwm
      have h1 := hl y hy
      have hyF : y ∈ F := hperm.symm.subset (List.mem_cons_of_mem _ hy)
      rw [hfreq l hlF, hfreq y hyF] at h1
      exact_mod_cast h1
    have hb : ∀ w ∈ ((F1.map (weight text) : List Nat) : Multiset Nat), weight text r ≤ w := by
      intro w hwm
      rw [Multiset.mem_coe] at hwm
      obtain ⟨y, hy, rfl⟩ := List.mem_map.1 hwm
      have h1 := hr y hy
      rw [hfreq r hrF, hfreq y (hF1 y hy)] at h1
      exact_mod_cast h1
    obtain ⟨Q, hQ, hQw, hQle⟩ := merge_two_least P _ _ _ hP hw2 ha hb
    have hQw2 : Q.map Prod.fst =
        (((Node.inner 0 (wrap32 (l.freq + r.freq)) l r :: F1).map (weight text) : List Nat) :
          Multiset Nat) := by
      rw [hQw, List.map_cons, weight_inner, Multiset.cons_coe]
    have hih := ih hfreq2 hnd3 Q hQ hQw2
    have hsum : (F.map (weightedPathLength text)).sum =
        weightedPathLength text l + weightedPathLength text r +
          (F1.map (weightedPathLength text)).sum := by
      rw [(hperm.map (weightedPathLength text)).sum_eq]
      simp only [List.map_cons, List.sum_cons]
      ring
    rw [hsum]
    simp only [List.map_cons, List.sum_cons, wpl_inner] at hih
    omega

theorem leafForest_freq (text : List Byte) (hlen : text.length < 2147483648) :
    ∀ x ∈ leafForest text, x.freq = (weight text x : Int) := by
  intro x hx
  obtain ⟨p, hp, rfl⟩ := List.mem_map.1 hx
  obtain ⟨_, hf⟩ := countFreq_mem text p.1 p.2 hp
  have hc : text.count p.1 ≤ text.length := List.count_le_length _ _
  simp only [Node.freq, weight, Node.leaves, List.map_cons, List.map_nil, List.sum_cons,
    List.sum_nil, add_zero]
  rw [hf, wrap32_id _ (by omega) (by omega)]

theorem leafForest_weights (text : List Byte) :
    (leafForest text).map (weight text) =
      ((countFreq text).map Prod.fst).map (fun c => text.count c) := by
  simp [leafForest, List.map_map, Function.comp, weight, Node.leaves]

theorem leafForest_wpl (text : List Byte) :
    ((leafForest text).map (weightedPathLength text)).sum = 0 := by
  unfold leafForest
  induction countFreq text with
  | nil => rfl
  | cons p l ih =>
    simp only [List.map_cons, List.sum_cons, wpl_leaf, zero_add]
    exact ih

/-- Every tree over the distinct bytes of the text weighs at least as much as the result
of the merge loop. -/
theorem optimal_of_merges (text : List Byte) (hlen : text.length < 2147483648) (root : Node)
    (hm : Merges (leafForest text) root) (t : Node)
    (ht : (t.leaves.map Prod.fst).Perm text.dedup) :
    weightedPathLength text root ≤ weightedPathLength text t := by
  have hnd : (((leafForest text).flatMap Node.leaves).map Prod.fst).Nodup := by
    rw [leafForest_leaves]; exact countFreq_nodup text
  have hw : (pairsOf text t).map Prod.fst =
      (((leafForest text).map (weight text) : List Nat) : Multiset Nat) := by
    rw [pairsOf_weights, leafForest_weights, Multiset.coe_eq_coe]
    exact (ht.trans (countFreq_keys_perm text).symm).map _
  have h := hm.cost_le text hlen (leafForest_freq text hlen) hnd (pairsOf text t)
    (treeDepths_pairsOf text t) hw
  rw [leafForest_wpl, dot_pairsOf] at h
  omega

/-- No tree over the weights 1, 1, 2, 4 has a weighted path length below 14. -/
theorem dot_ge_fourteen (P : Multiset (Nat × Nat)) (hP : TreeDepths (P.map Prod.snd))
    (hw : P.map Prod.fst = 1 ::ₘ 1 ::ₘ 2 ::ₘ 4 ::ₘ 0) : 14 ≤ dot P := by
  obtain ⟨Q1, hQ1, hQ1w, h1⟩ := merge_two_least P 1 1 (2 ::ₘ 4 ::ₘ 0) hP hw
    (by intro w hw; simp at hw; omega) (by intro w hw; simp at hw; omega)
  have hQ1w2 : Q1.map Prod.fst = 2 ::ₘ 2 ::ₘ 4 ::ₘ 0 := by rw [hQ1w]
  obtain ⟨Q2, hQ2, hQ2w, h2⟩ := merge_two_least Q1 2 2 (4 ::ₘ 0) hQ1 hQ1w2
    (by intro w hw; simp at hw; omega) (by intro w hw; simp at hw; omega)
  have hQ2w2 : Q2.map Prod.fst = 4 ::ₘ 4 ::ₘ 0 := by rw [hQ2w]
  obtain ⟨Q3, _, _, h3⟩ := merge_two_least Q2 4 4 0 hQ2 hQ2w2
    (by intro w hw; simp at hw; omega) (by intro w hw; simp at hw)
  omega

/-- C3 (amended). Optimality: for every non-empty input buffer of fewer than 2^31 bytes,
`buildHuffmanTree` returns a tree whose weighted path length (occurrences times leaf depth,
summed over the leaves) is least among all strict binary trees whose leaves are the distinct
input bytes; when the counts are 1, 1, 2, 4 that length is 14. -/
theorem huffman_tree_optimal (std : StdLib) (hstd : std.Lawful) (text : List Byte)
    (hne : text ≠ []) (hlen : text.length < 2147483648) :
    ∃ root, buildHuffmanTree std text = some root ∧
      (∀ t : Node, (t.leaves.map Prod.fst).Perm text.dedup →
        weightedPathLength text root ≤ weightedPathLength text t) ∧
      (∀ a b c d : Byte, text.dedup.Perm [a, b, c, d] →
        text.count a = 1 → text.count b = 1 → text.count c = 2 → text.count d = 4 →
        weightedPathLength text root = 14) := by
  obtain ⟨root, hroot, hm⟩ := buildHuffmanTree_spec std hstd text hne
  have hopt := optimal_of_merges text hlen root hm
  refine ⟨root, hroot, hopt, ?_⟩
  intro a b c d hperm ha hb hc hd
  apply le_antisymm
  · have h := hopt (.inner 0 0 (.leaf d 0) (.inner 0 0 (.leaf c 0)
        (.inner 0 0 (.leaf a 0) (.leaf b 0)))) (by
      refine List.Perm.trans ?_ hperm.symm
      simp only [Node.leaves, List.map_append, List.map_cons, List.map_nil,
        List.singleton_append]
      rw [List.perm_iff_count]
      intro x
      simp only [List.count_cons, List.count_nil]
      omega)
    have hval : weightedPathLength text (.inner 0 0 (.leaf d 0) (.inner 0 0 (.leaf c 0)
        (.inner 0 0 (.leaf a 0) (.leaf b 0)))) = 14 := by
      simp [weightedPathLength, Node.leafDepths, ha, hb, hc, hd]
    omega
  · have hleaves : (root.leaves.map Prod.fst).Perm [a, b, c, d] := by
      have h1 := hm.leaves_perm
      rw [leafForest_leaves] at h1
      exact ((h1.map Prod.fst).trans (countFreq_keys_perm text)).trans hperm
    have hw : (pairsOf text root).map Prod.fst = 1 ::ₘ 1 ::ₘ 2 ::ₘ 4 ::ₘ 0 := by
      rw [pairsOf_weights]
      have h2 := hleaves.map (fun c => text.count c)
      simp only [List.map_cons, List.map_nil, ha, hb, hc, hd] at h2
      rw [Multiset.coe_eq_coe.2 h2]
      rfl
    have := dot_ge_fourteen _ (treeDepths_pairsOf text root) hw
    rw [dot_pairsOf] at this
    exact this

/-- C3 at the input `abccdddd` (counts 1, 1, 2, 4) on the reference library. -/
theorem huffman_tree_optimal_witness :
    ∃ root, buildHuffmanTree refStd [97, 98, 99, 99, 100, 100, 100, 100] = some root ∧
      (∀ t : Node, (t.leaves.map Prod.fst).Perm
          ([97, 98, 99, 99, 100, 100, 100, 100] : List Byte).dedup →
        weightedPathLength [97, 98, 99, 99, 100, 100, 100, 100] root ≤
          weightedPathLength [97, 98, 99, 99, 100, 100, 100, 100] t) ∧
      (∀ a b c d : Byte, ([97, 98, 99, 99, 100, 100, 100, 100] : List Byte).dedup.Perm
          [a, b, c, d] →
        ([97, 98, 99, 99, 100, 100, 100, 100] : List Byte).count a = 1 →
        ([97, 98, 99, 99, 100, 100, 100, 100] : List Byte).count b = 1 →
        ([97, 98, 99, 99, 100, 100, 100, 100] : List Byte).count c = 2 →
        ([97, 98, 99, 99, 100, 100, 100, 100] : List Byte).count d = 4 →
        weightedPathLength [97, 98, 99, 99, 100, 100, 100, 100] root = 14) :=
  huffman_tree_optimal refStd refStd_lawful [97, 98, 99, 99, 100, 100, 100, 100]
    (by decide) (by decide)

theorem countFreq_fold_replicate (a : Byte) : ∀ (n : Nat) (v : Int),
    (List.replicate n a).foldl
        (fun freq c => UMap.set freq c (wrap32 ((UMap.find freq c).getD 0 + 1)))
        [(a, wrap32 v)] = [(a, wrap32 (v + n))] := by
  intro n
  induction n with
  | zero => intro v; simp
  | succ n ih =>
    intro v
    rw [List.replicate_succ, List.foldl_cons]
    have h : UMap.set [(a, wrap32 v)] a (wrap32 ((UMap.find [(a, wrap32 v)] a).getD 0 + 1)) =
        [(a, wrap32 (v + 1))] := by
      simp [UMap.set, UMap.find, wrap32_add_wrap32]
    rw [h, ih]
    congr 3
    push_cast
    ring

theorem countFreq_replicate_append (a : Byte) (n : Nat) (rest : List Byte) :
    countFreq (List.replicate (n + 1) a ++ rest) =
      rest.foldl (fun freq c => UMap.set freq c (wrap32 ((UMap.find freq c).getD 0 + 1)))
        [(a, wrap32 (n + 1))] := by
  unfold countFreq
  rw [List.foldl_append, List.replicate_succ, List.foldl_cons]
  have h : UMap.set ([] : List (Byte × Int)) a (wrap32 ((UMap.find ([] : List (Byte × Int)) a).getD 0 + 1)) =
      [(a, wrap32 1)] := by
    simp [UMap.set, UMap.find]
  rw [h, countFreq_fold_replicate]
  congr 4
  ring

theorem build_of_wrapped_count (text : List Byte)
    (hcf : countFreq text = [(97, -2147483648), (98, 1), (99, 1)]) :
    buildHuffmanTree refStd text =
      some (.inner 0 (-2147483646)
        (.inner 0 (-2147483647) (.leaf 97 (-2147483648)) (.leaf 98 1)) (.leaf 99 1)) := by
  unfold buildHuffmanTree
  rw [hcf]
  decide

theorem wpl_of_wrapped_count (text : List Byte) (ha : text.count 97 = 2147483648)
    (hb : text.count 98 = 1) (hc : text.count 99 = 1) :
    weightedPathLength text (.inner 0 0 (.leaf 97 0) (.inner 0 0 (.leaf 98 0) (.leaf 99 0))) <
      weightedPathLength text (.inner 0 (-2147483646)
        (.inner 0 (-2147483647) (.leaf 97 (-2147483648)) (.leaf 98 1)) (.leaf 99 1)) := by
  simp [weightedPathLength, Node.leafDepths, ha, hb, hc]

/-- C3, counterexample: on an input of 2^31 bytes `a` followed by `b` and `c`, the `int`
count of `a` wraps to -2^31, the loop merges `a` first, and the tree that is returned puts
`a` at depth 2: its weighted path length exceeds that of the tree with `a` at depth 1. -/
theorem huffman_tree_not_optimal_when_count_wraps :
    ∃ root t : Node,
      buildHuffmanTree refStd (List.replicate 2147483648 97 ++ [98, 99]) = some root ∧
      (t.leaves.map Prod.fst).Perm (List.replicate 2147483648 97 ++ [98, 99] : List Byte).dedup ∧
      weightedPathLength (List.replicate 2147483648 97 ++ [98, 99]) t <
        weightedPathLength (List.replicate 2147483648 97 ++ [98, 99]) root := by
  have hcf : countFreq (List.replicate 2147483648 97 ++ [98, 99]) =
      [(97, -2147483648), (98, 1), (99, 1)] := by
    rw [show (2147483648 : Nat) = 2147483647 + 1 from rfl, countFreq_replicate_append]
    decide
  refine ⟨.inner 0 (-2147483646) (.inner 0 (-2147483647) (.leaf 97 (-2147483648)) (.leaf 98 1))
      (.leaf 99 1),
    .inner 0 0 (.leaf 97 0) (.inner 0 0 (.leaf 98 0) (.leaf 99 0)),
    build_of_wrapped_count _ hcf, ?_, ?_⟩
  · have h := countFreq_keys_perm (List.replicate 2147483648 97 ++ [98, 99])
    rw [hcf] at h
    exact h
  · apply wpl_of_wrapped_count
    · rw [List.count_append, List.count_replicate]
      simp
    · rw [List.count_append, List.count_replicate]
      simp
    · rw [List.count_append, List.count_replicate]
      simp

/-! ## The encoding loop and the header -/

theorem encodeText_fold (text : List Byte) : ∀ (codes : Codes) (acc : List Byte),
    (text.foldl (fun s c => ((UMap.at s.1 c []).1, s.2 ++ (UMap.at s.1 c []).2)) (codes, acc)).2 =
        acc ++ text.flatMap (codeOf codes) ∧
    ∀ k, UMap.find (text.foldl
        (fun s c => ((UMap.at s.1 c []).1, s.2 ++ (UMap.at s.1 c []).2)) (codes, acc)).1 k =
      if k ∈ text ∧ UMap.find codes k = none then some [] else UMap.find codes k := by
  induction text with
  | nil => intro codes acc; simp
  | cons c text ih =>
    intro codes acc
    rw [List.foldl_cons]
    cases hfind : UMap.find codes c with
    | some v =>
      have hat : UMap.at codes c [] = (codes, v) := by simp [UMap.at, hfind]
      rw [hat]
      obtain ⟨h1, h2⟩ := ih codes (acc ++ v)
      refine ⟨?_, ?_⟩
      · rw [h1]; simp [List.flatMap_cons, codeOf, hfind]
      · intro k
        rw [h2]
        by_cases hkc : k = c
        · subst hkc; simp [hfind]
        · simp [hkc]
    | none =>
      have hat : UMap.at codes c [] = (codes ++ [(c, [])], []) := by simp [UMap.at, hfind]
      rw [hat]
      obtain ⟨h1, h2⟩ := ih (codes ++ [(c, [])]) (acc ++ [])
      have hset : codes ++ [(c, [])] = UMap.set codes c [] :=
        (UMap.set_of_not_mem codes c [] ((UMap.find_eq_none_iff codes c).1 hfind)).symm
      have hcode : ∀ x, codeOf (codes ++ [(c, [])]) x = codeOf codes x := by
        intro x
        unfold codeOf
        rw [hset]
        by_cases hx : c = x
        · subst hx; simp [UMap.find_set_self, hfind]
        · rw [UMap.find_set_ne _ _ _ _ hx]
      refine ⟨?_, ?_⟩
      · rw [h1]
        simp only [List.append_nil, List.flatMap_cons]
        have : codeOf codes c = [] := by simp [codeOf, hfind]
        rw [this, List.nil_append]
        congr 1
        apply List.flatMap_congr
        intro x _
        exact hcode x
      · intro k
        rw [h2, hset]
        by_cases hkc : c = k
        · subst hkc; simp [UMap.find_set_self, hfind]
        · have hkc2 : ¬ k = c := fun e => hkc e.symm
          rw [UMap.find_set_ne _ _ _ _ hkc]
          simp [hkc2]

theorem encodeText_bits (codes : Codes) (text : List Byte) :
    (encodeText codes text).2 = text.flatMap (codeOf codes) := by
  have := (encodeText_fold text codes []).1
  simpa [encodeText] using this

theorem encodeText_find (codes : Codes) (text : List Byte) (k : Byte) :
    UMap.find (encodeText codes text).1 k =
      if k ∈ text ∧ UMap.find codes k = none then some [] else UMap.find codes k :=
  (encodeText_fold text codes []).2 k

theorem toByte_val (n : Nat) (h : n < 256) : (toByte n).val = n := by
  simp [toByte, Nat.mod_eq_of_lt h]

theorem streamRead_append (code rest : List Byte) :
    streamRead code.length (code ++ rest) = (code, rest) := by
  simp [streamRead]

/-- Reading back what the table loop wrote: the entries come back one by one and the
stream is left at the byte after the table. -/
theorem readTable_written (entries : List (Byte × List Byte))
    (hlen : ∀ p ∈ entries, p.2.length < 256) :
    ∀ (rest : List Byte) (rev : List (List Byte × Byte)),
      readTable entries.length
        (entries.flatMap (fun p => p.1 :: toByte p.2.length :: p.2) ++ rest) rev =
      (storeAll rev entries, rest) := by
  induction entries with
  | nil => intro rest rev; simp [readTable, storeAll]
  | cons p entries ih =>
    intro rest rev
    have hp := hlen p (List.mem_cons_self _ _)
    simp only [List.length_cons, readTable, List.flatMap_cons, List.cons_append, streamGet,
      toByte_val _ hp, List.append_assoc, streamRead_append]
    rw [ih (fun q hq => hlen q (List.mem_cons_of_mem _ hq))]
    simp [storeAll]

theorem readInt32_written (n : Nat) (payload : List Byte) :
    readInt32 (writeInt32 n ++ payload) = some (wrap32 ((n % 4294967296 : Nat) : Int), payload) := by
  simp only [writeInt32, List.cons_append, List.nil_append, readInt32, toByte]
  congr 3
  push_cast
  omega

theorem readInt32_written_small (n : Nat) (hn : n < 2147483648) (payload : List Byte) :
    readInt32 (writeInt32 n ++ payload) = some ((n : Int), payload) := by
  rw [readInt32_written, Nat.mod_eq_of_lt (by omega), wrap32_id _ (by omega) (by omega)]

/-! ## Packing bits into bytes and reading them back -/

theorem decodeByte_eq (rev : List (List Byte × Byte)) (L : Int) (s : DecodeState) (byte : Byte) :
    decodeByte rev L s byte = (bitsOf byte).foldl (guardedStep rev L) s := by
  simp only [decodeByte, bitsOf, List.foldl_map]
  rfl

theorem bitStep_bitsRead (rev : List (List Byte × Byte)) (s : DecodeState) (ch : Byte) :
    (bitStep rev s ch).bitsRead = s.bitsRead + 1 := by
  unfold bitStep
  split <;> rfl

theorem foldl_bitStep_bitsRead (rev : List (List Byte × Byte)) (xs : List Byte) :
    ∀ s : DecodeState, (xs.foldl (bitStep rev) s).bitsRead = s.bitsRead + xs.length := by
  induction xs with
  | nil => intro s; simp
  | cons x xs ih =>
    intro s
    rw [List.foldl_cons, ih, bitStep_bitsRead, List.length_cons]
    push_cast
    ring

theorem foldl_guardedStep_done (rev : List (List Byte × Byte)) (L : Int) (xs : List Byte) :
    ∀ s : DecodeState, L ≤ s.bitsRead → xs.foldl (guardedStep rev L) s = s := by
  induction xs with
  | nil => intro s _; rfl
  | cons x xs ih =>
    intro s h
    rw [List.foldl_cons]
    have : guardedStep rev L s x = s := by
      unfold guardedStep
      rw [if_neg (by omega)]
    rw [this]
    exact ih s h

theorem foldl_guardedStep_run (rev : List (List Byte × Byte)) (L : Int) (xs : List Byte) :
    ∀ s : DecodeState, s.bitsRead + xs.length ≤ L →
      xs.foldl (guardedStep rev L) s = xs.foldl (bitStep rev) s := by
  induction xs with
  | nil => intro s _; rfl
  | cons x xs ih =>
    intro s h
    simp only [List.length_cons] at h
    push_cast at h
    rw [List.foldl_cons, List.foldl_cons]
    have : guardedStep rev L s x = bitStep rev s x := by
      unfold guardedStep
      rw [if_pos (by omega)]
    rw [this]
    apply ih
    rw [bitStep_bitsRead]
    omega

theorem testBit_packed :
    ∀ b0 b1 b2 b3 b4 b5 b6 b7 : Bool,
      [7, 6, 5, 4, 3, 2, 1, 0].map (fun i =>
        (((if b0 then 128 else 0) + ((if b1 then 64 else 0) + ((if b2 then 32 else 0) +
          ((if b3 then 16 else 0) + ((if b4 then 8 else 0) + ((if b5 then 4 else 0) +
          ((if b6 then 2 else 0) + ((if b7 then 1 else 0) + 0)))))))) % 256).testBit i) =
      [b0, b1, b2, b3, b4, b5, b6, b7] := by
  decide

theorem bitsOf_packByte (chunk : List Byte) :
    bitsOf (packByte chunk) =
      (List.range 8).map (fun j => if chunk.get? j = some 49 then 49 else 48) := by
  have h := testBit_packed (decide (chunk.get? 0 = some 49)) (decide (chunk.get? 1 = some 49))
    (decide (chunk.get? 2 = some 49)) (decide (chunk.get? 3 = some 49))
    (decide (chunk.get? 4 = some 49)) (decide (chunk.get? 5 = some 49))
    (decide (chunk.get? 6 = some 49)) (decide (chunk.get? 7 = some 49))
  simp only [List.map_cons, List.map_nil, List.cons.injEq, and_true, decide_eq_true_eq] at h
  obtain ⟨h7, h6, h5, h4, h3, h2, h1, h0⟩ := h
  have hv : (packByte chunk).val =
      ((if chunk.get? 0 = some 49 then 128 else 0) + ((if chunk.get? 1 = some 49 then 64 else 0) +
        ((if chunk.get? 2 = some 49 then 32 else 0) + ((if chunk.get? 3 = some 49 then 16 else 0) +
        ((if chunk.get? 4 = some 49 then 8 else 0) + ((if chunk.get? 5 = some 49 then 4 else 0) +
        ((if chunk.get? 6 = some 49 then 2 else 0) +
        ((if chunk.get? 7 = some 49 then 1 else 0) + 0)))))))) % 256 := by
    simp only [packByte, toByte]
    rfl
  simp only [bitsOf, List.map_cons, List.map_nil, hv, h7, h6, h5, h4, h3, h2, h1, h0]
  simp only [List.range, List.range.loop, List.map_cons, List.map_nil]
  simp only [decide_eq_true_eq]

theorem range_map_bits (chunk : List Byte) (hbits : IsBits chunk) :
    ∀ n, chunk.length ≤ n →
      (List.range n).map (fun j => if chunk.get? j = some 49 then (49 : Byte) else 48) =
        chunk ++ List.replicate (n - chunk.length) 48 := by
  induction chunk with
  | nil =>
    intro n _
    simp only [List.get?_nil, List.length_nil, Nat.sub_zero, List.nil_append]
    rw [List.eq_replicate_iff]
    constructor
    · simp
    · intro b hb
      obtain ⟨j, _, hj⟩ := List.mem_map.1 hb
      simpa using hj.symm
  | cons x xs ih =>
    intro n hn
    obtain ⟨m, rfl⟩ : ∃ m, n = m + 1 := ⟨n - 1, by simp only [List.length_cons] at hn; omega⟩
    rw [List.range_succ_eq_map, List.map_cons, List.map_map]
    have hx : (if (x :: xs).get? 0 = some 49 then (49 : Byte) else 48) = x := by
      rcases hbits x (List.mem_cons_self _ _) with h | h <;> simp [h]
    rw [hx]
    have hrest := ih (fun y hy => hbits y (List.mem_cons_of_mem _ hy)) m
      (by simp only [List.length_cons] at hn; omega)
    simp only [List.cons_append, List.length_cons, Nat.add_sub_add_right]
    congr 1

theorem bitsOf_packByte_bits (chunk : List Byte) (hbits : IsBits chunk) (hlen : chunk.length ≤ 8) :
    bitsOf (packByte chunk) = chunk ++ List.replicate (8 - chunk.length) 48 := by
  rw [bitsOf_packByte, range_map_bits chunk hbits 8 hlen]

theorem packBits_nil : packBits [] = [] := rfl

theorem packBits_cons (enc : List Byte) (hne : enc ≠ []) :
    packBits enc = packByte (enc.take 8) :: packBits (enc.drop 8) := by
  have hpos : 0 < enc.length := List.length_pos.2 hne
  unfold packBits
  have hcount : (enc.length + 7) / 8 = ((enc.drop 8).length + 7) / 8 + 1 := by
    rw [List.length_drop]
    omega
  rw [hcount, List.range_succ_eq_map, List.map_cons, List.map_map]
  congr 1
  apply List.map_congr_left
  intro k _
  simp only [Function.comp, List.drop_drop]
  congr 3
  omega

theorem decodeLoop_packBits (rev : List (List Byte × Byte)) :
    ∀ (n : Nat) (enc : List Byte), enc.length ≤ n → IsBits enc → ∀ s : DecodeState,
      decodeLoop rev (s.bitsRead + enc.length) (packBits enc) s = enc.foldl (bitStep rev) s := by
  intro n
  induction n with
  | zero =>
    intro enc hlen _ s
    have : enc = [] := List.length_eq_zero.1 (by omega)
    subst this
    simp [packBits_nil, decodeLoop]
  | succ n ih =>
    intro enc hlen hbits s
    by_cases hne : enc = []
    · subst hne; simp [packBits_nil, decodeLoop]
    · have hpos : 0 < enc.length := List.length_pos.2 hne
      rw [packBits_cons enc hne]
      have hguard : s.bitsRead < s.bitsRead + (enc.length : Int) := by
        have : (0 : Int) < (enc.length : Int) := by exact_mod_cast hpos
        omega
      simp only [decodeLoop, hguard, if_true]
      have htakebits : IsBits (enc.take 8) := fun x hx => hbits x (List.mem_of_mem_take hx)
      have hdropbits : IsBits (enc.drop 8) := fun x hx => hbits x (List.mem_of_mem_drop hx)
      have htakelen : (enc.take 8).length = min 8 enc.length := List.length_take 8 enc
      have hstep : decodeByte rev (s.bitsRead + enc.length) s (packByte (enc.take 8)) =
          (enc.take 8).foldl (bitStep rev) s := by
        rw [decodeByte_eq, bitsOf_packByte_bits _ htakebits (by rw [htakelen]; omega),
          List.foldl_append]
        have hrun : (enc.take 8).foldl (guardedStep rev (s.bitsRead + enc.length)) s =
            (enc.take 8).foldl (bitStep rev) s := by
          apply foldl_guardedStep_run
          rw [htakelen]
          have : ((min 8 enc.length : Nat) : Int) ≤ (enc.length : Int) := by
            exact_mod_cast Nat.min_le_right 8 enc.length
          omega
        rw [hrun]
        by_cases h8 : 8 ≤ enc.length
        · have : 8 - (enc.take 8).length = 0 := by rw [htakelen]; omega
          rw [this]
          rfl
        · apply foldl_guardedStep_done
          rw [foldl_bitStep_bitsRead, htakelen]
          have : min 8 enc.length = enc.length := by omega
          rw [this]
      rw [hstep]
      have hL : s.bitsRead + (enc.length : Int) =
          ((enc.take 8).foldl (bitStep rev) s).bitsRead + ((enc.drop 8).length : Int) := by
        rw [foldl_bitStep_bitsRead, htakelen, List.length_drop]
        have h1 : ((min 8 enc.length : Nat) : Int) + ((enc.length - 8 : Nat) : Int) =
            (enc.length : Int) := by
          have : min 8 enc.length + (enc.length - 8) = enc.length := by omega
          exact_mod_cast this
        omega
      rw [hL, ih (enc.drop 8) (by rw [List.length_drop]; omega) hdropbits, ← List.foldl_append,
        List.take_append_drop]

/-! ## The inverse table and the decoder on a table without related codes -/

theorem storeAll_append_of_new (entries : List (Byte × List Byte))
    (hnd : (entries.map Prod.snd).Nodup) :
    ∀ rev : List (List Byte × Byte), (∀ c ∈ entries.map Prod.snd, c ∉ rev.map Prod.fst) →
      storeAll rev entries = rev ++ entries.map (fun p => (p.2, p.1)) := by
  induction entries with
  | nil => intro rev _; simp [storeAll]
  | cons p entries ih =>
    intro rev hdisj
    simp only [List.map_cons, List.nodup_cons] at hnd
    have hp : p.2 ∉ rev.map Prod.fst := hdisj p.2 (by simp)
    have hstep : storeAll rev (p :: entries) = storeAll (rev ++ [(p.2, p.1)]) entries := by
      simp only [storeAll, List.foldl_cons]
      rw [UMap.set_of_not_mem rev p.2 p.1 hp]
    rw [hstep, ih hnd.2]
    · simp
    · intro c hc
      simp only [List.map_append, List.map_cons, List.map_nil, List.mem_append,
        List.mem_singleton, not_or]
      refine ⟨hdisj c (List.mem_cons_of_mem _ hc), ?_⟩
      intro hcp
      rw [hcp] at hc
      exact hnd.1 hc

theorem storeAll_fresh (entries : List (Byte × List Byte))
    (hnd : (entries.map Prod.snd).Nodup) :
    storeAll [] entries = entries.map (fun p => (p.2, p.1)) := by
  rw [storeAll_append_of_new entries hnd [] (by simp)]
  simp

/-- The inverse table holds exactly the written entries, turned around. -/
theorem storeAll_find (entries : List (Byte × List Byte))
    (hnd : (entries.map Prod.snd).Nodup) (c : List Byte) (s : Byte) :
    UMap.find (storeAll [] entries) c = some s ↔ (s, c) ∈ entries := by
  rw [storeAll_fresh entries hnd]
  constructor
  · intro h
    have := UMap.find_some_mem _ _ _ h
    obtain ⟨p, hp, hpe⟩ := List.mem_map.1 this
    simp only [Prod.mk.injEq] at hpe
    obtain ⟨h1, h2⟩ := hpe
    subst h1 h2
    exact hp
  · intro h
    apply UMap.mem_find_of_nodup
    · simpa [List.map_map, Function.comp] using hnd
    · exact List.mem_map.2 ⟨(s, c), h, rfl⟩

theorem nodup_of_pairwise_unrelated (T : List (Byte × List Byte))
    (hT : T.Pairwise (fun p q => Unrelated p.2 q.2)) : (T.map Prod.snd).Nodup := by
  rw [List.Nodup, List.pairwise_map]
  refine hT.imp ?_
  intro a b h e
  apply h.1
  rw [e]

/-- Decoding the code of one symbol: the bits of the code, read after a hit, lead to the
next hit, which emits that symbol. -/
theorem decode_symbol (rev : List (List Byte × Byte)) (T : List (Byte × List Byte))
    (hT : T.Pairwise (fun p q => Unrelated p.2 q.2))
    (hrev : ∀ c s, UMap.find rev c = some s ↔ (s, c) ∈ T)
    (s : Byte) (code : List Byte) (hmem : (s, code) ∈ T) :
    ∀ (q p : List Byte), p ++ q = code → q ≠ [] → ∀ (b : Int) (out : List Byte),
      q.foldl (bitStep rev) ⟨p, b, out⟩ = ⟨[], b + q.length, out ++ [s]⟩ := by
  intro q
  induction q with
  | nil => intro p _ h; exact absurd rfl h
  | cons x q ih =>
    intro p hpq _ b out
    rw [List.foldl_cons]
    by_cases hq : q = []
    · subst hq
      have hfind : UMap.find rev (p ++ [x]) = some s := by
        rw [hpq]; exact (hrev code s).2 hmem
      simp [bitStep, hfind]
    · have hfind : UMap.find rev (p ++ [x]) = none := by
        cases hf : UMap.find rev (p ++ [x]) with
        | none => rfl
        | some s1 =>
          exfalso
          have hm1 := (hrev _ _).1 hf
          have hpre : (p ++ [x]) <+: code := ⟨q, by rw [← hpq]; simp⟩
          by_cases heq : ((s1, p ++ [x]) : Byte × List Byte) = (s, code)
          · have h2 : p ++ [x] = code := (Prod.mk.inj heq).2
            rw [← hpq] at h2
            have hlen := congrArg List.length h2
            simp at hlen
            exact hq hlen
          · have hsym : Symmetric (fun p q : Byte × List Byte => Unrelated p.2 q.2) :=
              fun _ _ h => h.symm
            exact (hT.forall hsym hm1 hmem heq).1 hpre
      have hstep : bitStep rev ⟨p, b, out⟩ x = ⟨p ++ [x], b + 1, out⟩ := by
        simp [bitStep, hfind]
      rw [hstep, ih (p ++ [x]) (by rw [← hpq]; simp) hq]
      simp only [List.length_cons]
      congr 1
      push_cast
      ring

/-- Decoding a whole encoded text: every byte whose code is a non-empty table entry comes
back, in order. -/
theorem decode_text (rev : List (List Byte × Byte)) (T : List (Byte × List Byte))
    (hT : T.Pairwise (fun p q => Unrelated p.2 q.2))
    (hrev : ∀ c s, UMap.find rev c = some s ↔ (s, c) ∈ T) (code : Byte → List Byte)
    (text : List Byte) (hcodes : ∀ c ∈ text, (c, code c) ∈ T ∧ code c ≠ []) :
    ∀ (b : Int) (out : List Byte),
      (text.flatMap code).foldl (bitStep rev) ⟨[], b, out⟩ =
        ⟨[], b + (text.flatMap code).length, out ++ text⟩ := by
  induction text with
  | nil => intro b out; simp
  | cons c text ih =>
    intro b out
    obtain ⟨hc, hne⟩ := hcodes c (List.mem_cons_self _ _)
    rw [List.flatMap_cons, List.foldl_append,
      decode_symbol rev T hT hrev c (code c) hc (code c) [] (by simp) hne,
      ih (fun d hd => hcodes d (List.mem_cons_of_mem _ hd))]
    simp only [List.length_append, List.append_assoc, List.singleton_append]
    congr 1
    push_cast
    ring

/-! ## Lengths and characters of the codes -/

theorem leaves_length_pos (t : Node) : 0 < t.leaves.length := by
  induction t with
  | leaf c f => simp [Node.leaves]
  | inner c f l r ihl _ => simp only [Node.leaves, List.length_append]; omega

theorem leafCodes_length (t : Node) : ∀ (str : List Byte) (p : Byte × List Byte),
    p ∈ t.leafCodes str → p.2.length + 1 ≤ str.length + t.leaves.length := by
  induction t with
  | leaf c f =>
    intro str p hp
    simp only [Node.leafCodes, List.mem_singleton] at hp
    subst hp
    simp [Node.leaves]
  | inner c f l r ihl ihr =>
    intro str p hp
    simp only [Node.leafCodes, List.mem_append] at hp
    have hl := leaves_length_pos l
    have hr := leaves_length_pos r
    simp only [Node.leaves, List.length_append]
    rcases hp with hp | hp
    · have := ihl _ p hp
      simp only [List.length_append, List.length_singleton] at this
      omega
    · have := ihr _ p hp
      simp only [List.length_append, List.length_singleton] at this
      omega

theorem leafCodes_bits (t : Node) : ∀ (str : List Byte) (p : Byte × List Byte),
    IsBits str → p ∈ t.leafCodes str → IsBits p.2 := by
  induction t with
  | leaf c f =>
    intro str p hstr hp
    simp only [Node.leafCodes, List.mem_singleton] at hp
    subst hp
    exact hstr
  | inner c f l r ihl ihr =>
    intro str p hstr hp
    simp only [Node.leafCodes, List.mem_append] at hp
    rcases hp with hp | hp
    · refine ihl _ p ?_ hp
      intro x hx
      rcases List.mem_append.1 hx with h | h
      · exact hstr x h
      · simp at h; exact Or.inl h
    · refine ihr _ p ?_ hp
      intro x hx
      rcases List.mem_append.1 hx with h | h
      · exact hstr x h
      · simp at h; exact Or.inr h

theorem nodup_bytes_length (l : List Byte) (hnd : l.Nodup) : l.length ≤ 256 := by
  have := hnd.length_le_card
  rwa [Fintype.card_fin] at this

theorem nodup_nonzero_bytes_length (l : List Byte) (hnd : l.Nodup) (h0 : (0 : Byte) ∉ l) :
    l.length < 256 := by
  have h : ((0 : Byte) :: l).Nodup := List.nodup_cons.2 ⟨h0, hnd⟩
  have := nodup_bytes_length _ h
  simp only [List.length_cons] at this
  omega

theorem tableOf_keys_nodup (t : Node) (hnd : (t.leaves.map Prod.fst).Nodup) :
    ((tableOf t).map Prod.fst).Nodup := by
  have h1 : ((t.leafCodes []).map Prod.fst).Nodup := by rw [leafCodes_keys]; exact hnd
  exact List.Nodup.sublist ((List.filter_sublist _).map Prod.fst) h1

theorem tableOf_keys (t : Node) :
    (tableOf t).map Prod.fst = (t.leaves.map Prod.fst).filter (fun c => c ≠ 0) := by
  unfold tableOf
  rw [← leafCodes_keys t [], List.filter_map]
  rfl

theorem tableOf_length_lt (t : Node) (hnd : (t.leaves.map Prod.fst).Nodup) :
    (tableOf t).length < 256 := by
  have h := nodup_nonzero_bytes_length _ (tableOf_keys_nodup t hnd) (by
    rw [tableOf_keys]
    simp)
  simpa using h

theorem tableOf_code_length (t : Node) (hnd : (t.leaves.map Prod.fst).Nodup) :
    ∀ p ∈ tableOf t, p.2.length < 256 := by
  intro p hp
  have h1 := leafCodes_length t [] p (List.mem_of_mem_filter hp)
  have h2 := nodup_bytes_length _ hnd
  simp only [List.length_map, List.length_nil] at h1 h2
  omega

theorem tableOf_bits (t : Node) : ∀ p ∈ tableOf t, IsBits p.2 := by
  intro p hp
  exact leafCodes_bits t [] p (by intro x hx; simp at hx) (List.mem_of_mem_filter hp)

theorem tableOf_find (t : Node) (hnd : (t.leaves.map Prod.fst).Nodup) (s : Byte)
    (c : List Byte) : UMap.find (tableOf t) s = some c ↔ (s, c) ∈ tableOf t :=
  ⟨UMap.find_some_mem _ _ _, UMap.mem_find_of_nodup _ _ _ (tableOf_keys_nodup t hnd)⟩

/-! ## `compress` on a fresh coder and `decompress` of a written container -/

theorem compress_of_tree (std : StdLib) (codes : Codes) (text : List Byte) (root : Node)
    (h : buildHuffmanTree std text = some root) :
    compress std codes text =
      some ((encodeText (generateCodes root [] codes) text).1,
        writeTable std (generateCodes root [] codes) ++
          writeInt32 (encodeText (generateCodes root [] codes) text).2.length ++
          packBits (encodeText (generateCodes root [] codes) text).2) := by
  simp [compress, h]

theorem decompress_written (std : StdLib) (hstd : std.Lawful) (codes : Codes)
    (hnd : (codes.map Prod.fst).Nodup) (hcount : codes.length < 256)
    (hlen : ∀ p ∈ codes, p.2.length < 256) (n : Nat) (payload : List Byte) :
    decompress (writeTable std codes ++ writeInt32 n ++ payload) =
      some (decodeLoop (storeAll [] (UMap.iterate std.order codes))
        (wrap32 ((n % 4294967296 : Nat) : Int)) payload ⟨[], 0, []⟩).output := by
  have hperm := UMap.iterate_perm std.order hstd.order_perm codes hnd
  have hlen2 : ∀ p ∈ UMap.iterate std.order codes, p.2.length < 256 :=
    fun p hp => hlen p (hperm.subset hp)
  have hcnt : (toByte codes.length).val = (UMap.iterate std.order codes).length := by
    rw [toByte_val _ hcount, hperm.length_eq]
  unfold decompress
  simp only [writeTable, List.cons_append, streamGet, hcnt, List.append_assoc]
  rw [readTable_written _ hlen2, readInt32_written]

theorem generateCodes_fresh_eq (t : Node) (ht : t.Marked) (hnd : (t.leaves.map Prod.fst).Nodup) :
    generateCodes t [] fresh = tableOf t := generateCodes_fresh t ht hnd

theorem leafCodes_ne_nil (t : Node) (h : 2 ≤ t.leaves.length) :
    ∀ p ∈ t.leafCodes [], p.2 ≠ [] := by
  intro p hp
  cases t with
  | leaf c f => simp [Node.leaves] at h
  | inner c f l r =>
    simp only [Node.leafCodes, List.mem_append] at hp
    rcases hp with hp | hp
    · obtain ⟨u, hu⟩ := leafCodes_extends l _ p hp
      intro hnil
      rw [hnil] at hu
      simp at hu
    · obtain ⟨u, hu⟩ := leafCodes_extends r _ p hp
      intro hnil
      rw [hnil] at hu
      simp at hu

theorem codeOf_mem (codes : Codes) (hnd : (codes.map Prod.fst).Nodup) (c : Byte)
    (hc : c ∈ codes.map Prod.fst) : (c, codeOf codes c) ∈ codes := by
  obtain ⟨p, hp, rfl⟩ := List.mem_map.1 hc
  have := UMap.mem_find_of_nodup codes p.1 p.2 hnd hp
  simp only [codeOf, this, Option.getD_some]
  exact hp

theorem codeOf_bits (codes : Codes) (hbits : ∀ p ∈ codes, IsBits p.2) (text : List Byte) :
    IsBits (text.flatMap (codeOf codes)) := by
  intro x hx
  obtain ⟨c, _, hxc⟩ := List.mem_flatMap.1 hx
  unfold codeOf at hxc
  cases hf : UMap.find codes c with
  | none => simp [hf] at hxc
  | some v =>
    simp only [hf, Option.getD_some] at hxc
    exact hbits (c, v) (UMap.find_some_mem _ _ _ hf) x hxc

/-- The round trip on a fresh coder, for texts with two or more distinct bytes, none of
them zero, and fewer than 2^31 encoded bits. -/
theorem round_trip_core (std : StdLib) (hstd : std.Lawful) (text : List Byte)
    (h2 : 2 ≤ text.dedup.length) (h0 : (0 : Byte) ∉ text)
    (hbits : encodedBitCount std text < 2147483648) :
    ∃ codes container, compress std fresh text = some (codes, container) ∧
      decompress container = some text := by
  have hne : text ≠ [] := by
    intro h
    rw [h] at h2
    simp at h2
  obtain ⟨root, hroot, hmark, hperm⟩ := buildHuffmanTree_shape std hstd text hne
  have hnd := leaves_keys_nodup text root hperm
  have hleaves : 2 ≤ root.leaves.length := by
    have h1 := (hperm.map Prod.fst).length_eq
    have h3 := (countFreq_keys_perm text).length_eq
    simp only [List.length_map] at h1 h3
    omega
  have hbits2 : (encodeText (tableOf root) text).2.length < 2147483648 := by
    simpa [encodedBitCount, hroot, generateCodes_fresh_eq root hmark hnd] using hbits
  refine ⟨_, _, compress_of_tree std fresh text root hroot, ?_⟩
  rw [generateCodes_fresh_eq root hmark hnd,
    decompress_written std hstd _ (tableOf_keys_nodup root hnd) (tableOf_length_lt root hnd)
      (tableOf_code_length root hnd)]
  rw [Nat.mod_eq_of_lt (by omega), wrap32_id _ (by omega) (by omega)]
  have hT := table_pairwise root
  have hiter := UMap.iterate_perm std.order hstd.order_perm (tableOf root)
    (tableOf_keys_nodup root hnd)
  have hrev : ∀ c s, UMap.find (storeAll [] (UMap.iterate std.order (tableOf root))) c = some s ↔
      (s, c) ∈ tableOf root := by
    intro c s
    rw [storeAll_find _ (((hiter.map Prod.snd).nodup_iff).2 (nodup_of_pairwise_unrelated _ hT))]
    exact hiter.mem_iff
  have hcodes : ∀ c ∈ text, (c, codeOf (tableOf root) c) ∈ tableOf root ∧
      codeOf (tableOf root) c ≠ [] := by
    intro c hc
    have hkey : c ∈ (tableOf root).map Prod.fst := by
      rw [tableOf_keys, List.mem_filter]
      refine ⟨(hperm.map Prod.fst).symm.subset ((countFreq_mem_keys text c).2 hc), ?_⟩
      have : c ≠ 0 := fun e => h0 (e ▸ hc)
      simpa using this
    have hmem := codeOf_mem _ (tableOf_keys_nodup root hnd) c hkey
    exact ⟨hmem, leafCodes_ne_nil root hleaves _ (List.mem_of_mem_filter hmem)⟩
  have hdec := decodeLoop_packBits (storeAll [] (UMap.iterate std.order (tableOf root)))
    _ (encodeText (tableOf root) text).2 (le_refl _)
    (by rw [encodeText_bits]; exact codeOf_bits _ (tableOf_bits root) text) ⟨[], 0, []⟩
  simp only [zero_add] at hdec
  rw [hdec, encodeText_bits, decode_text _ (tableOf root) hT hrev _ text hcodes]
  simp

/-! ## C1: round trip -/

/-- C1. Round trip, what the code does: the three bytes `a`, 0, `b` are compressed on a
fresh coder to a container whose table has no entry for the zero byte (the leaf test of
`generateCodes`, line 29, is `ch != '\0'`), and `decompress` of that container returns the
two bytes `a`, `b`, not the input. -/
theorem round_trip_fails_with_zero_byte :
    compress refStd fresh [97, 0, 98] =
        some ([(98, [48]), (97, [49, 48]), (0, [])],
          [2, 98, 1, 48, 97, 2, 49, 48, 3, 0, 0, 0, 128]) ∧
      decompress [2, 98, 1, 48, 97, 2, 49, 48, 3, 0, 0, 0, 128] = some [97, 98] := by
  constructor <;> decide

/-! ## C4, C5: one distinct byte, and the empty input -/

theorem node_of_single_leaf (t : Node) (p : Byte × Int) (h : t.leaves.Perm [p]) :
    t = .leaf p.1 p.2 := by
  cases t with
  | leaf c f =>
    have := List.perm_singleton.1 h
    simp only [Node.leaves, List.cons.injEq, and_true] at this
    rw [← this]
  | inner c f l r =>
    have h1 := h.length_eq
    have hl := leaves_length_pos l
    have hr := leaves_length_pos r
    simp only [Node.leaves, List.length_append, List.length_singleton] at h1
    omega

theorem encodeText_state (codes : Codes) (text : List Byte)
    (h : ∀ c ∈ text, UMap.find codes c ≠ none) : (encodeText codes text).1 = codes := by
  unfold encodeText
  have key : ∀ (acc : List Byte),
      (text.foldl (fun s c => ((UMap.at s.1 c []).1, s.2 ++ (UMap.at s.1 c []).2))
        (codes, acc)).1 = codes := by
    induction text with
    | nil => intro acc; rfl
    | cons c text ih =>
      intro acc
      rw [List.foldl_cons]
      cases hf : UMap.find codes c with
      | none => exact absurd hf (h c (List.mem_cons_self _ _))
      | some v =>
        have hat : UMap.at codes c [] = (codes, v) := by simp [UMap.at, hf]
        rw [hat]
        exact ih (fun d hd => h d (List.mem_cons_of_mem _ hd)) _
  exact key []

theorem iterate_singleton {β : Type} (std : StdLib) (hstd : std.Lawful) (p : Byte × β) :
    UMap.iterate std.order [p] = [p] :=
  List.perm_singleton.1 (UMap.iterate_perm std.order hstd.order_perm [p] (by simp))

/-- C4. Single-symbol input, what the code does: for `n >= 1` repetitions of a non-zero
byte `a`, `compress` on a fresh coder writes a table of one entry whose code is the empty
string (length byte 0, not the code `0` of length 1), a bit length of 0 and no payload; and
`decompress` of that container returns the empty buffer, not the `n` bytes. -/
theorem single_symbol_gets_empty_code (std : StdLib) (hstd : std.Lawful) (a : Byte)
    (ha : a ≠ 0) (n : Nat) (hn : 1 ≤ n) :
    compress std fresh (List.replicate n a) = some ([(a, [])], [1, a, 0, 0, 0, 0, 0]) ∧
      decompress [1, a, 0, 0, 0, 0, 0] = some [] := by
  obtain ⟨m, rfl⟩ : ∃ m, n = m + 1 := ⟨n - 1, by omega⟩
  constructor
  · have hne : List.replicate (m + 1) a ≠ [] := by simp
    obtain ⟨root, hroot, _, hperm⟩ := buildHuffmanTree_shape std hstd _ hne
    have hcf : countFreq (List.replicate (m + 1) a) = [(a, wrap32 (m + 1))] := by
      have := countFreq_replicate_append a m []
      simpa using this
    rw [hcf] at hperm
    have hleaf := node_of_single_leaf root _ hperm
    simp only at hleaf
    subst hleaf
    rw [compress_of_tree std fresh _ _ hroot]
    have hgen : generateCodes (.leaf a (wrap32 (m + 1))) [] fresh = [(a, [])] := by
      simp [generateCodes, ha, fresh, UMap.set]
    rw [hgen]
    have hstate : (encodeText [(a, [])] (List.replicate (m + 1) a)).1 = [(a, [])] := by
      apply encodeText_state
      intro c hc
      rw [List.eq_of_mem_replicate hc]
      simp [UMap.find]
    have hbits : (encodeText [(a, [])] (List.replicate (m + 1) a)).2 = [] := by
      rw [encodeText_bits, List.flatMap_eq_nil_iff]
      intro c hc
      rw [List.eq_of_mem_replicate hc]
      simp [codeOf, UMap.find]
    rw [hstate, hbits]
    simp [writeTable, iterate_singleton std hstd, toByte, writeInt32, packBits]
  · simp [decompress, streamGet, readTable, streamRead, UMap.set, readInt32, wrap32, decodeLoop]

/-- C4 at the input of 1000 bytes `a`. -/
theorem single_symbol_gets_empty_code_witness :
    refStd.Lawful ∧ (97 : Byte) ≠ 0 ∧ 1 ≤ 1000 ∧
      compress refStd fresh (List.replicate 1000 97) =
        some ([(97, [])], [1, 97, 0, 0, 0, 0, 0]) ∧
      decompress [1, 97, 0, 0, 0, 0, 0] = some [] :=
  ⟨refStd_lawful, by decide, by decide,
    single_symbol_gets_empty_code refStd refStd_lawful 97 (by decide) 1000 (by decide)⟩

/-- C5. Empty input, what the code does: `buildHuffmanTree` takes `top()` of the empty
queue, which is undefined behaviour; `compress` produces no container, whatever the state
of the coder. -/
theorem compress_empty_undefined (std : StdLib) (hstd : std.Lawful) (codes : Codes) :
    buildHuffmanTree std [] = none ∧ compress std codes [] = none := by
  have h := buildHuffmanTree_nil std hstd
  exact ⟨h, by simp [compress, h]⟩

/-- C5 on the reference library and a fresh coder. -/
theorem compress_empty_undefined_witness :
    refStd.Lawful ∧ buildHuffmanTree refStd [] = none ∧ compress refStd fresh [] = none :=
  ⟨refStd_lawful, compress_empty_undefined refStd refStd_lawful fresh⟩

/-! ## The member table across calls -/

theorem tableOf_keys_perm (text : List Byte) (root : Node)
    (hperm : root.leaves.Perm (countFreq text)) :
    ((tableOf root).map Prod.fst).Perm (text.dedup.filter (fun c => c ≠ 0)) := by
  rw [tableOf_keys]
  exact ((hperm.map Prod.fst).trans (countFreq_keys_perm text)).filter _

theorem UMap.mem_set {κ β : Type} [DecidableEq κ] (m : List (κ × β)) (k : κ) (v : β)
    (p : κ × β) (hp : p ∈ UMap.set m k v) : p ∈ m ∨ p = (k, v) := by
  induction m with
  | nil => simp [UMap.set] at hp; exact Or.inr hp
  | cons q m ih =>
    obtain ⟨k1, v1⟩ := q
    by_cases h : k1 = k
    · simp only [UMap.set, h, if_true, List.mem_cons] at hp
      rcases hp with hp | hp
      · exact Or.inr hp
      · exact Or.inl (List.mem_cons_of_mem _ hp)
    · simp only [UMap.set, h, if_false, List.mem_cons] at hp
      rcases hp with hp | hp
      · exact Or.inl (hp ▸ List.mem_cons_self _ _)
      · rcases ih hp with h1 | h1
        · exact Or.inl (List.mem_cons_of_mem _ h1)
        · exact Or.inr h1

theorem setAll_keys_nodup (l : List (Byte × List Byte)) : ∀ codes : Codes,
    (codes.map Prod.fst).Nodup → ((setAll codes l).map Prod.fst).Nodup := by
  induction l with
  | nil => intro codes h; exact h
  | cons p l ih =>
    intro codes h
    exact ih _ (UMap.nodup_set codes p.1 p.2 h)

theorem setAll_mem (l : List (Byte × List Byte)) : ∀ (codes : Codes) (p : Byte × List Byte),
    p ∈ setAll codes l → p ∈ codes ∨ p ∈ l := by
  induction l with
  | nil => intro codes p hp; exact Or.inl hp
  | cons q l ih =>
    intro codes p hp
    rcases ih (UMap.set codes q.1 q.2) p hp with h | h
    · rcases UMap.mem_set codes q.1 q.2 p h with h1 | h1
      · exact Or.inl h1
      · exact Or.inr (h1 ▸ List.mem_cons_self _ _)
    · exact Or.inr (List.mem_cons_of_mem _ h)

theorem setAll_keys_of_mem (l : List (Byte × List Byte)) : ∀ codes : Codes,
    (∀ p ∈ l, p.1 ∈ codes.map Prod.fst) →
      (setAll codes l).map Prod.fst = codes.map Prod.fst := by
  induction l with
  | nil => intro codes _; rfl
  | cons p l ih =>
    intro codes h
    have hp := h p (List.mem_cons_self _ _)
    have hkeys : (UMap.set codes p.1 p.2).map Prod.fst = codes.map Prod.fst := by
      rw [UMap.keys_set, if_pos hp]
    have := ih (UMap.set codes p.1 p.2) (by
      intro q hq
      rw [hkeys]
      exact h q (List.mem_cons_of_mem _ hq))
    simp only [setAll, List.foldl_cons] at this ⊢
    rw [this, hkeys]

theorem writeTable_head (std : StdLib) (codes : Codes) (rest : List Byte) :
    (writeTable std codes ++ rest).head? = some (toByte codes.length) := by
  simp [writeTable]

/-- C7. Determinism, what the code does: on the input `a`, 0 a fresh coder writes a table
of one entry; the encoding loop then inserts the zero byte into the member table through
`operator[]`, and the next `compress` of the same input on the same object writes a table
of two entries. The two containers differ in their first byte. -/
theorem second_compress_differs (std : StdLib) (hstd : std.Lawful) :
    ∃ codes1 container1 codes2 container2,
      compress std fresh [97, 0] = some (codes1, container1) ∧
      compress std codes1 [97, 0] = some (codes2, container2) ∧
      container1.head? = some 1 ∧ container2.head? = some 2 := by
  obtain ⟨root, hroot, hmark, hperm⟩ := buildHuffmanTree_shape std hstd [97, 0] (by simp)
  have hnd := leaves_keys_nodup _ root hperm
  have hkeys := tableOf_keys_perm _ root hperm
  have hkeys2 : (tableOf root).map Prod.fst = [97] := by
    have h : (([97, 0] : List Byte).dedup.filter (fun c => c ≠ 0)) = [97] := by decide
    rw [h] at hkeys
    exact List.perm_singleton.1 hkeys
  have hlen : (tableOf root).length = 1 := by
    have := congrArg List.length hkeys2
    simpa using this
  have h97 : ∃ v, UMap.find (tableOf root) 97 = some v := by
    cases hf : UMap.find (tableOf root) 97 with
    | some v => exact ⟨v, rfl⟩
    | none =>
      have := (UMap.find_eq_none_iff _ _).1 hf
      rw [hkeys2] at this
      simp at this
  have h0 : UMap.find (tableOf root) 0 = none := by
    rw [UMap.find_eq_none_iff, hkeys2]
    decide
  obtain ⟨v, hv⟩ := h97
  have hstate : (encodeText (tableOf root) [97, 0]).1 = tableOf root ++ [(0, [])] := by
    simp [encodeText, UMap.at, hv, h0]
  have hgen2 : (generateCodes root [] (tableOf root ++ [(0, [])])).length = 2 := by
    rw [generateCodes_eq root hmark]
    have h1 := setAll_keys_of_mem ((root.leafCodes []).filter (fun p => p.1 ≠ 0))
      (tableOf root ++ [(0, [])]) (by
        intro p hp
        rw [List.map_append]
        exact List.mem_append_left _ (List.mem_map_of_mem Prod.fst hp))
    have h2 := congrArg List.length h1
    simp only [List.length_map, List.length_append, List.length_singleton, hlen] at h2
    exact h2
  have hc1 := compress_of_tree std fresh _ root hroot
  have hc2 := compress_of_tree std (tableOf root ++ [(0, [])]) _ root hroot
  rw [generateCodes_fresh_eq root hmark hnd, hstate] at hc1
  refine ⟨_, _, _, _, hc1, hc2, ?_, ?_⟩
  · rw [List.append_assoc, writeTable_head, hlen]
    rfl
  · rw [List.append_assoc, writeTable_head, hgen2]
    rfl

/-- C7 on the reference library. -/
theorem second_compress_differs_witness :
    refStd.Lawful ∧ ∃ codes1 container1 codes2 container2,
      compress refStd fresh [97, 0] = some (codes1, container1) ∧
      compress refStd codes1 [97, 0] = some (codes2, container2) ∧
      container1.head? = some 1 ∧ container2.head? = some 2 :=
  ⟨refStd_lawful, second_compress_differs refStd refStd_lawful⟩

/-- C8. Call independence, what the code does: a coder that has compressed `ab` keeps the
two entries in its member table, and its container for `cd` starts with a table of four
entries, where a fresh coder writes a table of two. -/
theorem table_carries_over (std : StdLib) (hstd : std.Lawful) :
    ∃ codesA containerA codesB containerB codesF containerF,
      compress std fresh [97, 98] = some (codesA, containerA) ∧
      compress std codesA [99, 100] = some (codesB, containerB) ∧
      compress std fresh [99, 100] = some (codesF, containerF) ∧
      containerB.head? = some 4 ∧ containerF.head? = some 2 := by
  obtain ⟨rootA, hrootA, hmarkA, hpermA⟩ := buildHuffmanTree_shape std hstd [97, 98] (by simp)
  obtain ⟨rootB, hrootB, hmarkB, hpermB⟩ := buildHuffmanTree_shape std hstd [99, 100] (by simp)
  have hndA := leaves_keys_nodup _ rootA hpermA
  have hndB := leaves_keys_nodup _ rootB hpermB
  have hkA := tableOf_keys_perm _ rootA hpermA
  have hkB := tableOf_keys_perm _ rootB hpermB
  have hdA : (([97, 98] : List Byte).dedup.filter (fun c => c ≠ 0)) = [97, 98] := by decide
  have hdB : (([99, 100] : List Byte).dedup.filter (fun c => c ≠ 0)) = [99, 100] := by decide
  rw [hdA] at hkA
  rw [hdB] at hkB
  have hlenA : (tableOf rootA).length = 2 := by simpa using hkA.length_eq
  have hlenB : (tableOf rootB).length = 2 := by simpa using hkB.length_eq
  have hstate : (encodeText (tableOf rootA) [97, 98]).1 = tableOf rootA := by
    apply encodeText_state
    intro c hc
    rw [Ne, UMap.find_eq_none_iff, not_not]
    exact hkA.symm.subset hc
  have hgen : generateCodes rootB [] (tableOf rootA) = tableOf rootA ++ tableOf rootB := by
    rw [generateCodes_eq rootB hmarkB]
    apply setAll_fresh_nodup _ (tableOf_keys_nodup rootB hndB)
    intro k hk hk2
    have h1 := hkB.subset hk
    have h2 := hkA.subset hk2
    simp only [List.mem_cons, List.mem_singleton, List.not_mem_nil, or_false] at h1 h2
    rcases h1 with rfl | rfl <;> rcases h2 with h | h <;> exact absurd h (by decide)
  have hcA := compress_of_tree std fresh _ rootA hrootA
  have hcB := compress_of_tree std (tableOf rootA) _ rootB hrootB
  have hcF := compress_of_tree std fresh _ rootB hrootB
  rw [generateCodes_fresh_eq rootA hmarkA hndA, hstate] at hcA
  rw [generateCodes_fresh_eq rootB hmarkB hndB] at hcF
  rw [hgen] at hcB
  refine ⟨_, _, _, _, _, _, hcA, hcB, hcF, ?_, ?_⟩
  · rw [List.append_assoc, writeTable_head, List.length_append, hlenA, hlenB]
    rfl
  · rw [List.append_assoc, writeTable_head, hlenB]
    rfl

/-- C8 on the reference library. -/
theorem table_carries_over_witness :
    refStd.Lawful ∧ ∃ codesA containerA codesB containerB codesF containerF,
      compress refStd fresh [97, 98] = some (codesA, containerA) ∧
      compress refStd codesA [99, 100] = some (codesB, containerB) ∧
      compress refStd fresh [99, 100] = some (codesF, containerF) ∧
      containerB.head? = some 4 ∧ containerF.head? = some 2 :=
  ⟨refStd_lawful, table_carries_over refStd refStd_lawful⟩

/-! ## C9, C10: the written table -/

/-- C9. Table contents, what the code does: the input 0, `a` has two distinct byte values,
and the container that `compress` writes on a fresh coder starts with the count byte 1,
followed by the single entry for `a`; the zero byte has no entry (the leaf test of
`generateCodes`, line 29, is `ch != '\0'`). -/
theorem table_omits_zero_byte :
    ([0, 97] : List Byte).dedup.length = 2 ∧
      compress refStd fresh [0, 97] =
        some ([(97, [49]), (0, [])], [1, 97, 1, 49, 1, 0, 0, 0, 128]) := by
  constructor <;> decide

/-- C10. Forward and inverse maps agree: for every non-empty input compressed on a fresh
coder, the inverse table that `decompress` rebuilds from the written header maps a code `c`
to a symbol `s` exactly when the forward table that `compress` wrote (the member table
after `generateCodes`) maps `s` to `c`, and distinct table symbols have distinct codes.
The encoding loop afterwards leaves the entries of all non-zero bytes as they are. -/
theorem forward_inverse_agree (std : StdLib) (hstd : std.Lawful) (text : List Byte)
    (hne : text ≠ []) :
    ∃ root codes container, buildHuffmanTree std text = some root ∧
      compress std fresh text = some (codes, container) ∧
      (∀ c s, UMap.find (reverseTable container) c = some s ↔
        UMap.find (generateCodes root [] fresh) s = some c) ∧
      (∀ s1 s2 c1 c2, s1 ≠ s2 → UMap.find (generateCodes root [] fresh) s1 = some c1 →
        UMap.find (generateCodes root [] fresh) s2 = some c2 → c1 ≠ c2) ∧
      (∀ s, s ≠ 0 → UMap.find codes s = UMap.find (generateCodes root [] fresh) s) := by
  obtain ⟨root, hroot, hmark, hperm⟩ := buildHuffmanTree_shape std hstd text hne
  have hnd := leaves_keys_nodup text root hperm
  have hiter := UMap.iterate_perm std.order hstd.order_perm (tableOf root)
    (tableOf_keys_nodup root hnd)
  have hT := table_pairwise root
  refine ⟨root, _, _, hroot, compress_of_tree std fresh text root hroot, ?_, ?_, ?_⟩
  · intro c s
    rw [generateCodes_fresh_eq root hmark hnd, tableOf_find root hnd]
    have hrt : reverseTable (writeTable std (tableOf root) ++
        writeInt32 (encodeText (tableOf root) text).2.length ++
        packBits (encodeText (tableOf root) text).2) =
        storeAll [] (UMap.iterate std.order (tableOf root)) := by
      have hcnt : (toByte (tableOf root).length).val =
          (UMap.iterate std.order (tableOf root)).length := by
        rw [toByte_val _ (tableOf_length_lt root hnd), hiter.length_eq]
      simp only [reverseTable, writeTable, List.cons_append, streamGet, hcnt,
        List.append_assoc]
      rw [readTable_written _ (fun p hp => tableOf_code_length root hnd p (hiter.subset hp))]
    rw [hrt, storeAll_find _ (((hiter.map Prod.snd).nodup_iff).2
      (nodup_of_pairwise_unrelated _ hT))]
    exact hiter.mem_iff
  · intro s1 s2 c1 c2 hs h1 h2 heq
    have := table_unrelated root hmark hnd s1 s2 c1 c2 hs h1 h2
    exact this.1 (heq ▸ List.prefix_refl _)
  · intro s hs
    rw [encodeText_find]
    by_cases hmem : s ∈ text
    · have hkey : s ∈ (tableOf root).map Prod.fst := by
        rw [tableOf_keys, List.mem_filter]
        exact ⟨(hperm.map Prod.fst).symm.subset ((countFreq_mem_keys text s).2 hmem),
          by simpa using hs⟩
      have hfind : UMap.find (generateCodes root [] fresh) s ≠ none := by
        rw [generateCodes_fresh_eq root hmark hnd, Ne, UMap.find_eq_none_iff, not_not]
        exact hkey
      simp [hfind]
    · simp [hmem]

/-- C10 at the input `abracadabra` on the reference library. -/
theorem forward_inverse_agree_witness :
    refStd.Lawful ∧ ([97, 98, 114, 97, 99, 97, 100, 97, 98, 114, 97] : List Byte) ≠ [] ∧
    ∃ root codes container,
      buildHuffmanTree refStd [97, 98, 114, 97, 99, 97, 100, 97, 98, 114, 97] = some root ∧
      compress refStd fresh [97, 98, 114, 97, 99, 97, 100, 97, 98, 114, 97] =
        some (codes, container) ∧
      (∀ c s, UMap.find (reverseTable container) c = some s ↔
        UMap.find (generateCodes root [] fresh) s = some c) ∧
      (∀ s1 s2 c1 c2, s1 ≠ s2 → UMap.find (generateCodes root [] fresh) s1 = some c1 →
        UMap.find (generateCodes root [] fresh) s2 = some c2 → c1 ≠ c2) ∧
      (∀ s, s ≠ 0 → UMap.find codes s = UMap.find (generateCodes root [] fresh) s) :=
  ⟨refStd_lawful, by decide,
    forward_inverse_agree refStd refStd_lawful [97, 98, 114, 97, 99, 97, 100, 97, 98, 114, 97]
      (by decide)⟩

/-! ## C6: a container whose last payload byte is missing -/

theorem generateCodes_ok (root : Node) (hmark : root.Marked)
    (hnd : (root.leaves.map Prod.fst).Nodup) (codes : Codes) (hok : TableOK codes) :
    TableOK (generateCodes root [] codes) := by
  rw [generateCodes_eq root hmark]
  refine ⟨setAll_keys_nodup _ codes hok.1, ?_⟩
  intro p hp
  rcases setAll_mem _ codes p hp with h | h
  · exact hok.2 p h
  · exact tableOf_code_length root hnd p h

theorem encodeText_ok (text : List Byte) : ∀ (codes : Codes) (acc : List Byte),
    TableOK codes →
    TableOK (text.foldl (fun s c => ((UMap.at s.1 c []).1, s.2 ++ (UMap.at s.1 c []).2))
      (codes, acc)).1 := by
  induction text with
  | nil => intro codes acc h; exact h
  | cons c text ih =>
    intro codes acc hok
    rw [List.foldl_cons]
    apply ih
    cases hf : UMap.find codes c with
    | some v =>
      have hat : UMap.at codes c [] = (codes, v) := by simp [UMap.at, hf]
      rw [hat]; exact hok
    | none =>
      have hat : UMap.at codes c [] = (codes ++ [(c, [])], []) := by simp [UMap.at, hf]
      rw [hat]
      have hset : codes ++ [(c, [])] = UMap.set codes c [] :=
        (UMap.set_of_not_mem codes c [] ((UMap.find_eq_none_iff codes c).1 hf)).symm
      show TableOK (codes ++ [(c, [])])
      rw [hset]
      refine ⟨UMap.nodup_set codes c [] hok.1, ?_⟩
      intro p hp
      rcases UMap.mem_set codes c [] p hp with h | h
      · exact hok.2 p h
      · rw [h]; simp

theorem compress_tree (std : StdLib) (hstd : std.Lawful) (codes codes1 : Codes)
    (text container : List Byte) (hc : compress std codes text = some (codes1, container)) :
    ∃ root, buildHuffmanTree std text = some root ∧ root.Marked ∧
      (root.leaves.map Prod.fst).Nodup := by
  have hne : text ≠ [] := by
    intro h
    subst h
    simp [compress, buildHuffmanTree_nil std hstd] at hc
  obtain ⟨root, hroot, hmark, hperm⟩ := buildHuffmanTree_shape std hstd text hne
  exact ⟨root, hroot, hmark, leaves_keys_nodup text root hperm⟩

theorem reachable_ok (std : StdLib) (hstd : std.Lawful) (codes : Codes)
    (h : Reachable std codes) : TableOK codes := by
  induction h with
  | fresh => exact ⟨by simp [fresh], by simp [fresh]⟩
  | step codes codes1 text container _ hc ih =>
    obtain ⟨root, hroot, hmark, hnd⟩ := compress_tree std hstd codes codes1 text container hc
    rw [compress_of_tree std codes text root hroot] at hc
    have h1 : codes1 = (encodeText (generateCodes root [] codes) text).1 :=
      ((Prod.mk.inj (Option.some.inj hc)).1).symm
    rw [h1]
    exact encodeText_ok text _ [] (generateCodes_ok root hmark hnd codes ih)

theorem decodeLoop_stop (rev : List (List Byte × Byte)) (L : Int) (bytes : List Byte)
    (s : DecodeState) (h : ¬ s.bitsRead < L) : decodeLoop rev L bytes s = s := by
  cases bytes with
  | nil => rfl
  | cons b bytes => simp [decodeLoop, h]

theorem decodeLoop_append (rev : List (List Byte × Byte)) (L : Int) (xs ys : List Byte) :
    ∀ s : DecodeState,
      decodeLoop rev L (xs ++ ys) s = decodeLoop rev L ys (decodeLoop rev L xs s) := by
  induction xs with
  | nil => intro s; rfl
  | cons x xs ih =>
    intro s
    by_cases h : s.bitsRead < L
    · simp only [List.cons_append, decodeLoop, h, if_true]
      exact ih _
    · simp only [List.cons_append, decodeLoop, h, if_false]
      exact (decodeLoop_stop rev L ys s h).symm

theorem guardedStep_output (rev : List (List Byte × Byte)) (L : Int) (s : DecodeState)
    (ch : Byte) : s.output <+: (guardedStep rev L s ch).output := by
  unfold guardedStep bitStep
  split
  · split
    · exact List.prefix_append _ _
    · exact List.prefix_refl _
  · exact List.prefix_refl _

theorem foldl_guardedStep_output (rev : List (List Byte × Byte)) (L : Int) (xs : List Byte) :
    ∀ s : DecodeState, s.output <+: (xs.foldl (guardedStep rev L) s).output := by
  induction xs with
  | nil => intro s; exact List.prefix_refl _
  | cons x xs ih =>
    intro s
    exact (guardedStep_output rev L s x).trans (ih _)

theorem decodeLoop_output (rev : List (List Byte × Byte)) (L : Int) (bytes : List Byte) :
    ∀ s : DecodeState, s.output <+: (decodeLoop rev L bytes s).output := by
  induction bytes with
  | nil => intro s; exact List.prefix_refl _
  | cons b bytes ih =>
    intro s
    by_cases h : s.bitsRead < L
    · simp only [decodeLoop, h, if_true]
      refine List.IsPrefix.trans ?_ (ih _)
      rw [decodeByte_eq]
      exact foldl_guardedStep_output rev L _ s
    · simp only [decodeLoop, h, if_false]
      exact List.prefix_refl _

theorem decodeLoop_dropLast (rev : List (List Byte × Byte)) (L : Int) (bytes : List Byte)
    (s : DecodeState) :
    (decodeLoop rev L bytes.dropLast s).output <+: (decodeLoop rev L bytes s).output := by
  by_cases hne : bytes = []
  · subst hne; exact List.prefix_refl _
  · have h := List.dropLast_append_getLast hne
    have h2 : decodeLoop rev L bytes s =
        decodeLoop rev L [bytes.getLast hne] (decodeLoop rev L bytes.dropLast s) := by
      rw [← decodeLoop_append, h]
    rw [h2]
    exact decodeLoop_output rev L _ _

theorem guardedStep_no_table (L : Int) (s : DecodeState) (ch : Byte) :
    (guardedStep [] L s ch).output = s.output := by
  unfold guardedStep bitStep
  split <;> simp [UMap.find]

theorem foldl_guardedStep_no_table (L : Int) (xs : List Byte) :
    ∀ s : DecodeState, (xs.foldl (guardedStep [] L) s).output = s.output := by
  induction xs with
  | nil => intro s; rfl
  | cons x xs ih =>
    intro s
    rw [List.foldl_cons, ih, guardedStep_no_table]

theorem decodeLoop_no_table (L : Int) (bytes : List Byte) :
    ∀ s : DecodeState, (decodeLoop [] L bytes s).output = s.output := by
  induction bytes with
  | nil => intro s; rfl
  | cons b bytes ih =>
    intro s
    by_cases h : s.bitsRead < L
    · simp only [decodeLoop, h, if_true]
      rw [ih, decodeByte_eq, foldl_guardedStep_no_table]
    · simp only [decodeLoop, h, if_false]

theorem readInt32_of_length (input : List Byte) (h : 4 ≤ input.length) :
    ∃ L rest, readInt32 input = some (L, rest) := by
  match input, h with
  | b0 :: b1 :: b2 :: b3 :: rest, _ => exact ⟨_, rest, rfl⟩

/-- A container whose count byte is 0 (an empty table, or a table of 256 entries whose
count has wrapped): as long as four bytes follow, an empty output is returned. -/
theorem decompress_count_zero (body : List Byte) (h : 4 ≤ body.length) :
    decompress (0 :: body) = some [] := by
  obtain ⟨L, rest, hL⟩ := readInt32_of_length body h
  have : decompress (0 :: body) = some (decodeLoop [] L rest ⟨[], 0, []⟩).output := by
    simp [decompress, streamGet, readTable, hL]
  rw [this, decodeLoop_no_table]

theorem flatMap_entries_length (entries : List (Byte × List Byte)) :
    2 * entries.length ≤
      (entries.flatMap (fun p => p.1 :: toByte p.2.length :: p.2)).length := by
  induction entries with
  | nil => simp
  | cons p entries ih =>
    simp only [List.flatMap_cons, List.length_append, List.length_cons]
    omega

/-- C6 (amended). A truncated payload is not detected: for every container that `compress`
produces (in any state a coder can reach) with at least one payload byte, `decompress` of
the container without its last payload byte reports no error; it returns an output buffer,
an initial segment of the output for the whole container. -/
theorem truncated_payload_is_decoded (std : StdLib) (hstd : std.Lawful) (codes : Codes)
    (hreach : Reachable std codes) (text : List Byte) (codes1 : Codes) (container : List Byte)
    (hc : compress std codes text = some (codes1, container))
    (hpay : payloadOf std codes text ≠ []) :
    ∃ out full, decompress container = some full ∧
      decompress container.dropLast = some out ∧ out <+: full := by
  obtain ⟨root, hroot, hmark, hnd⟩ := compress_tree std hstd codes codes1 text container hc
  have hok := generateCodes_ok root hmark hnd codes (reachable_ok std hstd codes hreach)
  rw [compress_of_tree std codes text root hroot] at hc
  have hcont : container = writeTable std (generateCodes root [] codes) ++
      writeInt32 (encodeText (generateCodes root [] codes) text).2.length ++
      packBits (encodeText (generateCodes root [] codes) text).2 :=
    ((Prod.mk.inj (Option.some.inj hc)).2).symm
  have hpay2 : packBits (encodeText (generateCodes root [] codes) text).2 ≠ [] := by
    simpa [payloadOf, hroot] using hpay
  have hdrop : container.dropLast = writeTable std (generateCodes root [] codes) ++
      writeInt32 (encodeText (generateCodes root [] codes) text).2.length ++
      (packBits (encodeText (generateCodes root [] codes) text).2).dropLast := by
    rw [hcont, List.dropLast_append_of_ne_nil _ hpay2]
  have hle : (generateCodes root [] codes).length ≤ 256 := by
    have := nodup_bytes_length _ hok.1
    simpa using this
  by_cases hlt : (generateCodes root [] codes).length < 256
  · have hfull := decompress_written std hstd _ hok.1 hlt hok.2
      (encodeText (generateCodes root [] codes) text).2.length
      (packBits (encodeText (generateCodes root [] codes) text).2)
    have hout := decompress_written std hstd _ hok.1 hlt hok.2
      (encodeText (generateCodes root [] codes) text).2.length
      (packBits (encodeText (generateCodes root [] codes) text).2).dropLast
    rw [← hcont] at hfull
    rw [← hdrop] at hout
    exact ⟨_, _, hfull, hout, decodeLoop_dropLast _ _ _ _⟩
  · have h256 : (generateCodes root [] codes).length = 256 := by omega
    have hiter := UMap.iterate_perm std.order hstd.order_perm _ hok.1
    have hbody := flatMap_entries_length (UMap.iterate std.order (generateCodes root [] codes))
    rw [hiter.length_eq, h256] at hbody
    have hzero : toByte (generateCodes root [] codes).length = 0 := by
      rw [h256]; rfl
    refine ⟨[], [], ?_, ?_, List.prefix_refl _⟩
    · rw [hcont]
      simp only [writeTable, hzero, List.cons_append]
      apply decompress_count_zero
      simp only [List.length_append]
      omega
    · rw [hdrop]
      simp only [writeTable, hzero, List.cons_append]
      apply decompress_count_zero
      simp only [List.length_append]
      omega

/-- C6 at the input `ab` on a fresh coder of the reference library. -/
theorem truncated_payload_is_decoded_witness :
    refStd.Lawful ∧ Reachable refStd fresh ∧
      compress refStd fresh [97, 98] =
        some ([(97, [48]), (98, [49])], [2, 97, 1, 48, 98, 1, 49, 2, 0, 0, 0, 64]) ∧
      payloadOf refStd fresh [97, 98] ≠ [] ∧
      ∃ out full, decompress [2, 97, 1, 48, 98, 1, 49, 2, 0, 0, 0, 64] = some full ∧
        decompress ([2, 97, 1, 48, 98, 1, 49, 2, 0, 0, 0, 64] : List Byte).dropLast = some out ∧
        out <+: full :=
  ⟨refStd_lawful, Reachable.fresh, by decide, by decide,
    truncated_payload_is_decoded refStd refStd_lawful fresh Reachable.fresh [97, 98]
      [(97, [48]), (98, [49])] [2, 97, 1, 48, 98, 1, 49, 2, 0, 0, 0, 64] (by decide)
      (by decide)⟩

/-- C6, counterexample: the container for `ab` ends in one payload byte; without that byte
`decompress` does not fail but returns the empty buffer. -/
theorem truncation_not_detected :
    compress refStd fresh [97, 98] =
        some ([(97, [48]), (98, [49])], [2, 97, 1, 48, 98, 1, 49, 2, 0, 0, 0, 64]) ∧
      payloadOf refStd fresh [97, 98] = [64] ∧
      decompress [2, 97, 1, 48, 98, 1, 49, 2, 0, 0, 0] = some [] := by
  refine ⟨by decide, by decide, by decide⟩


/-! ## The auxiliary readings agree with `compress` and `decompress` -/

/-- What `payloadOf` names is the last part of the container that `compress` writes. -/
theorem compress_ends_with_payload (std : StdLib) (codes codes1 : Codes)
    (text container : List Byte) (hc : compress std codes text = some (codes1, container)) :
    ∃ root, buildHuffmanTree std text = some root ∧
      container = writeTable std (generateCodes root [] codes) ++
        writeInt32 (encodeText (generateCodes root [] codes) text).2.length ++
        payloadOf std codes text := by
  cases hroot : buildHuffmanTree std text with
  | none => simp [compress, hroot] at hc
  | some root =>
    rw [compress_of_tree std codes text root hroot] at hc
    refine ⟨root, rfl, ?_⟩
    simp only [payloadOf, hroot]
    exact ((Prod.mk.inj (Option.some.inj hc)).2).symm

/-- What `reverseTable` names is the table that `decompress` decodes with. -/
theorem decompress_uses_reverseTable (input : List Byte) :
    decompress input =
      match readInt32 (readTable (streamGet input).1.val (streamGet input).2 []).2 with
      | none => some []
      | some (encodedLength, payload) =>
        some (decodeLoop (reverseTable input) encodedLength payload ⟨[], 0, []⟩).output :=
  rfl

/-! ## C11, C18, C20: the container of a fresh coder -/

/-- The container that a fresh coder writes for a non-empty text, part by part: the
count byte, the entries of the table of the tree (in iteration order), the bit length and
the packed bits of the encoded text. -/
theorem fresh_container (std : StdLib) (hstd : std.Lawful) (text : List Byte)
    (hne : text ≠ []) :
    ∃ root, buildHuffmanTree std text = some root ∧ root.Marked ∧
      root.leaves.Perm (countFreq text) ∧
      (UMap.iterate std.order (tableOf root)).Perm (tableOf root) ∧
      compress std fresh text = some ((encodeText (tableOf root) text).1,
        toByte (UMap.iterate std.order (tableOf root)).length ::
          (UMap.iterate std.order (tableOf root)).flatMap
            (fun p => p.1 :: toByte p.2.length :: p.2) ++
          writeInt32 (text.flatMap (codeOf (tableOf root))).length ++
          packBits (text.flatMap (codeOf (tableOf root)))) := by
  obtain ⟨root, hroot, hmark, hperm⟩ := buildHuffmanTree_shape std hstd text hne
  have hnd := leaves_keys_nodup text root hperm
  have hiter := UMap.iterate_perm std.order hstd.order_perm (tableOf root)
    (tableOf_keys_nodup root hnd)
  have hc := compress_of_tree std fresh text root hroot
  rw [generateCodes_fresh_eq root hmark hnd, encodeText_bits] at hc
  refine ⟨root, hroot, hmark, hperm, hiter, ?_⟩
  rw [hc]
  simp only [writeTable, hiter.length_eq, List.cons_append]

/-- C11. Code length range: for every input with at least two distinct byte values,
every entry of the table that `compress` writes on a fresh coder has a code of between 1
and 255 characters, so the length byte of the entry holds the exact length and no code is
empty. -/
theorem code_lengths_fit_a_byte (std : StdLib) (hstd : std.Lawful) (text : List Byte)
    (h2 : 2 ≤ text.dedup.length) :
    ∃ (codes : Codes) (entries : List (Byte × List Byte)) (bits : List Byte),
      compress std fresh text = some (codes,
        toByte entries.length :: entries.flatMap (fun p => p.1 :: toByte p.2.length :: p.2) ++
          writeInt32 bits.length ++ packBits bits) ∧
      ∀ p ∈ entries, 1 ≤ p.2.length ∧ p.2.length ≤ 255 ∧ (toByte p.2.length).val = p.2.length := by
  have hne : text ≠ [] := by
    intro h
    rw [h] at h2
    simp at h2
  obtain ⟨root, _, _, hperm, hiter, hc⟩ := fresh_container std hstd text hne
  have hnd := leaves_keys_nodup text root hperm
  have hleaves : 2 ≤ root.leaves.length := by
    have h1 := (hperm.map Prod.fst).length_eq
    have h3 := (countFreq_keys_perm text).length_eq
    simp only [List.length_map] at h1 h3
    omega
  refine ⟨_, _, _, hc, ?_⟩
  intro p hp
  have hp2 : p ∈ tableOf root := hiter.subset hp
  have hlt := tableOf_code_length root hnd p hp2
  have hpos : p.2 ≠ [] := leafCodes_ne_nil root hleaves p (List.mem_of_mem_filter hp2)
  have hpos2 : 0 < p.2.length := List.length_pos.2 hpos
  exact ⟨hpos2, by omega, toByte_val _ hlt⟩

/-- C11 at the input `mississippi` on the reference library. -/
theorem code_lengths_fit_a_byte_witness :
    refStd.Lawful ∧
      2 ≤ ([109, 105, 115, 115, 105, 115, 115, 105, 112, 112, 105] : List Byte).dedup.length ∧
      ∃ (codes : Codes) (entries : List (Byte × List Byte)) (bits : List Byte),
        compress refStd fresh [109, 105, 115, 115, 105, 115, 115, 105, 112, 112, 105] =
          some (codes,
            toByte entries.length ::
              entries.flatMap (fun p => p.1 :: toByte p.2.length :: p.2) ++
              writeInt32 bits.length ++ packBits bits) ∧
        ∀ p ∈ entries,
          1 ≤ p.2.length ∧ p.2.length ≤ 255 ∧ (toByte p.2.length).val = p.2.length :=
  ⟨refStd_lawful, by decide,
    code_lengths_fit_a_byte refStd refStd_lawful
      [109, 105, 115, 115, 105, 115, 115, 105, 112, 112, 105] (by decide)⟩

/-- C18. Restricted round trip: for every input buffer with at least two distinct byte
values, none of them the zero byte, whose encoded bit count is below 2^31, `compress` on a
fresh coder produces a container, and `decompress` of that container returns exactly the
input. -/
theorem restricted_round_trip (std : StdLib) (hstd : std.Lawful) (text : List Byte)
    (h2 : 2 ≤ text.dedup.length) (h0 : (0 : Byte) ∉ text)
    (hbits : encodedBitCount std text < 2147483648) :
    ∃ codes container, compress std fresh text = some (codes, container) ∧
      decompress container = some text :=
  round_trip_core std hstd text h2 h0 hbits

/-- C18 at the input `mississippi` on the reference library. -/
theorem restricted_round_trip_witness :
    refStd.Lawful ∧
      2 ≤ ([109, 105, 115, 115, 105, 115, 115, 105, 112, 112, 105] : List Byte).dedup.length ∧
      (0 : Byte) ∉ ([109, 105, 115, 115, 105, 115, 115, 105, 112, 112, 105] : List Byte) ∧
      encodedBitCount refStd [109, 105, 115, 115, 105, 115, 115, 105, 112, 112, 105] <
        2147483648 ∧
      ∃ codes container,
        compress refStd fresh [109, 105, 115, 115, 105, 115, 115, 105, 112, 112, 105] =
          some (codes, container) ∧
        decompress container = some [109, 105, 115, 115, 105, 115, 115, 105, 112, 112, 105] :=
  ⟨refStd_lawful, by decide, by decide, by decide,
    restricted_round_trip refStd refStd_lawful
      [109, 105, 115, 115, 105, 115, 115, 105, 112, 112, 105] (by decide) (by decide)
      (by decide)⟩

/-- C20. Table count never wraps on a fresh coder: for every non-empty input the table
that `compress` writes on a fresh coder has at most 255 entries (the zero byte never has
one), so the count byte equals the exact number of entries that follow it, also when the
input uses all 256 byte values. -/
theorem table_count_is_exact (std : StdLib) (hstd : std.Lawful) (text : List Byte)
    (hne : text ≠ []) :
    ∃ (codes : Codes) (entries : List (Byte × List Byte)) (bits : List Byte),
      compress std fresh text = some (codes,
        toByte entries.length :: entries.flatMap (fun p => p.1 :: toByte p.2.length :: p.2) ++
          writeInt32 bits.length ++ packBits bits) ∧
      entries.length ≤ 255 ∧ (toByte entries.length).val = entries.length ∧
      (entries.map Prod.fst).Perm (text.dedup.filter (fun c => c ≠ 0)) := by
  obtain ⟨root, _, _, hperm, hiter, hc⟩ := fresh_container std hstd text hne
  have hnd := leaves_keys_nodup text root hperm
  have hlt : (UMap.iterate std.order (tableOf root)).length < 256 := by
    rw [hiter.length_eq]; exact tableOf_length_lt root hnd
  exact ⟨_, _, _, hc, by omega, toByte_val _ hlt,
    (hiter.map Prod.fst).trans (tableOf_keys_perm text root hperm)⟩

theorem all_bytes_ne_nil : List.finRange 256 ≠ [] := by
  intro h
  have := congrArg List.length h
  simp at this

/-- C20 at the input that holds each of the 256 byte values once. -/
theorem table_count_is_exact_witness :
    refStd.Lawful ∧ List.finRange 256 ≠ [] ∧
      ∃ (codes : Codes) (entries : List (Byte × List Byte)) (bits : List Byte),
        compress refStd fresh (List.finRange 256) = some (codes,
          toByte entries.length ::
            entries.flatMap (fun p => p.1 :: toByte p.2.length :: p.2) ++
            writeInt32 bits.length ++ packBits bits) ∧
        entries.length ≤ 255 ∧ (toByte entries.length).val = entries.length ∧
        (entries.map Prod.fst).Perm ((List.finRange 256).dedup.filter (fun c => c ≠ 0)) :=
  ⟨refStd_lawful, all_bytes_ne_nil,
    table_count_is_exact refStd refStd_lawful (List.finRange 256) all_bytes_ne_nil⟩

/-! ## C13: the layout of the payload -/

theorem testBit_packByte (chunk : List Byte) (j : Nat) (hj : j < 8) :
    (packByte chunk).val.testBit (7 - j) = decide (chunk.get? j = some 49) := by
  have h := bitsOf_packByte chunk
  simp only [bitsOf, List.range, List.range.loop, List.map_cons, List.map_nil,
    List.cons.injEq, and_true] at h
  obtain ⟨h0, h1, h2, h3, h4, h5, h6, h7⟩ := h
  have key : ∀ (b : Bool) (p : Prop) [Decidable p],
      (if b = true then (49 : Byte) else 48) = (if p then (49 : Byte) else 48) →
      b = decide p := by
    intro b p _ hbp
    by_cases hp : p
    · cases b
      · simp [hp] at hbp
      · simp [hp]
    · cases b
      · simp [hp]
      · simp [hp] at hbp
  interval_cases j
  · exact key _ _ h0
  · exact key _ _ h1
  · exact key _ _ h2
  · exact key _ _ h3
  · exact key _ _ h4
  · exact key _ _ h5
  · exact key _ _ h6
  · exact key _ _ h7

theorem packBits_length (encodedText : List Byte) :
    (packBits encodedText).length = (encodedText.length + 7) / 8 := by
  simp [packBits]

theorem packBits_get (encodedText : List Byte) (i : Nat)
    (hi : i < (encodedText.length + 7) / 8) :
    (packBits encodedText).get? i = some (packByte ((encodedText.drop (8 * i)).take 8)) := by
  simp [packBits, List.get?_eq_getElem?, List.getElem?_map, List.getElem?_range hi]

theorem packBits_bit (encodedText : List Byte) (k : Nat)
    (hk : k < 8 * ((encodedText.length + 7) / 8)) :
    ∃ byte, (packBits encodedText).get? (k / 8) = some byte ∧
      byte.val.testBit (7 - k % 8) = decide (encodedText.get? k = some 49) := by
  have hi : k / 8 < (encodedText.length + 7) / 8 := by omega
  refine ⟨_, packBits_get encodedText (k / 8) hi, ?_⟩
  rw [testBit_packByte _ _ (Nat.mod_lt k (by decide))]
  have hget : ((encodedText.drop (8 * (k / 8))).take 8).get? (k % 8) = encodedText.get? k := by
    rw [List.get?_eq_getElem?, List.get?_eq_getElem?,
      List.getElem?_take_of_lt (Nat.mod_lt k (by decide)), List.getElem?_drop]
    congr 1
    omega
  rw [hget]

/-- C13. Payload packing: for every encoded bit sequence of length `L` the payload loop
writes exactly `ceil(L/8)` bytes; bit `k` of the sequence (set where the character is
`'1'`) is stored in byte `k / 8` at bit position `7 - k % 8`, and the bit positions of
the last byte that lie beyond the sequence are zero. -/
theorem payload_packing (encodedText : List Byte) :
    (packBits encodedText).length = (encodedText.length + 7) / 8 ∧
    (∀ k, k < encodedText.length →
      ∃ byte ch, (packBits encodedText).get? (k / 8) = some byte ∧
        encodedText.get? k = some ch ∧
        byte.val.testBit (7 - k % 8) = decide (ch = 49)) ∧
    (∀ k, encodedText.length ≤ k → k < 8 * ((encodedText.length + 7) / 8) →
      ∃ byte, (packBits encodedText).get? (k / 8) = some byte ∧
        byte.val.testBit (7 - k % 8) = false) := by
  refine ⟨packBits_length encodedText, ?_, ?_⟩
  · intro k hk
    obtain ⟨byte, hb, hbit⟩ := packBits_bit encodedText k (by omega)
    have hch : encodedText.get? k = some (encodedText.get ⟨k, hk⟩) := List.get?_eq_get hk
    refine ⟨byte, _, hb, hch, ?_⟩
    rw [hbit, hch]
    simp
  · intro k hk hk2
    obtain ⟨byte, hb, hbit⟩ := packBits_bit encodedText k hk2
    refine ⟨byte, hb, ?_⟩
    rw [hbit, List.get?_eq_none.2 hk]
    simp

/-! ## C14: bits beyond the declared length -/

theorem decodeLoop_eq_foldl (rev : List (List Byte × Byte)) (L : Int) (bytes : List Byte) :
    ∀ s : DecodeState,
      decodeLoop rev L bytes s = (bytes.flatMap bitsOf).foldl (guardedStep rev L) s := by
  induction bytes with
  | nil => intro s; rfl
  | cons b bytes ih =>
    intro s
    rw [List.flatMap_cons, List.foldl_append, ← decodeByte_eq]
    by_cases h : s.bitsRead < L
    · simp only [decodeLoop, h, if_true]
      exact ih _
    · simp only [decodeLoop, h, if_false]
      rw [decodeByte_eq, foldl_guardedStep_done rev L _ s (by omega),
        foldl_guardedStep_done rev L _ s (by omega)]

theorem foldl_guardedStep_take (rev : List (List Byte × Byte)) (L : Int) (bits : List Byte) :
    ∀ s : DecodeState,
      bits.foldl (guardedStep rev L) s =
        (bits.take (L - s.bitsRead).toNat).foldl (bitStep rev) s := by
  induction bits with
  | nil => intro s; simp
  | cons x bits ih =>
    intro s
    by_cases h : s.bitsRead < L
    · obtain ⟨k, hk⟩ : ∃ k : Nat, (L - s.bitsRead).toNat = k + 1 :=
        ⟨(L - s.bitsRead).toNat - 1, by omega⟩
      have hstep : guardedStep rev L s x = bitStep rev s x := by
        unfold guardedStep
        rw [if_pos h]
      have hk2 : (L - (bitStep rev s x).bitsRead).toNat = k := by
        rw [bitStep_bitsRead]
        omega
      rw [List.foldl_cons, hstep, ih, hk2, hk, List.take_succ_cons, List.foldl_cons]
    · have h0 : (L - s.bitsRead).toNat = 0 := by omega
      rw [h0, List.take_zero, List.foldl_nil]
      exact foldl_guardedStep_done rev L _ s (by omega)

/-- The decoding loop depends on the payload only through its first `L` bits, and counts
no more than `L` bits. -/
theorem decodeLoop_first_bits (rev : List (List Byte × Byte)) (L : Int) (payload : List Byte) :
    decodeLoop rev L payload ⟨[], 0, []⟩ =
        ((payload.flatMap bitsOf).take L.toNat).foldl (bitStep rev) ⟨[], 0, []⟩ ∧
      (decodeLoop rev L payload ⟨[], 0, []⟩).bitsRead ≤ max L 0 := by
  have h : decodeLoop rev L payload ⟨[], 0, []⟩ =
      ((payload.flatMap bitsOf).take L.toNat).foldl (bitStep rev) ⟨[], 0, []⟩ := by
    rw [decodeLoop_eq_foldl, foldl_guardedStep_take]
    simp
  refine ⟨h, ?_⟩
  rw [h, foldl_bitStep_bitsRead]
  have hlen : ((payload.flatMap bitsOf).take L.toNat).length ≤ L.toNat := by
    rw [List.length_take]
    exact Nat.min_le_left _ _
  have : (((payload.flatMap bitsOf).take L.toNat).length : Int) ≤ (L.toNat : Int) := by
    exact_mod_cast hlen
  simp only [zero_add]
  omega

/-- C14. Pad bits are ignored: for every header that holds a table (fewer than 256
entries, codes shorter than 256 characters) and a bit length field, with `L` the `int`
read from that field, `decompress` returns an output for every payload, two payloads whose
first `L` bits agree give the same output, and the decoding loop counts no more than `L`
bits. -/
theorem pad_bits_are_ignored (entries : List (Byte × List Byte)) (n : Nat)
    (payload1 payload2 : List Byte)
    (hcount : entries.length < 256) (hlen : ∀ p ∈ entries, p.2.length < 256)
    (hagree :
      (payload1.flatMap bitsOf).take (wrap32 ((n % 4294967296 : Nat) : Int)).toNat =
      (payload2.flatMap bitsOf).take (wrap32 ((n % 4294967296 : Nat) : Int)).toNat) :
    (∃ out,
      decompress (toByte entries.length ::
        entries.flatMap (fun p => p.1 :: toByte p.2.length :: p.2) ++
        writeInt32 n ++ payload1) = some out ∧
      decompress (toByte entries.length ::
        entries.flatMap (fun p => p.1 :: toByte p.2.length :: p.2) ++
        writeInt32 n ++ payload2) = some out) ∧
    (decodeLoop (storeAll [] entries) (wrap32 ((n % 4294967296 : Nat) : Int)) payload1
        ⟨[], 0, []⟩).bitsRead ≤ max (wrap32 ((n % 4294967296 : Nat) : Int)) 0 := by
  have hdec : ∀ payload : List Byte,
      decompress (toByte entries.length ::
        entries.flatMap (fun p => p.1 :: toByte p.2.length :: p.2) ++
        writeInt32 n ++ payload) =
      some (decodeLoop (storeAll [] entries) (wrap32 ((n % 4294967296 : Nat) : Int)) payload
        ⟨[], 0, []⟩).output := by
    intro payload
    unfold decompress
    simp only [List.cons_append, streamGet, toByte_val _ hcount, List.append_assoc]
    rw [readTable_written _ hlen, readInt32_written]
  refine ⟨⟨_, hdec payload1, ?_⟩, (decodeLoop_first_bits _ _ payload1).2⟩
  rw [hdec payload2, (decodeLoop_first_bits _ _ payload1).1,
    (decodeLoop_first_bits _ _ payload2).1, hagree]

/-- C14 for the table `a -> 0`, `b -> 1`, a declared length of 2 bits, and the payload
bytes `01000000` and `01111111` followed by a further byte. -/
theorem pad_bits_are_ignored_witness :
    ([(97, [48]), (98, [49])] : List (Byte × List Byte)).length < 256 ∧
    (∀ p ∈ ([(97, [48]), (98, [49])] : List (Byte × List Byte)), p.2.length < 256) ∧
    (([64] : List Byte).flatMap bitsOf).take (wrap32 ((2 % 4294967296 : Nat) : Int)).toNat =
      (([127, 255] : List Byte).flatMap bitsOf).take
        (wrap32 ((2 % 4294967296 : Nat) : Int)).toNat ∧
    (∃ out,
      decompress (toByte ([(97, [48]), (98, [49])] : List (Byte × List Byte)).length ::
        ([(97, [48]), (98, [49])] : List (Byte × List Byte)).flatMap
          (fun p => p.1 :: toByte p.2.length :: p.2) ++
        writeInt32 2 ++ [64]) = some out ∧
      decompress (toByte ([(97, [48]), (98, [49])] : List (Byte × List Byte)).length ::
        ([(97, [48]), (98, [49])] : List (Byte × List Byte)).flatMap
          (fun p => p.1 :: toByte p.2.length :: p.2) ++
        writeInt32 2 ++ [127, 255]) = some out) ∧
    (decodeLoop (storeAll [] [(97, [48]), (98, [49])])
        (wrap32 ((2 % 4294967296 : Nat) : Int)) [64] ⟨[], 0, []⟩).bitsRead ≤
      max (wrap32 ((2 % 4294967296 : Nat) : Int)) 0 :=
  ⟨by decide, by decide, by decide,
    pad_bits_are_ignored [(97, [48]), (98, [49])] 2 [64] [127, 255] (by decide) (by decide)
      (by decide)⟩

/-! ## C12: the bit length field -/

theorem length_flatMap_sum {α β : Type} (l : List α) (f : α → List β) :
    (l.flatMap f).length = (l.map (fun x => (f x).length)).sum := by
  induction l with
  | nil => rfl
  | cons x l ih => simp [List.flatMap_cons, ih]

theorem length_flatMap_replicate {α β : Type} (n : Nat) (a : α) (f : α → List β) :
    ((List.replicate n a).flatMap f).length = n * (f a).length := by
  rw [length_flatMap_sum, List.map_replicate, List.sum_replicate, smul_eq_mul]

/-- C12 (amended). Bit length field: for every non-empty input buffer, in any state of the
coder, `compress` writes after the table the four bytes of the `int` made from the length
of the encoded text, which is the concatenation, in input order, of the codes of the input
bytes (the sum of their code lengths); where that number of bits is below 2^31, the `int`
that `decompress` reads back from the field equals it exactly. -/
theorem bit_length_field (std : StdLib) (hstd : std.Lawful) (codes : Codes)
    (text : List Byte) (hne : text ≠ []) :
    ∃ root codes1, buildHuffmanTree std text = some root ∧
      compress std codes text = some (codes1,
        writeTable std (generateCodes root [] codes) ++
          writeInt32 (text.flatMap (codeOf (generateCodes root [] codes))).length ++
          packBits (text.flatMap (codeOf (generateCodes root [] codes)))) ∧
      (text.flatMap (codeOf (generateCodes root [] codes))).length =
        (text.map (fun c => (codeOf (generateCodes root [] codes) c).length)).sum ∧
      ((text.flatMap (codeOf (generateCodes root [] codes))).length < 2147483648 →
        ∀ payload, readInt32
          (writeInt32 (text.flatMap (codeOf (generateCodes root [] codes))).length ++ payload) =
          some (((text.flatMap (codeOf (generateCodes root [] codes))).length : Int),
            payload)) := by
  obtain ⟨root, hroot, _⟩ := buildHuffmanTree_spec std hstd text hne
  have hc := compress_of_tree std codes text root hroot
  rw [encodeText_bits] at hc
  exact ⟨root, _, hroot, hc, length_flatMap_sum _ _,
    fun h payload => readInt32_written_small _ h payload⟩

/-- C12 at the input `abracadabra` on a fresh coder of the reference library. -/
theorem bit_length_field_witness :
    refStd.Lawful ∧ ([97, 98, 114, 97, 99, 97, 100, 97, 98, 114, 97] : List Byte) ≠ [] ∧
    ∃ root codes1,
      buildHuffmanTree refStd [97, 98, 114, 97, 99, 97, 100, 97, 98, 114, 97] = some root ∧
      compress refStd fresh [97, 98, 114, 97, 99, 97, 100, 97, 98, 114, 97] = some (codes1,
        writeTable refStd (generateCodes root [] fresh) ++
          writeInt32 (([97, 98, 114, 97, 99, 97, 100, 97, 98, 114, 97] : List Byte).flatMap
            (codeOf (generateCodes root [] fresh))).length ++
          packBits (([97, 98, 114, 97, 99, 97, 100, 97, 98, 114, 97] : List Byte).flatMap
            (codeOf (generateCodes root [] fresh)))) ∧
      (([97, 98, 114, 97, 99, 97, 100, 97, 98, 114, 97] : List Byte).flatMap
          (codeOf (generateCodes root [] fresh))).length =
        (([97, 98, 114, 97, 99, 97, 100, 97, 98, 114, 97] : List Byte).map
          (fun c => (codeOf (generateCodes root [] fresh) c).length)).sum ∧
      ((([97, 98, 114, 97, 99, 97, 100, 97, 98, 114, 97] : List Byte).flatMap
          (codeOf (generateCodes root [] fresh))).length < 2147483648 →
        ∀ payload, readInt32
          (writeInt32 (([97, 98, 114, 97, 99, 97, 100, 97, 98, 114, 97] : List Byte).flatMap
            (codeOf (generateCodes root [] fresh))).length ++ payload) =
          some (((([97, 98, 114, 97, 99, 97, 100, 97, 98, 114, 97] : List Byte).flatMap
            (codeOf (generateCodes root [] fresh))).length : Int), payload)) :=
  ⟨refStd_lawful, by decide,
    bit_length_field refStd refStd_lawful fresh
      [97, 98, 114, 97, 99, 97, 100, 97, 98, 114, 97] (by decide)⟩

theorem compress_two_symbols (text : List Byte) (hcf : countFreq text = [(97, 0), (98, 1)]) :
    compress refStd fresh text =
      some ((encodeText [(97, [48]), (98, [49])] text).1,
        [2, 97, 1, 48, 98, 1, 49] ++
          writeInt32 (text.flatMap (codeOf [(97, [48]), (98, [49])])).length ++
          packBits (text.flatMap (codeOf [(97, [48]), (98, [49])]))) := by
  have hroot : buildHuffmanTree refStd text =
      some (.inner 0 1 (.leaf 97 0) (.leaf 98 1)) := by
    unfold buildHuffmanTree
    rw [hcf]
    decide
  rw [compress_of_tree refStd fresh text _ hroot]
  have hgen : generateCodes (.inner 0 1 (.leaf 97 0) (.leaf 98 1)) [] fresh =
      [(97, [48]), (98, [49])] := by decide
  have hw : writeTable refStd [(97, [48]), (98, [49])] = [2, 97, 1, 48, 98, 1, 49] := by
    decide
  rw [hgen, encodeText_bits, hw]

theorem bits_of_long_text (n : Nat) :
    ((List.replicate n 97 ++ [98] : List Byte).flatMap
      (codeOf [(97, [48]), (98, [49])])).length = n + 1 := by
  rw [List.flatMap_append, List.length_append, length_flatMap_replicate]
  have h1 : (codeOf [(97, [48]), (98, [49])] 97).length = 1 := by decide
  have h2 : (([98] : List Byte).flatMap (codeOf [(97, [48]), (98, [49])])).length = 1 := by
    decide
  rw [h1, h2]
  omega

/-- C12, counterexample: an input of 2^32 bytes `a` followed by one `b` is encoded to
2^32 + 1 bits (each byte has a code of one bit), and the bit length field that `compress`
writes after the table holds the bytes 01 00 00 00, the number 1. -/
theorem bit_length_field_wraps :
    ∃ (codes : Codes) (bits : List Byte),
      compress refStd fresh (List.replicate 4294967296 97 ++ [98]) =
        some (codes, [2, 97, 1, 48, 98, 1, 49] ++ [1, 0, 0, 0] ++ packBits bits) ∧
      bits = (List.replicate 4294967296 97 ++ [98] : List Byte).flatMap
        (codeOf [(97, [48]), (98, [49])]) ∧
      bits.length = 4294967297 := by
  have hcf : countFreq (List.replicate 4294967296 97 ++ [98]) = [(97, 0), (98, 1)] := by
    rw [show (4294967296 : Nat) = 4294967295 + 1 from rfl, countFreq_replicate_append]
    decide
  have hc := compress_two_symbols _ hcf
  have hlen := bits_of_long_text 4294967296
  rw [hlen] at hc
  have hw : writeInt32 (4294967296 + 1) = [1, 0, 0, 0] := by decide
  rw [hw] at hc
  exact ⟨_, _, hc, rfl, hlen⟩

/-! ## C19: the zero byte -/

theorem flatMap_filter_of_nil {α β : Type} (p : α → Bool) (f : α → List β) (l : List α)
    (h : ∀ x ∈ l, p x = false → f x = []) : l.flatMap f = (l.filter p).flatMap f := by
  induction l with
  | nil => rfl
  | cons x l ih =>
    have ih2 := ih (fun y hy => h y (List.mem_cons_of_mem _ hy))
    cases hp : p x with
    | false =>
      rw [List.filter_cons_of_neg (by simp [hp]), List.flatMap_cons,
        h x (List.mem_cons_self _ _) hp, List.nil_append, ih2]
    | true =>
      rw [List.filter_cons_of_pos (by simp [hp]), List.flatMap_cons, List.flatMap_cons, ih2]

theorem two_distinct_of_mem (text : List Byte) (a b : Byte) (ha : a ∈ text) (hb : b ∈ text)
    (hab : a ≠ b) : 2 ≤ text.dedup.length := by
  have hsub : [a, b] ⊆ text.dedup := by
    intro x hx
    simp only [List.mem_cons, List.mem_singleton, List.not_mem_nil, or_false] at hx
    rcases hx with rfl | rfl
    · exact List.mem_dedup.2 ha
    · exact List.mem_dedup.2 hb
  have hnd : [a, b].Nodup := by simp [hab]
  have := (List.subperm_of_subset hnd hsub).length_le
  simpa using this

/-- The round trip on a fresh coder for texts with two or more distinct bytes and fewer
than 2^31 encoded bits: the bytes other than zero come back, in order. -/
theorem round_trip_nonzero (std : StdLib) (hstd : std.Lawful) (text : List Byte)
    (h2 : 2 ≤ text.dedup.length) (hbits : encodedBitCount std text < 2147483648) :
    ∃ codes container, compress std fresh text = some (codes, container) ∧
      decompress container = some (text.filter (fun c => c ≠ 0)) := by
  have hne : text ≠ [] := by
    intro h
    rw [h] at h2
    simp at h2
  obtain ⟨root, hroot, hmark, hperm⟩ := buildHuffmanTree_shape std hstd text hne
  have hnd := leaves_keys_nodup text root hperm
  have hleaves : 2 ≤ root.leaves.length := by
    have h1 := (hperm.map Prod.fst).length_eq
    have h3 := (countFreq_keys_perm text).length_eq
    simp only [List.length_map] at h1 h3
    omega
  have hbits2 : (encodeText (tableOf root) text).2.length < 2147483648 := by
    simpa [encodedBitCount, hroot, generateCodes_fresh_eq root hmark hnd] using hbits
  refine ⟨_, _, compress_of_tree std fresh text root hroot, ?_⟩
  rw [generateCodes_fresh_eq root hmark hnd,
    decompress_written std hstd _ (tableOf_keys_nodup root hnd) (tableOf_length_lt root hnd)
      (tableOf_code_length root hnd)]
  rw [Nat.mod_eq_of_lt (by omega), wrap32_id _ (by omega) (by omega)]
  have hT := table_pairwise root
  have hiter := UMap.iterate_perm std.order hstd.order_perm (tableOf root)
    (tableOf_keys_nodup root hnd)
  have hrev : ∀ c s, UMap.find (storeAll [] (UMap.iterate std.order (tableOf root))) c = some s ↔
      (s, c) ∈ tableOf root := by
    intro c s
    rw [storeAll_find _ (((hiter.map Prod.snd).nodup_iff).2 (nodup_of_pairwise_unrelated _ hT))]
    exact hiter.mem_iff
  have hcodes : ∀ c ∈ text.filter (fun c => c ≠ 0),
      (c, codeOf (tableOf root) c) ∈ tableOf root ∧ codeOf (tableOf root) c ≠ [] := by
    intro c hc
    obtain ⟨hc1, hc2⟩ := List.mem_filter.1 hc
    have hkey : c ∈ (tableOf root).map Prod.fst := by
      rw [tableOf_keys, List.mem_filter]
      exact ⟨(hperm.map Prod.fst).symm.subset ((countFreq_mem_keys text c).2 hc1), hc2⟩
    have hmem := codeOf_mem _ (tableOf_keys_nodup root hnd) c hkey
    exact ⟨hmem, leafCodes_ne_nil root hleaves _ (List.mem_of_mem_filter hmem)⟩
  have hzero : ∀ c ∈ text, (fun c : Byte => decide (c ≠ 0)) c = false →
      codeOf (tableOf root) c = [] := by
    intro c _ hc
    have hc0 : c = 0 := by simpa using hc
    have hnone : UMap.find (tableOf root) c = none := by
      rw [UMap.find_eq_none_iff, tableOf_keys, List.mem_filter]
      simp [hc0]
    simp [codeOf, hnone]
  have hdec := decodeLoop_packBits (storeAll [] (UMap.iterate std.order (tableOf root)))
    _ (encodeText (tableOf root) text).2 (le_refl _)
    (by rw [encodeText_bits]; exact codeOf_bits _ (tableOf_bits root) text) ⟨[], 0, []⟩
  simp only [zero_add] at hdec
  rw [hdec, encodeText_bits, flatMap_filter_of_nil _ _ text hzero,
    decode_text _ (tableOf root) hT hrev _ _ hcodes]
  simp

/-- C19 (amended). Zero bytes are dropped: for every input buffer that contains the zero
byte and at least one other byte value, and whose encoded bit count is below 2^31,
`compress` on a fresh coder followed by `decompress` returns the input with every zero
byte removed and all other bytes kept in order. -/
theorem zero_bytes_are_dropped (std : StdLib) (hstd : std.Lawful) (text : List Byte)
    (h0 : (0 : Byte) ∈ text) (hother : ∃ c ∈ text, c ≠ 0)
    (hbits : encodedBitCount std text < 2147483648) :
    ∃ codes container, compress std fresh text = some (codes, container) ∧
      decompress container = some (text.filter (fun c => c ≠ 0)) := by
  obtain ⟨c, hc, hc0⟩ := hother
  exact round_trip_nonzero std hstd text (two_distinct_of_mem text 0 c h0 hc (Ne.symm hc0)) hbits

/-- C19 at the input `a`, 0, `b`, 0, `a` on the reference library. -/
theorem zero_bytes_are_dropped_witness :
    refStd.Lawful ∧ (0 : Byte) ∈ ([97, 0, 98, 0, 97] : List Byte) ∧
      (∃ c ∈ ([97, 0, 98, 0, 97] : List Byte), c ≠ 0) ∧
      encodedBitCount refStd [97, 0, 98, 0, 97] < 2147483648 ∧
      ∃ codes container, compress refStd fresh [97, 0, 98, 0, 97] = some (codes, container) ∧
        decompress container = some (([97, 0, 98, 0, 97] : List Byte).filter (fun c => c ≠ 0)) :=
  ⟨refStd_lawful, by decide, ⟨97, by decide, by decide⟩, by decide,
    zero_bytes_are_dropped refStd refStd_lawful [97, 0, 98, 0, 97] (by decide)
      ⟨97, by decide, by decide⟩ (by decide)⟩

theorem compress_symbol_and_zero (text : List Byte)
    (hcf : countFreq text = [(97, -2147483648), (0, 1)]) :
    compress refStd fresh text =
      some ((encodeText [(97, [48])] text).1,
        [1, 97, 1, 48] ++ writeInt32 (text.flatMap (codeOf [(97, [48])])).length ++
          packBits (text.flatMap (codeOf [(97, [48])]))) := by
  have hroot : buildHuffmanTree refStd text =
      some (.inner 0 (-2147483647) (.leaf 97 (-2147483648)) (.leaf 0 1)) := by
    unfold buildHuffmanTree
    rw [hcf]
    decide
  rw [compress_of_tree refStd fresh text _ hroot]
  have hgen : generateCodes (.inner 0 (-2147483647) (.leaf 97 (-2147483648)) (.leaf 0 1)) []
      fresh = [(97, [48])] := by decide
  have hw : writeTable refStd [(97, [48])] = [1, 97, 1, 48] := by decide
  rw [hgen, encodeText_bits, hw]

theorem bits_of_long_text_with_zero (n : Nat) :
    ((List.replicate n 97 ++ [0] : List Byte).flatMap (codeOf [(97, [48])])).length = n := by
  rw [List.flatMap_append, List.length_append, length_flatMap_replicate]
  have h1 : (codeOf [(97, [48])] 97).length = 1 := by decide
  have h2 : (([0] : List Byte).flatMap (codeOf [(97, [48])])).length = 0 := by decide
  rw [h1, h2]
  omega

theorem decompress_negative_length (payload : List Byte) :
    decompress ([1, 97, 1, 48] ++ [0, 0, 0, 128] ++ payload) = some [] := by
  have hL : readInt32 (0 :: 0 :: 0 :: 128 :: payload) = some (-2147483648, payload) := by
    have h1 := readInt32_written 2147483648 payload
    have h2 : writeInt32 2147483648 = [0, 0, 0, 128] := by decide
    have h3 : wrap32 ((2147483648 % 4294967296 : Nat) : Int) = -2147483648 := by decide
    rw [h2, h3] at h1
    exact h1
  have h : decompress ([1, 97, 1, 48] ++ [0, 0, 0, 128] ++ payload) =
      some (decodeLoop [([48], 97)] (-2147483648) payload ⟨[], 0, []⟩).output := by
    simp [decompress, streamGet, readTable, streamRead, UMap.set, hL]
  rw [h, decodeLoop_stop _ _ _ _ (by decide)]

theorem filter_replicate_zero (n : Nat) :
    (List.replicate n 97 ++ [0] : List Byte).filter (fun c => c ≠ 0) = List.replicate n 97 := by
  induction n with
  | zero => decide
  | succ n ih =>
    rw [List.replicate_succ, List.cons_append, List.filter_cons_of_pos (by decide), ih]

/-- C19, counterexample: an input of 2^31 bytes `a` followed by the zero byte is encoded
to 2^31 bits; the bit length field then reads as the `int` -2^31, the decoding loop does
not run, and `decompress` returns the empty buffer instead of the 2^31 bytes `a`. -/
theorem zero_byte_round_trip_fails_when_length_wraps :
    (0 : Byte) ∈ (List.replicate 2147483648 97 ++ [0] : List Byte) ∧
    (97 : Byte) ∈ (List.replicate 2147483648 97 ++ [0] : List Byte) ∧
    (List.replicate 2147483648 97 ++ [0] : List Byte).filter (fun c => c ≠ 0) =
      List.replicate 2147483648 97 ∧
    ∃ codes container,
      compress refStd fresh (List.replicate 2147483648 97 ++ [0]) = some (codes, container) ∧
      decompress container = some [] := by
  have hcf : countFreq (List.replicate 2147483648 97 ++ [0]) =
      [(97, -2147483648), (0, 1)] := by
    rw [show (2147483648 : Nat) = 2147483647 + 1 from rfl, countFreq_replicate_append]
    decide
  have hc := compress_symbol_and_zero _ hcf
  have hlen := bits_of_long_text_with_zero 2147483648
  rw [hlen] at hc
  have hw : writeInt32 2147483648 = [0, 0, 0, 128] := by decide
  rw [hw] at hc
  refine ⟨?_, ?_, filter_replicate_zero 2147483648, _, _, hc, decompress_negative_length _⟩
  · exact List.mem_append_right _ (List.mem_singleton_self 0)
  · rw [show (2147483648 : Nat) = 2147483647 + 1 from rfl, List.replicate_succ]
    exact List.mem_append_left _ (List.mem_cons_self _ _)

/-! ## C16: the weights in the tree -/

theorem Merges.weights (text : List Byte) (hlen : text.length < 2147483648)
    {F : List Node} {t : Node} (h : Merges F t) :
    (∀ x ∈ F, x.freq = (weight text x : Int) ∧ x.WeightsAdd) →
    ((F.flatMap Node.leaves).map Prod.fst).Nodup →
    t.freq = (weight text t : Int) ∧ t.WeightsAdd := by
  induction h with
  | done t => intro hF _; exact hF t (List.mem_singleton_self t)
  | step F F1 l r t hperm _ _ _ ih =>
    intro hF hnd
    have hlF : l ∈ F := hperm.symm.subset (List.mem_cons_self _ _)
    have hrF : r ∈ F := hperm.symm.subset (List.mem_cons_of_mem _ (List.mem_cons_self _ _))
    have hnd2 : (((l :: r :: F1).flatMap Node.leaves).map Prod.fst).Nodup :=
      (((hperm.flatMap_right Node.leaves).map Prod.fst).nodup_iff).1 hnd
    have hnd3 : (((Node.inner 0 (wrap32 (l.freq + r.freq)) l r :: F1).flatMap
        Node.leaves).map Prod.fst).Nodup := by
      simpa [List.flatMap_cons, Node.leaves, List.append_assoc] using hnd2
    have hndnew : (((Node.inner 0 (wrap32 (l.freq + r.freq)) l r).leaves).map Prod.fst).Nodup := by
      simp only [List.flatMap_cons, List.map_append] at hnd3
      exact (List.nodup_append.1 hnd3).1
    have hbound := weight_le_length text _ hndnew
    rw [weight_inner] at hbound
    have hwrap : wrap32 (l.freq + r.freq) = l.freq + r.freq := by
      rw [(hF l hlF).1, (hF r hrF).1]
      exact wrap32_id _ (by omega) (by omega)
    apply ih _ hnd3
    intro x hx
    rcases List.mem_cons.1 hx with rfl | hx
    · refine ⟨?_, ?_, (hF l hlF).2, (hF r hrF).2⟩
      · rw [weight_inner]
        show wrap32 (l.freq + r.freq) = _
        rw [hwrap, (hF l hlF).1, (hF r hrF).1]
        push_cast
        rfl
      · show wrap32 (l.freq + r.freq) = _
        exact hwrap
    · exact hF x (hperm.symm.subset (List.mem_cons_of_mem _ (List.mem_cons_of_mem _ hx)))

theorem countFreq_eq_counts (text : List Byte) (hlen : text.length < 2147483648) :
    countFreq text = ((countFreq text).map Prod.fst).map (fun c => (c, (text.count c : Int))) := by
  rw [List.map_map]
  conv_lhs => rw [← List.map_id (countFreq text)]
  apply List.map_congr_left
  intro p hp
  obtain ⟨_, hf⟩ := countFreq_mem text p.1 p.2 hp
  have hc : text.count p.1 ≤ text.length := List.count_le_length _ _
  rw [wrap32_id _ (by omega) (by omega)] at hf
  simp only [id, Function.comp]
  rw [← hf]

theorem weight_of_leaves_perm (text : List Byte) (t : Node)
    (hperm : t.leaves.Perm (countFreq text)) : weight text t = text.length := by
  have h1 : (t.leaves.map (fun p => text.count p.1)).Perm
      (text.dedup.map (fun c => text.count c)) := by
    have := ((hperm.map Prod.fst).trans (countFreq_keys_perm text)).map (fun c => text.count c)
    simpa [List.map_map, Function.comp] using this
  unfold weight
  rw [h1.sum_eq]
  exact List.sum_map_count_dedup_eq_length text

/-- C16 (amended). Tree shape and weights: for every non-empty input of fewer than 2^31
bytes, `buildHuffmanTree` returns a tree (a `Node` has two children or none) whose leaves
are exactly the distinct input bytes, each once and with its occurrence count as `freq`;
the `freq` of every inner node is the sum of those of its two children, and the `freq` of
the root equals the input length. -/
theorem tree_shape_and_weights (std : StdLib) (hstd : std.Lawful) (text : List Byte)
    (hne : text ≠ []) (hlen : text.length < 2147483648) :
    ∃ root, buildHuffmanTree std text = some root ∧
      root.leaves.Perm (text.dedup.map (fun c => (c, (text.count c : Int)))) ∧
      root.WeightsAdd ∧ root.freq = (text.length : Int) := by
  obtain ⟨root, hroot, hm⟩ := buildHuffmanTree_spec std hstd text hne
  have hperm : root.leaves.Perm (countFreq text) := by
    have := hm.leaves_perm
    rwa [leafForest_leaves] at this
  have hnd : (((leafForest text).flatMap Node.leaves).map Prod.fst).Nodup := by
    rw [leafForest_leaves]; exact countFreq_nodup text
  have hF : ∀ x ∈ leafForest text, x.freq = (weight text x : Int) ∧ x.WeightsAdd := by
    intro x hx
    refine ⟨leafForest_freq text hlen x hx, ?_⟩
    obtain ⟨p, _, rfl⟩ := List.mem_map.1 hx
    trivial
  obtain ⟨hfreq, hadd⟩ := hm.weights text hlen hF hnd
  refine ⟨root, hroot, ?_, hadd, ?_⟩
  · refine hperm.trans ?_
    rw [countFreq_eq_counts text hlen]
    exact (countFreq_keys_perm text).map _
  · rw [hfreq, weight_of_leaves_perm text root hperm]

/-- C16 at the input `abracadabra` on the reference library. -/
theorem tree_shape_and_weights_witness :
    refStd.Lawful ∧ ([97, 98, 114, 97, 99, 97, 100, 97, 98, 114, 97] : List Byte) ≠ [] ∧
    ([97, 98, 114, 97, 99, 97, 100, 97, 98, 114, 97] : List Byte).length < 2147483648 ∧
    ∃ root,
      buildHuffmanTree refStd [97, 98, 114, 97, 99, 97, 100, 97, 98, 114, 97] = some root ∧
      root.leaves.Perm (([97, 98, 114, 97, 99, 97, 100, 97, 98, 114, 97] : List Byte).dedup.map
        (fun c => (c,
          (([97, 98, 114, 97, 99, 97, 100, 97, 98, 114, 97] : List Byte).count c : Int)))) ∧
      root.WeightsAdd ∧
      root.freq = (([97, 98, 114, 97, 99, 97, 100, 97, 98, 114, 97] : List Byte).length : Int) :=
  ⟨refStd_lawful, by decide, by decide,
    tree_shape_and_weights refStd refStd_lawful
      [97, 98, 114, 97, 99, 97, 100, 97, 98, 114, 97] (by decide) (by decide)⟩

theorem length_replicate_append {α : Type} (n : Nat) (a : α) (rest : List α) :
    (List.replicate n a ++ rest).length = n + rest.length := by
  rw [List.length_append, List.length_replicate]

/-- C16, counterexample: on an input of 2^31 bytes `a` followed by `b` and `c` the leaf of
`a` carries the weight -2^31, not its count, and the weight of the root is -2147483646,
not the input length 2147483650. -/
theorem root_weight_wraps :
    ∃ root, buildHuffmanTree refStd (List.replicate 2147483648 97 ++ [98, 99]) = some root ∧
      ((97 : Byte), (-2147483648 : Int)) ∈ root.leaves ∧
      root.freq = -2147483646 ∧
      (List.replicate 2147483648 97 ++ [98, 99] : List Byte).length = 2147483650 := by
  have hcf : countFreq (List.replicate 2147483648 97 ++ [98, 99]) =
      [(97, -2147483648), (98, 1), (99, 1)] := by
    rw [show (2147483648 : Nat) = 2147483647 + 1 from rfl, countFreq_replicate_append]
    decide
  exact ⟨_, build_of_wrapped_count _ hcf, by decide, rfl,
    length_replicate_append 2147483648 97 [98, 99]⟩

/-! ## C15: more frequent symbols have codes that are no longer -/

theorem leafCodes_depths (t : Node) : ∀ str : List Byte,
    (t.leafCodes str).map (fun p => (p.1, p.2.length)) = t.leafDepths str.length := by
  induction t with
  | leaf c f => intro str; rfl
  | inner c f l r ihl ihr =>
    intro str
    simp only [Node.leafCodes, Node.leafDepths, List.map_append]
    rw [ihl, ihr]
    simp

theorem mem_leafDepths_of_table (t : Node) (s : Byte) (c : List Byte)
    (h : (s, c) ∈ tableOf t) : (s, c.length) ∈ t.leafDepths 0 := by
  have h1 : (s, c) ∈ t.leafCodes [] := List.mem_of_mem_filter h
  have h2 := List.mem_map_of_mem (fun p : Byte × List Byte => (p.1, p.2.length)) h1
  rw [leafCodes_depths] at h2
  exact h2

/-- The result of the merge loop weighs no more than any assignment of the counts to the
leaf depths of a tree. -/
theorem optimal_of_merges_pairs (text : List Byte) (hlen : text.length < 2147483648)
    (root : Node) (hm : Merges (leafForest text) root) (P : Multiset (Nat × Nat))
    (hP : TreeDepths (P.map Prod.snd))
    (hw : P.map Prod.fst = (pairsOf text root).map Prod.fst) :
    weightedPathLength text root ≤ dot P := by
  have hnd : (((leafForest text).flatMap Node.leaves).map Prod.fst).Nodup := by
    rw [leafForest_leaves]; exact countFreq_nodup text
  have hperm : root.leaves.Perm (countFreq text) := by
    have := hm.leaves_perm
    rwa [leafForest_leaves] at this
  have hw2 : P.map Prod.fst =
      (((leafForest text).map (weight text) : List Nat) : Multiset Nat) := by
    rw [hw, pairsOf_weights, leafForest_weights, Multiset.coe_eq_coe]
    exact (hperm.map Prod.fst).map _
  have h := hm.cost_le text hlen (leafForest_freq text hlen) hnd P hP hw2
  rw [leafForest_wpl] at h
  omega

/-- In the tree of the merge loop a byte that occurs more often than another does not lie
deeper. -/
theorem depth_le_of_count_lt (text : List Byte) (hlen : text.length < 2147483648)
    (root : Node) (hm : Merges (leafForest text) root) (a b : Byte) (da db : Nat)
    (ha : (a, da) ∈ root.leafDepths 0) (hb : (b, db) ∈ root.leafDepths 0)
    (hcount : text.count b < text.count a) : da ≤ db := by
  by_contra hlt
  have hdb : db < da := by omega
  have hab : (a, da) ≠ (b, db) := by
    intro e
    have := (Prod.mk.inj e).2
    omega
  have hM : pairsOf text root =
      ((root.leafDepths 0 : List (Byte × Nat)) : Multiset (Byte × Nat)).map
        (fun p => (text.count p.1, p.2)) := by
    unfold pairsOf
    rw [Multiset.map_coe]
  obtain ⟨M1, hM1⟩ := Multiset.exists_cons_of_mem
    (show (a, da) ∈ ((root.leafDepths 0 : List (Byte × Nat)) : Multiset (Byte × Nat)) from
      Multiset.mem_coe.2 ha)
  have hb1 : (b, db) ∈ M1 := by
    have : (b, db) ∈ (a, da) ::ₘ M1 := hM1 ▸ Multiset.mem_coe.2 hb
    rcases Multiset.mem_cons.1 this with h | h
    · exact absurd h.symm hab
    · exact h
  obtain ⟨M2, hM2⟩ := Multiset.exists_cons_of_mem hb1
  have hpairs : pairsOf text root =
      (text.count a, da) ::ₘ (text.count b, db) ::ₘ
        M2.map (fun p => (text.count p.1, p.2)) := by
    rw [hM, hM1, hM2]
    simp only [Multiset.map_cons]
  have hopt := optimal_of_merges_pairs text hlen root hm
    ((text.count b, da) ::ₘ (text.count a, db) ::ₘ M2.map (fun p => (text.count p.1, p.2)))
    (by
      have h := treeDepths_pairsOf text root
      rw [hpairs] at h
      simpa using h)
    (by
      rw [hpairs]
      simp only [Multiset.map_cons]
      exact Multiset.cons_swap _ _ _)
  rw [← dot_pairsOf, hpairs] at hopt
  simp only [dot_cons] at hopt
  obtain ⟨x, hx⟩ := Nat.exists_eq_add_of_lt hcount
  obtain ⟨y, hy⟩ := Nat.exists_eq_add_of_lt hdb
  rw [hx, hy] at hopt
  nlinarith [Nat.zero_le (x * y)]

/-- C15 (amended). Frequency monotonicity: for every non-empty input of fewer than 2^31
bytes compressed on a fresh coder and every two symbols `a` and `b` of the code table, if
`a` occurs strictly more often in the input than `b`, then the code of `a` is not longer
than the code of `b`. -/
theorem frequent_symbols_have_shorter_codes (std : StdLib) (hstd : std.Lawful)
    (text : List Byte) (hne : text ≠ []) (hlen : text.length < 2147483648) :
    ∃ root, buildHuffmanTree std text = some root ∧
      ∀ (a b : Byte) (ca cb : List Byte),
        UMap.find (generateCodes root [] fresh) a = some ca →
        UMap.find (generateCodes root [] fresh) b = some cb →
        text.count b < text.count a → ca.length ≤ cb.length := by
  obtain ⟨root, hroot, hm⟩ := buildHuffmanTree_spec std hstd text hne
  have hperm : root.leaves.Perm (countFreq text) := by
    have := hm.leaves_perm
    rwa [leafForest_leaves] at this
  have hnd := leaves_keys_nodup text root hperm
  have hmark := hm.marked (leafForest_marked text)
  refine ⟨root, hroot, ?_⟩
  intro a b ca cb ha hb hcount
  rw [generateCodes_fresh_eq root hmark hnd] at ha hb
  exact depth_le_of_count_lt text hlen root hm a b ca.length cb.length
    (mem_leafDepths_of_table root a ca (UMap.find_some_mem _ _ _ ha))
    (mem_leafDepths_of_table root b cb (UMap.find_some_mem _ _ _ hb)) hcount

/-- C15 at the input `abracadabra` on the reference library. -/
theorem frequent_symbols_have_shorter_codes_witness :
    refStd.Lawful ∧ ([97, 98, 114, 97, 99, 97, 100, 97, 98, 114, 97] : List Byte) ≠ [] ∧
    ([97, 98, 114, 97, 99, 97, 100, 97, 98, 114, 97] : List Byte).length < 2147483648 ∧
    ∃ root,
      buildHuffmanTree refStd [97, 98, 114, 97, 99, 97, 100, 97, 98, 114, 97] = some root ∧
      ∀ (a b : Byte) (ca cb : List Byte),
        UMap.find (generateCodes root [] fresh) a = some ca →
        UMap.find (generateCodes root [] fresh) b = some cb →
        ([97, 98, 114, 97, 99, 97, 100, 97, 98, 114, 97] : List Byte).count b <
          ([97, 98, 114, 97, 99, 97, 100, 97, 98, 114, 97] : List Byte).count a →
        ca.length ≤ cb.length :=
  ⟨refStd_lawful, by decide, by decide,
    frequent_symbols_have_shorter_codes refStd refStd_lawful
      [97, 98, 114, 97, 99, 97, 100, 97, 98, 114, 97] (by decide) (by decide)⟩

theorem count_replicate_append_self (n : Nat) (rest : List Byte) (h : rest.count 97 = 0) :
    (List.replicate n 97 ++ rest : List Byte).count 97 = n := by
  rw [List.count_append, List.count_replicate_self, h]
  rfl

theorem count_replicate_append_other (n : Nat) (rest : List Byte) (c : Byte) (hc : c ≠ 97) :
    (List.replicate n 97 ++ rest : List Byte).count c = rest.count c := by
  rw [List.count_append, List.count_replicate]
  have : ¬ ((97 : Byte) == c) = true := by
    simp only [beq_iff_eq]
    exact fun e => hc e.symm
  simp [this]

/-- C15, counterexample: on an input of 2^31 bytes `a` followed by `b` and `c` the count
of `a` wraps to -2^31; `a` occurs 2^31 times and gets a code of two bits, `c` occurs once
and gets a code of one bit. -/
theorem frequent_symbol_gets_longer_code_when_count_wraps :
    ∃ root, buildHuffmanTree refStd (List.replicate 2147483648 97 ++ [98, 99]) = some root ∧
      UMap.find (generateCodes root [] fresh) 97 = some [48, 48] ∧
      UMap.find (generateCodes root [] fresh) 99 = some [49] ∧
      (List.replicate 2147483648 97 ++ [98, 99] : List Byte).count 97 = 2147483648 ∧
      (List.replicate 2147483648 97 ++ [98, 99] : List Byte).count 99 = 1 := by
  have hcf : countFreq (List.replicate 2147483648 97 ++ [98, 99]) =
      [(97, -2147483648), (98, 1), (99, 1)] := by
    rw [show (2147483648 : Nat) = 2147483647 + 1 from rfl, countFreq_replicate_append]
    decide
  refine ⟨_, build_of_wrapped_count _ hcf, by decide, by decide,
    count_replicate_append_self 2147483648 [98, 99] (by decide), ?_⟩
  rw [count_replicate_append_other 2147483648 [98, 99] 99 (by decide)]
  decide

/-! ## C17: ties in the priority queue -/

theorem monitorLoop_least (pq : PriorityQueue) (hpq : pq.Lawful) :
    ∀ (fuel : Nat) (q : pq.Q) (arrivals : List Node), arrivals.Perm (pq.elems q) →
      monitorLoop popIsLeast pq fuel q arrivals = true := by
  intro fuel
  induction fuel with
  | zero => intro q arrivals _; rfl
  | succ fuel ih =>
    intro q arrivals hperm
    unfold monitorLoop
    split
    · have hleast : ∀ (q0 : pq.Q) (arr : List Node) (x : Node), arr.Perm (pq.elems q0) →
          pq.top q0 = some x → popIsLeast arr x = true := by
        intro q0 arr x hp hx
        unfold popIsLeast
        rw [List.all_eq_true]
        intro y hy
        have := hpq.top_least q0 x hx y (hp.subset hy)
        rw [Compare_false_iff] at this
        simpa using this
      have hpop : ∀ (q0 : pq.Q) (arr : List Node) (x : Node), arr.Perm (pq.elems q0) →
          pq.top q0 = some x → (arr.erase x).Perm (pq.elems (pq.pop q0)) := by
        intro q0 arr x hp hx
        have h1 := (hp.trans (hpq.elems_pop q0 x hx).symm).erase x
        rwa [List.erase_cons_head] at h1
      cases hl : pq.top q with
      | none => rfl
      | some left =>
        simp only
        cases hr : pq.top (pq.pop q) with
        | none => exact hleast q arrivals left hperm hl
        | some right =>
          simp only
          have hp1 := hpop q arrivals left hperm hl
          have hp2 := hpop (pq.pop q) _ right hp1 hr
          rw [hleast q arrivals left hperm hl, hleast (pq.pop q) _ right hp1 hr]
          simp only [Bool.and_self, Bool.true_and]
          apply ih
          refine List.Perm.trans ?_ (hpq.elems_push _ _).symm
          exact (List.perm_append_singleton _ _).trans (List.Perm.cons _ hp2)
    · rfl

/-- C17 (amended). Order of extraction: for every input, every node that the merge loop
of `buildHuffmanTree` takes off the priority queue has the least weight of the nodes in
the queue at that moment (with a non-empty input the loop ends with the tree). Which
of several nodes of that least weight is taken is left to the priority queue: `Compare`
looks at the weights only. -/
theorem extraction_takes_least_weight (std : StdLib) (hstd : std.Lawful) (text : List Byte)
    (hne : text ≠ []) :
    extractionsSatisfy popIsLeast std text = true ∧
      ∃ root, buildHuffmanTree std text = some root ∧ Merges (leafForest text) root := by
  refine ⟨?_, buildHuffmanTree_spec std hstd text hne⟩
  unfold extractionsSatisfy
  apply monitorLoop_least std.pq hstd.pq_lawful
  exact ((UMap.iterate_perm std.order hstd.order_perm _ (countFreq_nodup text)).map _).trans
    (pushLeaves_perm std hstd (countFreq text) (countFreq_nodup text)).symm

/-- C17 at the input `abracadabra` on the reference library. -/
theorem extraction_takes_least_weight_witness :
    refStd.Lawful ∧ ([97, 98, 114, 97, 99, 97, 100, 97, 98, 114, 97] : List Byte) ≠ [] ∧
    extractionsSatisfy popIsLeast refStd [97, 98, 114, 97, 99, 97, 100, 97, 98, 114, 97] =
      true ∧
    ∃ root,
      buildHuffmanTree refStd [97, 98, 114, 97, 99, 97, 100, 97, 98, 114, 97] = some root ∧
      Merges (leafForest [97, 98, 114, 97, 99, 97, 100, 97, 98, 114, 97]) root :=
  ⟨refStd_lawful, by decide,
    extraction_takes_least_weight refStd refStd_lawful
      [97, 98, 114, 97, 99, 97, 100, 97, 98, 114, 97] (by decide)⟩

/-- C17, counterexample: on the input `abcd` the four leaves have weight 1 and are pushed
in the order `a`, `b`, `c`, `d`. The binary heap of `std::priority_queue` gives `a` first;
`pop` then moves `c` to the front of the vector, so `c` is taken off next although `b`,
of the same weight, was pushed before it. With the leaves pushed in the opposite order
(`d`, `c`, `b`, `a`) the heap gives `d` and then `b`, again not the earliest arrival. -/
theorem heap_breaks_ties_out_of_order :
    (UMap.iterate heapStd.order (countFreq [97, 98, 99, 100])).map
        (fun p => Node.leaf p.1 p.2) =
      [.leaf 97 1, .leaf 98 1, .leaf 99 1, .leaf 100 1] ∧
    heapPQ.elems (pushLeaves heapStd (countFreq [97, 98, 99, 100])) =
      [.leaf 97 1, .leaf 98 1, .leaf 99 1, .leaf 100 1] ∧
    heapPQ.top (pushLeaves heapStd (countFreq [97, 98, 99, 100])) = some (.leaf 97 1) ∧
    heapPQ.elems (heapPQ.pop (pushLeaves heapStd (countFreq [97, 98, 99, 100]))) =
      [.leaf 99 1, .leaf 98 1, .leaf 100 1] ∧
    heapPQ.top (heapPQ.pop (pushLeaves heapStd (countFreq [97, 98, 99, 100]))) =
      some (.leaf 99 1) ∧
    extractionsSatisfy popIsFifo heapStd [97, 98, 99, 100] = false ∧
    extractionsSatisfy popIsLeast heapStd [97, 98, 99, 100] = true ∧
    heapPQ.top (heapPQ.pop (pushLeaves ⟨heapPQ, List.reverse⟩ (countFreq [97, 98, 99, 100]))) =
      some (.leaf 98 1) ∧
    extractionsSatisfy popIsFifo ⟨heapPQ, List.reverse⟩ [97, 98, 99, 100] = false := by
  refine ⟨by decide, by decide, by decide, by decide, by decide, by decide, by decide,
    by decide, by decide⟩

end Huffman
